import Mathlib

/-!
Shallow embedding of the crossword layout engine
(`backend/src/services/improvedCrosswordService.js`, the multi-attempt
builder exported as `buildCrossword`).

Modelling conventions:
* a grid cell is `Option Char`: `none` is the empty-string sentinel `''`,
  `some c` a single letter; the grid is a row-major `List (List Cell)`;
* JS machine numbers used for scores are modelled as exact rationals `ℚ`
  (the score formulas only involve small integer operands and divisions);
* `Math.random()` draws are abstracted into an explicit stream
  `rnd : Nat → Nat`; the k-th draw `Math.floor(Math.random() * n)` is
  modelled as `rnd k % n`, which ranges over the same interval `[0, n)`;
* the one statement that can raise a `TypeError` at runtime (writing the
  seed word below row 29 of the 30-row scratch grid, which the source
  wraps in `try/catch` and treats as a failed attempt) is modelled by an
  explicit guard that abandons the attempt;
* both generic `Error` throws of `buildCrossword` that fire before any
  placement work are the spec's `TooFewValidWords`; the final throw is
  `LayoutConstructionFailed`.
-/

namespace MusicCrossword

/-- A grid cell: `none` models the empty-string sentinel. -/
abbrev Cell := Option Char

/-- A row-major 2D grid of cells. -/
abbrev Grid := List (List Cell)

/-- A (row, col) coordinate, 0-indexed. -/
structure Pos where
  row : Nat
  col : Nat
deriving DecidableEq, Repr

/-- Placement orientation. -/
inductive Dir
  | across
  | down
deriving DecidableEq, Repr

/-- One placed word, as returned to callers. -/
structure Entry where
  answer : List Char
  clue : String
  position : Pos
  direction : Dir
  number : Nat
deriving DecidableEq, Repr

/-- A candidate placement `{row, col, direction}`. -/
structure Placement where
  row : Nat
  col : Nat
  direction : Dir
deriving DecidableEq, Repr

/-- One input record `{question, answer}`. -/
structure Question where
  question : String
  answer : String
deriving DecidableEq, Repr

/-- A preprocessed candidate `{word, question}` (the unused
`originalAnswer` field of the source is dropped). -/
structure WordData where
  word : List Char
  question : String
deriving DecidableEq, Repr

/-- The success value `{grid, entries}` of `buildCrossword`. -/
structure CrosswordResult where
  grid : Grid
  entries : List Entry
deriving DecidableEq, Repr

/-- The two failure outcomes of the engine. -/
inductive BuildError
  | tooFewValidWords
  | layoutConstructionFailed
deriving DecidableEq, Repr

/-- Row `r` of the grid (`[]` when out of range), written with a bare
recursor so that kernel evaluation of concrete examples stays cheap. -/
def rowAt : Nat → Grid → List Cell :=
  Nat.rec (motive := fun _ => Grid → List Cell)
    (fun g => g.casesOn [] (fun h _ => h))
    (fun _ ih g => g.casesOn [] (fun _ t => ih t))

/-- Cell `c` of a row (the empty sentinel when out of range). -/
def cellAt : Nat → List Cell → Cell :=
  Nat.rec (motive := fun _ => List Cell → Cell)
    (fun row => row.casesOn none (fun h _ => h))
    (fun _ ih row => row.casesOn none (fun _ t => ih t))

/-- `grid[r][c]` with out-of-range reads giving the empty sentinel;
`getCell_eq` below states the usual indexed form. -/
def getCell (g : Grid) (r c : Nat) : Cell :=
  cellAt c (rowAt r g)

/-- `List.length`, written with a bare recursor for cheap kernel
evaluation; `listLen_eq` below identifies it with `List.length`. -/
def listLen {α : Type} : List α → Nat :=
  List.rec (motive := fun _ => Nat) 0 (fun _ _ ih => ih + 1)

theorem listLen_eq {α : Type} : ∀ (l : List α), listLen l = l.length
  | [] => rfl
  | _ :: t => by
    show listLen t + 1 = _
    rw [listLen_eq t]
    rfl

/-- `grid[r][c] = ch`; out-of-range writes are dropped (such writes are
never observable in the source: rows are never read past index
`grid[0].length - 1`, and a write past the last row throws, which is
modelled by the seed guard in `runAttempt`). -/
def setCell (g : Grid) (r c : Nat) (ch : Char) : Grid :=
  g.set r ((g.getD r []).set c (some ch))

/-- `grid.length`. -/
def gridRows (g : Grid) : Nat := listLen g

/-- `grid[0].length`. -/
def gridCols (g : Grid) : Nat := listLen (rowAt 0 g)

/-- `initializeEmptyGrid` of the source: a rows × cols grid of `''`. -/
def emptyGrid (rows cols : Nat) : Grid :=
  List.replicate rows (List.replicate cols (none : Cell))

/-- `answer.toUpperCase().replace(/[^A-Z]/g, '')` as a character list. -/
def cleanAnswer (s : String) : List Char :=
  (s.toList.map Char.toUpper).filter (fun ch => decide ('A' ≤ ch) && decide (ch ≤ 'Z'))

/-- The source's filter: `/^[A-Z]+$/.test(word)` and `word.length >= 3`. -/
def isValidWord (w : List Char) : Bool :=
  decide (w ≠ []) && w.all (fun ch => decide ('A' ≤ ch) && decide (ch ≤ 'Z')) &&
    decide (3 ≤ w.length)

/-- The sort comparator `(a, b) => b.word.length - a.word.length`, as the
total `le` preorder of the stable sort: descending word length. -/
def wordLenDesc (a b : WordData) : Prop :=
  b.word.length ≤ a.word.length

instance : DecidableRel wordLenDesc := fun a b => by
  unfold wordLenDesc
  infer_instance

instance : IsTotal WordData wordLenDesc := by
  constructor
  intro a b
  unfold wordLenDesc
  omega

instance : IsTrans WordData wordLenDesc := by
  constructor
  intro a b c h1 h2
  unfold wordLenDesc at h1 h2 ⊢
  omega

/-- The mapped-and-filtered word list of `buildCrossword`, before sorting. -/
def filteredWords (qs : List Question) : List WordData :=
  (qs.map (fun q => ({ word := cleanAnswer q.answer, question := q.question } : WordData))).filter
    (fun wd => isValidWord wd.word)

/-- The full word preprocessing of `buildCrossword`: clean, filter, and
stable-sort by descending cleaned length.  JS `Array.prototype.sort` is a
stable sort; a stable sort under a total preorder has a unique result, so
it is modelled by insertion sort. -/
def preprocess (qs : List Question) : List WordData :=
  (filteredWords qs).insertionSort wordLenDesc

/-- Result of a `canPlaceWord…` check. -/
structure PlaceCheck where
  canPlace : Bool
  intersections : Nat
deriving DecidableEq, Repr

theorem getCell_def (g : Grid) (r c : Nat) : getCell g r c = cellAt c (rowAt r g) := rfl

/-- The per-letter loop of `canPlaceWordHorizontally`: `c` is the current
column, `inters` the running intersection count, `found` the running
`intersectionFound` flag.  The three grid rows the loop can touch (the
word's own row and its two perpendicular neighbors) are looked up once
and passed in, and each cell is read once and then inspected, mirroring
the source's single `currentCell` read. -/
def canPlaceHAux (rowU rowM rowD : List Cell) (row rows : Nat) (w : List Char) :
    Nat → Nat → Bool → PlaceCheck :=
  w.rec (motive := fun _ => Nat → Nat → Bool → PlaceCheck)
    (fun _ inters found => ⟨found || decide (0 < inters), inters⟩)
    (fun ch _rest ih c inters found =>
      (fun cell =>
        Option.casesOn (motive := fun _ => PlaceCheck) cell
          (if (0 < row ∧ cellAt c rowU ≠ none) ∨
              (row < rows - 1 ∧ cellAt c rowD ≠ none) then ⟨false, 0⟩
            else ih (c + 1) inters found)
          (fun x =>
            if x = ch then
              ih (c + 1) (inters + 1) (found ||
                ((decide (0 < row) && decide (cellAt c rowU ≠ none)) ||
                  (decide (row < rows - 1) && decide (cellAt c rowD ≠ none))))
            else ⟨false, 0⟩))
        (cellAt c rowM))

theorem canPlaceHAux_nil (rowU rowM rowD : List Cell) (row rows c i : Nat) (f : Bool) :
    canPlaceHAux rowU rowM rowD row rows [] c i f = ⟨f || decide (0 < i), i⟩ := rfl

theorem canPlaceHAux_step (rowU rowM rowD : List Cell) (row rows : Nat) (ch : Char)
    (rest : List Char) (c i : Nat) (f : Bool) :
    canPlaceHAux rowU rowM rowD row rows (ch :: rest) c i f =
      Option.casesOn (motive := fun _ => PlaceCheck) (cellAt c rowM)
        (if (0 < row ∧ cellAt c rowU ≠ none) ∨
            (row < rows - 1 ∧ cellAt c rowD ≠ none) then ⟨false, 0⟩
          else canPlaceHAux rowU rowM rowD row rows rest (c + 1) i f)
        (fun x =>
          if x = ch then
            canPlaceHAux rowU rowM rowD row rows rest (c + 1) (i + 1) (f ||
              ((decide (0 < row) && decide (cellAt c rowU ≠ none)) ||
                (decide (row < rows - 1) && decide (cellAt c rowD ≠ none))))
          else ⟨false, 0⟩) := rfl

/-- `canPlaceWordHorizontally(grid, word, row, col)`. -/
def canPlaceWordHorizontally (g : Grid) (w : List Char) (row col : Nat) : PlaceCheck :=
  if gridCols g < col + listLen w then ⟨false, 0⟩
  else if 0 < col ∧ getCell g row (col - 1) ≠ none then ⟨false, 0⟩
  else if col + listLen w < gridCols g ∧ getCell g row (col + listLen w) ≠ none then ⟨false, 0⟩
  else canPlaceHAux (rowAt (row - 1) g) (rowAt row g) (rowAt (row + 1) g)
    row (gridRows g) w col 0 false

/-- The per-letter loop of `canPlaceWordVertically`.  Each visited row is
looked up once per step and its three cells (the word's column and its
two perpendicular neighbors) are read from it. -/
def canPlaceVAux (g : Grid) (col cols : Nat) (w : List Char) :
    Nat → Nat → Bool → PlaceCheck :=
  w.rec (motive := fun _ => Nat → Nat → Bool → PlaceCheck)
    (fun _ inters found => ⟨found || decide (0 < inters), inters⟩)
    (fun ch _rest ih r inters found =>
      (fun rw =>
        (fun cell =>
          Option.casesOn (motive := fun _ => PlaceCheck) cell
            (if (0 < col ∧ cellAt (col - 1) rw ≠ none) ∨
                (col < cols - 1 ∧ cellAt (col + 1) rw ≠ none) then ⟨false, 0⟩
              else ih (r + 1) inters found)
            (fun x =>
              if x = ch then
                ih (r + 1) (inters + 1) (found ||
                  ((decide (0 < col) && decide (cellAt (col - 1) rw ≠ none)) ||
                    (decide (col < cols - 1) && decide (cellAt (col + 1) rw ≠ none))))
              else ⟨false, 0⟩))
          (cellAt col rw))
        (rowAt r g))

theorem canPlaceVAux_nil (g : Grid) (col cols r i : Nat) (f : Bool) :
    canPlaceVAux g col cols [] r i f = ⟨f || decide (0 < i), i⟩ := rfl

theorem canPlaceVAux_step (g : Grid) (col cols : Nat) (ch : Char) (rest : List Char)
    (r i : Nat) (f : Bool) :
    canPlaceVAux g col cols (ch :: rest) r i f =
      Option.casesOn (motive := fun _ => PlaceCheck) (cellAt col (rowAt r g))
        (if (0 < col ∧ cellAt (col - 1) (rowAt r g) ≠ none) ∨
            (col < cols - 1 ∧ cellAt (col + 1) (rowAt r g) ≠ none) then ⟨false, 0⟩
          else canPlaceVAux g col cols rest (r + 1) i f)
        (fun x =>
          if x = ch then
            canPlaceVAux g col cols rest (r + 1) (i + 1) (f ||
              ((decide (0 < col) && decide (cellAt (col - 1) (rowAt r g) ≠ none)) ||
                (decide (col < cols - 1) && decide (cellAt (col + 1) (rowAt r g) ≠ none))))
          else ⟨false, 0⟩) := rfl

/-- `canPlaceWordVertically(grid, word, row, col)`. -/
def canPlaceWordVertically (g : Grid) (w : List Char) (row col : Nat) : PlaceCheck :=
  if gridRows g < row + listLen w then ⟨false, 0⟩
  else if 0 < row ∧ getCell g (row - 1) col ≠ none then ⟨false, 0⟩
  else if row + listLen w < gridRows g ∧ getCell g (row + listLen w) col ≠ none then ⟨false, 0⟩
  else canPlaceVAux g col (gridCols g) w row 0 false

/-- The horizontal per-letter step, re-expressed as the source's if-chain on
`getCell` when the three row arguments come from the grid itself. -/
theorem canPlaceHAux_cons (g : Grid) (row rows : Nat) (ch : Char) (rest : List Char)
    (c i : Nat) (f : Bool) :
    canPlaceHAux (rowAt (row - 1) g) (rowAt row g) (rowAt (row + 1) g) row rows
        (ch :: rest) c i f =
      if getCell g row c ≠ none ∧ getCell g row c ≠ some ch then ⟨false, 0⟩
      else if getCell g row c = some ch then
        canPlaceHAux (rowAt (row - 1) g) (rowAt row g) (rowAt (row + 1) g) row rows
          rest (c + 1) (i + 1) (f ||
          ((decide (0 < row) && decide (getCell g (row - 1) c ≠ none)) ||
            (decide (row < rows - 1) && decide (getCell g (row + 1) c ≠ none))))
      else
        if (0 < row ∧ getCell g (row - 1) c ≠ none) ∨
            (row < rows - 1 ∧ getCell g (row + 1) c ≠ none) then ⟨false, 0⟩
        else canPlaceHAux (rowAt (row - 1) g) (rowAt row g) (rowAt (row + 1) g) row rows
          rest (c + 1) i f := by
  rw [canPlaceHAux_step]
  simp only [← getCell_def]
  rcases hcell : getCell g row c with _ | x
  · simp
  · by_cases hx : x = ch
    · subst hx; simp
    · simp [hx]

/-- The vertical per-letter step, re-expressed as the source's if-chain on
`getCell`. -/
theorem canPlaceVAux_cons (g : Grid) (col cols : Nat) (ch : Char) (rest : List Char)
    (r i : Nat) (f : Bool) :
    canPlaceVAux g col cols (ch :: rest) r i f =
      if getCell g r col ≠ none ∧ getCell g r col ≠ some ch then ⟨false, 0⟩
      else if getCell g r col = some ch then
        canPlaceVAux g col cols rest (r + 1) (i + 1) (f ||
          ((decide (0 < col) && decide (getCell g r (col - 1) ≠ none)) ||
            (decide (col < cols - 1) && decide (getCell g r (col + 1) ≠ none))))
      else
        if (0 < col ∧ getCell g r (col - 1) ≠ none) ∨
            (col < cols - 1 ∧ getCell g r (col + 1) ≠ none) then ⟨false, 0⟩
        else canPlaceVAux g col cols rest (r + 1) i f := by
  rw [canPlaceVAux_step]
  simp only [← getCell_def]
  rcases hcell : getCell g r col with _ | x
  · simp
  · by_cases hx : x = ch
    · subst hx; simp
    · simp [hx]

/-- Dispatch a placement candidate to the direction-specific check. -/
def evalPlacement (g : Grid) (w : List Char) (p : Placement) : PlaceCheck :=
  match p.direction with
  | .across => canPlaceWordHorizontally g w p.row p.col
  | .down => canPlaceWordVertically g w p.row p.col

/-- The scan order of `findBestPlacement`: row-major over all cells, with
the horizontal candidate checked before the vertical one at each cell. -/
def scanPlacements (rows cols : Nat) : List Placement :=
  (List.range rows).flatMap (fun r =>
    (List.range cols).flatMap (fun c =>
      [⟨r, c, .across⟩, ⟨r, c, .down⟩]))

/-- One update of the running best of `findBestPlacement`: replace only on
`canPlace && intersections > bestScore` (`bestScore` starts at `-1`). -/
def bestStep (g : Grid) (w : List Char) (best : Int × Option Placement)
    (p : Placement) : Int × Option Placement :=
  let pc := evalPlacement g w p
  if pc.canPlace = true ∧ best.1 < (pc.intersections : Int) then
    ((pc.intersections : Int), some p)
  else best

/-- `findBestPlacement(grid, word)`. -/
def findBestPlacement (g : Grid) (w : List Char) : Option Placement :=
  ((scanPlacements (gridRows g) (gridCols g)).foldl (bestStep g w) (-1, none)).2

/-- The write loop of `placeWordInGrid`, with `i` the letter index. -/
def placeWordAux (p : Placement) : Grid → List Char → Nat → Grid
  | g, [], _ => g
  | g, ch :: rest, i =>
    match p.direction with
    | .across => placeWordAux p (setCell g p.row (p.col + i) ch) rest (i + 1)
    | .down => placeWordAux p (setCell g (p.row + i) p.col ch) rest (i + 1)

/-- `placeWordInGrid(grid, word, placement)` as a pure grid update. -/
def placeWordInGrid (g : Grid) (w : List Char) (p : Placement) : Grid :=
  placeWordAux p g w 0

/-- Aggregate statistics of the nested scan loops shared by `scoreGrid`
and `trimGrid`: filled-cell count and bounds of the filled area, with the
source's initial values `minRow = rows`, `maxRow = 0`, etc. -/
structure GridStats where
  filled : Nat
  minRow : Nat
  maxRow : Nat
  minCol : Nat
  maxCol : Nat
deriving DecidableEq, Repr

/-- The row-major cell scan computing `GridStats`. -/
def gridStats (g : Grid) : GridStats :=
  (List.range (gridRows g)).foldl (fun s r =>
    (List.range (gridCols g)).foldl (fun s c =>
      if getCell g r c ≠ none then
        ⟨s.filled + 1, min s.minRow r, max s.maxRow r, min s.minCol c, max s.maxCol c⟩
      else s) s)
    ⟨0, gridRows g, 0, gridCols g, 0⟩

/-- `scoreGrid(grid, placedWords, totalWords)`; JS floating point is
modelled as exact rational arithmetic. -/
def scoreGrid (g : Grid) (placed total : Nat) : ℚ :=
  let s := gridStats g
  let placementScore : ℚ := ((placed : ℚ) / (total : ℚ)) * 100
  let height : ℚ := (s.maxRow : ℚ) - (s.minRow : ℚ) + 1
  let width : ℚ := (s.maxCol : ℚ) - (s.minCol : ℚ) + 1
  let densityScore : ℚ := ((s.filled : ℚ) / (height * width)) * 20
  let aspect : ℚ := max (height / width) (width / height)
  let shapeScore : ℚ := (1 / aspect) * 10
  placementScore + densityScore + shapeScore

/-- The `bounds` record returned by `trimGrid`. -/
structure Bounds where
  minRow : Nat
  minCol : Nat
  maxRow : Nat
  maxCol : Nat
deriving DecidableEq, Repr

/-- The `{grid, bounds}` value returned by `trimGrid`. -/
structure TrimResult where
  grid : Grid
  bounds : Bounds
deriving DecidableEq, Repr

/-- `trimGrid(grid)`: bounding box of the filled cells, one cell of
padding clamped to the grid (`Math.max(0, · - 1)` is `Nat` subtraction),
and the copied sub-grid. -/
def trimGrid (g : Grid) : TrimResult :=
  let rows := gridRows g
  let cols := gridCols g
  let s := gridStats g
  let minR := s.minRow - 1
  let maxR := min (rows - 1) (s.maxRow + 1)
  let minC := s.minCol - 1
  let maxC := min (cols - 1) (s.maxCol + 1)
  let trimmedRows := maxR - minR + 1
  let trimmedCols := maxC - minC + 1
  ⟨(List.range trimmedRows).map (fun r =>
      (List.range trimmedCols).map (fun c => getCell g (minR + r) (minC + c))),
    ⟨minR, minC, maxR, maxC⟩⟩

/-- `adjustEntryPositions(entries, originalGrid, trimmedGridData)`: shift
every entry position by `(bounds.minRow, bounds.minCol)` (the JS function
also receives the original grid but never reads it). -/
def adjustEntryPositions (entries : List Entry) (t : TrimResult) : List Entry :=
  entries.map (fun e =>
    { e with position := ⟨e.position.row - t.bounds.minRow, e.position.col - t.bounds.minCol⟩ })

/-- The `numberEntries` sort comparator, as a total `le` preorder:
ascending `(row, col)`. -/
def entryPosLE (a b : Entry) : Prop :=
  a.position.row < b.position.row ∨
    (a.position.row = b.position.row ∧ a.position.col ≤ b.position.col)

instance : DecidableRel entryPosLE := fun a b => by
  unfold entryPosLE
  infer_instance

instance : IsTotal Entry entryPosLE := by
  constructor
  intro a b
  unfold entryPosLE
  omega

instance : IsTrans Entry entryPosLE := by
  constructor
  intro a b c h1 h2
  unfold entryPosLE at h1 h2 ⊢
  omega

/-- Lookup in the `numberedPositions` map (keyed by exact position). -/
def lookupPos : List (Pos × Nat) → Pos → Option Nat
  | [], _ => none
  | (p, n) :: rest, q => if p = q then some n else lookupPos rest q

/-- The numbering walk of `numberEntries`: reuse the recorded number of an
already-seen position, otherwise assign `next` and record it. -/
def assignNumbers : List Entry → List (Pos × Nat) → Nat → List Entry
  | [], _, _ => []
  | e :: rest, seen, next =>
    match lookupPos seen e.position with
    | some n => { e with number := n } :: assignNumbers rest seen next
    | none => { e with number := next } :: assignNumbers rest ((e.position, next) :: seen) (next + 1)

/-- `numberEntries(entries)`: stable-sort by position (the JS stable sort
is modelled by insertion sort), then assign numbers starting at 1, merging
entries sharing a start cell. -/
def numberEntries (entries : List Entry) : List Entry :=
  assignNumbers (entries.insertionSort entryPosLE) [] 1

/-- The state of one placement attempt: scratch grid, placed entries, the
`usedWords` set, and the running `entryNumber`. -/
structure SearchState where
  grid : Grid
  entries : List Entry
  used : List (List Char)
  nextNumber : Nat
deriving DecidableEq, Repr

/-- The body of the placement loop over remaining candidates: skip
duplicates, otherwise place at the best placement if one exists. -/
def tryPlaceWord (st : SearchState) (wd : WordData) : SearchState :=
  if wd.word ∈ st.used then st
  else
    match findBestPlacement st.grid wd.word with
    | some p =>
      ⟨placeWordInGrid st.grid wd.word p,
        st.entries ++ [⟨wd.word, wd.question, ⟨p.row, p.col⟩, p.direction, st.nextNumber⟩],
        st.used ++ [wd.word], st.nextNumber + 1⟩
    | none => st

/-- The `startingPositions` table of the source. -/
def startingPositions : List Pos := [⟨10, 10⟩, ⟨5, 5⟩, ⟨5, 15⟩]

/-- One `listSwap` of the Fisher–Yates shuffle. -/
def listSwap (l : List WordData) (i j : Nat) : List WordData :=
  match l.get? i, l.get? j with
  | some a, some b => (l.set i b).set j a
  | _, _ => l

/-- The Fisher–Yates loop: process index `i` (swap with a draw in
`[0, i]`) then recurse on `i - 1`; `ctr` is the position in the random
stream, returned so later draws continue where this shuffle stopped. -/
def shuffleGo (rnd : Nat → Nat) : Nat → Nat → List WordData → List WordData × Nat
  | ctr, 0, l => (l, ctr)
  | ctr, i + 1, l => shuffleGo rnd (ctr + 1) i (listSwap l (i + 1) (rnd ctr % (i + 2)))

/-- The in-place shuffle of `remainingWords` (attempts after the first). -/
def shuffleList (rnd : Nat → Nat) (ctr : Nat) (l : List WordData) : List WordData × Nat :=
  shuffleGo rnd ctr (l.length - 1) l

/-- One full placement attempt: seed the scratch grid with the first word
at the attempt's starting position and orientation, shuffle the rest for
attempts after the first, then greedily place them.  Returns `none` when
the seed write would run past the last grid row (the JS `TypeError`
swallowed by the attempt's `try/catch`). -/
def runAttempt (words : List WordData) (attempt : Nat) (rnd : Nat → Nat) (ctr : Nat) :
    Option SearchState × Nat :=
  match words with
  | [] => (none, ctr)
  | firstWord :: rest =>
    let pos := startingPositions.getD (attempt % startingPositions.length) ⟨10, 10⟩
    let dir : Dir := if attempt % 2 = 0 then .across else .down
    if dir = .down ∧ gridRows (emptyGrid 30 30) < pos.row + firstWord.word.length then
      (none, ctr)
    else
      let g0 := placeWordInGrid (emptyGrid 30 30) firstWord.word ⟨pos.row, pos.col, dir⟩
      let firstEntry : Entry := ⟨firstWord.word, firstWord.question, pos, dir, 1⟩
      let shuffled := if 0 < attempt then shuffleList rnd ctr rest else (rest, ctr)
      let st := shuffled.1.foldl tryPlaceWord ⟨g0, [firstEntry], [firstWord.word], 2⟩
      (some st, shuffled.2)

/-- Trim, position-shift and renumber a winning attempt, exactly as done
inside the selection loop. -/
def processAttempt (g : Grid) (entries : List Entry) : CrosswordResult :=
  let t := trimGrid g
  ⟨t.grid, numberEntries (adjustEntryPositions entries t)⟩

/-- The selection loop state: best processed crossword so far, its score
(starting at `-1`), the random-stream position, and the early-exit flag. -/
structure LoopState where
  best : Option CrosswordResult
  bestScore : ℚ
  ctr : Nat
  broke : Bool

/-- One iteration of the attempt loop: run the attempt, discard it when
fewer than 3 words were placed (before any scoring), otherwise score it
and keep it only on a strict improvement; break out of the loop once some
attempt has placed every candidate. -/
def attemptStep (words : List WordData) (rnd : Nat → Nat) (st : LoopState)
    (attempt : Nat) : LoopState :=
  if st.broke then st
  else
    match runAttempt words attempt rnd st.ctr with
    | (none, c2) => { st with ctr := c2 }
    | (some s, c2) =>
      if s.entries.length < 3 then { st with ctr := c2 }
      else
        let score := scoreGrid s.grid s.entries.length words.length
        let bs :=
          if st.bestScore < score then (some (processAttempt s.grid s.entries), score)
          else (st.best, st.bestScore)
        ⟨bs.1, bs.2, c2, decide (s.entries.length = words.length)⟩

/-- `buildCrossword(questions)`, with the random stream explicit. -/
def buildCrossword (qs : List Question) (rnd : Nat → Nat) :
    Except BuildError CrosswordResult :=
  if qs.length < 3 then .error .tooFewValidWords
  else
    let words := preprocess qs
    if words.length < 3 then .error .tooFewValidWords
    else
      let final := [0, 1, 2].foldl (attemptStep words rnd) ⟨none, -1, 0, false⟩
      match final.best with
      | some res =>
        if 3 ≤ res.entries.length then .ok res else .error .layoutConstructionFailed
      | none => .error .layoutConstructionFailed

/-! ### Specification-side notions -/

/-- The i-th cell of a word placed at `p`: columns increase for `across`,
rows increase for `down`. -/
def cellPos (p : Placement) (i : Nat) : Pos :=
  match p.direction with
  | .across => ⟨p.row, p.col + i⟩
  | .down => ⟨p.row + i, p.col⟩

/-- The placement recorded in an entry. -/
def entryPlacement (e : Entry) : Placement :=
  ⟨e.position.row, e.position.col, e.direction⟩

/-- Round-trip property of one entry: reading `answer.length` cells from
`position` along `direction` reproduces `answer`. -/
def ReadsBack (g : Grid) (e : Entry) : Prop :=
  ∀ i : Fin e.answer.length,
    getCell g (cellPos (entryPlacement e) i).row (cellPos (entryPlacement e) i).col =
      some (e.answer.get i)

instance (g : Grid) (e : Entry) : Decidable (ReadsBack g e) := by
  unfold ReadsBack; infer_instance

/-- A placement the engine considers valid for `w` on `g`. -/
def ValidPlacement (g : Grid) (w : List Char) (p : Placement) : Prop :=
  (evalPlacement g w p).canPlace = true

/-- Helper for `interCount`: count from letter index `i` on. -/
def interCountAux (g : Grid) (p : Placement) : List Char → Nat → Nat
  | [], _ => 0
  | ch :: rest, i =>
    (if getCell g (cellPos p i).row (cellPos p i).col = some ch then 1 else 0) +
      interCountAux g p rest (i + 1)

/-- The number of true letter intersections of placing `w` at `p`:
cells already holding the same letter. -/
def interCount (g : Grid) (w : List Char) (p : Placement) : Nat :=
  interCountAux g p w 0

/-- Row-major scan rank of a placement, with across before down at each
cell; `findBestPlacement` examines candidates in strictly increasing rank. -/
def scanRank (cols : Nat) (p : Placement) : Nat :=
  (p.row * cols + p.col) * 2 + (match p.direction with | .across => 0 | .down => 1)

/-- Well-formedness of a scratch grid: `rows` rows, each of width `cols`. -/
def WFGrid (g : Grid) (rows cols : Nat) : Prop :=
  g.length = rows ∧ ∀ row ∈ g, row.length = cols

instance (g : Grid) (rows cols : Nat) : Decidable (WFGrid g rows cols) := by
  unfold WFGrid
  infer_instance

/-! ### Basic grid lemmas -/

theorem rowAt_eq : ∀ (r : Nat) (g : Grid), rowAt r g = g[r]?.getD []
  | 0, [] => rfl
  | 0, h :: t => by
    show h = ((h :: t)[0]?).getD []
    simp
  | r + 1, [] => rfl
  | r + 1, h :: t => by
    show rowAt r t = ((h :: t)[r + 1]?).getD []
    rw [rowAt_eq r t]
    simp

theorem cellAt_eq : ∀ (c : Nat) (row : List Cell), cellAt c row = row[c]?.getD none
  | 0, [] => rfl
  | 0, h :: t => by
    show h = ((h :: t)[0]?).getD none
    simp
  | c + 1, [] => rfl
  | c + 1, h :: t => by
    show cellAt c t = ((h :: t)[c + 1]?).getD none
    rw [cellAt_eq c t]
    simp

theorem gridRows_eq (g : Grid) : gridRows g = g.length := listLen_eq g

theorem gridCols_eq (g : Grid) : gridCols g = (g.headD []).length := by
  rw [gridCols, listLen_eq]
  cases g
  · rfl
  · rfl

theorem getCell_eq (g : Grid) (r c : Nat) :
    getCell g r c = (g[r]?.getD [])[c]?.getD none := by
  rw [getCell, rowAt_eq, cellAt_eq]

theorem getCell_emptyGrid (rows cols r c : Nat) :
    getCell (emptyGrid rows cols) r c = none := by
  rcases Nat.lt_or_ge r rows with h | h
  · rcases Nat.lt_or_ge c cols with h2 | h2 <;>
      simp [getCell_eq, emptyGrid, List.getElem?_replicate, h, h2, Nat.not_lt.mpr]
  · simp [getCell_eq, emptyGrid, List.getElem?_replicate, Nat.not_lt.mpr h]

theorem wf_emptyGrid (rows cols : Nat) : WFGrid (emptyGrid rows cols) rows cols := by
  constructor
  · simp [emptyGrid]
  · intro row hrow
    rcases List.eq_of_mem_replicate hrow with rfl
    simp

theorem setCell_of_rows_le {g : Grid} {r : Nat} (h : g.length ≤ r) (c : Nat) (ch : Char) :
    setCell g r c ch = g :=
  List.set_eq_of_length_le h

theorem wf_setCell {g : Grid} {rows cols : Nat} (h : WFGrid g rows cols) (r c : Nat) (ch : Char) :
    WFGrid (setCell g r c ch) rows cols := by
  rcases Nat.lt_or_ge r g.length with hr | hr
  · obtain ⟨hlen, hrows⟩ := h
    constructor
    · simpa [setCell]
    · intro row hrow
      rcases List.mem_or_eq_of_mem_set hrow with hmem | rfl
      · exact hrows _ hmem
      · rw [List.length_set]
        exact hrows _ (by rw [List.getD_eq_getElem?_getD, List.getElem?_eq_getElem hr]
                          exact List.getElem_mem hr)
  · rwa [setCell_of_rows_le hr]

theorem getCell_eq_none_of_rows_le {g : Grid} {r : Nat} (h : g.length ≤ r) (c : Nat) :
    getCell g r c = none := by
  simp [getCell_eq, List.getElem?_eq_none h]

theorem getCell_lt_rows {g : Grid} {r c : Nat} (h : getCell g r c ≠ none) :
    r < g.length := by
  by_contra hr
  exact h (getCell_eq_none_of_rows_le (by omega) c)

theorem getCell_lt_cols {g : Grid} {rows cols : Nat} (hwf : WFGrid g rows cols)
    {r c : Nat} (h : getCell g r c ≠ none) : c < cols := by
  by_contra hc
  apply h
  have hr : r < g.length := getCell_lt_rows h
  have hlen : (g[r]?.getD []).length = cols := by
    rw [List.getElem?_eq_getElem hr]
    exact hwf.2 _ (List.getElem_mem hr)
  rw [getCell_eq]
  rw [List.getElem?_eq_none (by omega)]
  simp

theorem getCell_setCell_ne {g : Grid} {r c r2 c2 : Nat} (h : ¬(r2 = r ∧ c2 = c)) (ch : Char) :
    getCell (setCell g r c ch) r2 c2 = getCell g r2 c2 := by
  rcases eq_or_ne r2 r with rfl | hr
  · have hc : c2 ≠ c := fun hc => h ⟨rfl, hc⟩
    rcases Nat.lt_or_ge r2 g.length with hlt | hge
    · rw [getCell_eq, getCell_eq, setCell, List.getElem?_set_self (by simpa using hlt),
        List.getElem?_eq_getElem hlt]
      simp only [Option.getD_some]
      rw [List.getElem?_set_ne (fun hcc => hc hcc.symm)]
      rw [List.getD_eq_getElem?_getD, List.getElem?_eq_getElem hlt]
      simp
    · rw [setCell_of_rows_le hge]
  · rw [getCell_eq, getCell_eq, setCell, List.getElem?_set_ne (fun hrr => hr hrr.symm)]

theorem getCell_setCell_self {g : Grid} {r c : Nat} (hr : r < g.length)
    (hc : c < (g.getD r []).length) (ch : Char) :
    getCell (setCell g r c ch) r c = some ch := by
  rw [getCell_eq, setCell, List.getElem?_set_self (by simpa using hr)]
  simp only [Option.getD_some]
  rw [List.getElem?_set_self (by simpa using hc)]
  simp

/-! ### Fold invariants and word placement -/

theorem foldl_induction {α β : Type} {P : α → Prop} (f : α → β → α) (l : List β) (init : α)
    (h0 : P init) (hstep : ∀ a b, b ∈ l → P a → P (f a b)) : P (l.foldl f init) := by
  induction l generalizing init with
  | nil => exact h0
  | cons x xs ih =>
    exact ih (f init x) (hstep init x (by simp) h0) (fun a b hb => hstep a b (by simp [hb]))

theorem cellPos_inj {p : Placement} {a b : Nat} (h : cellPos p a = cellPos p b) : a = b := by
  rcases p with ⟨pr, pc, pd⟩
  cases pd <;> simpa [cellPos] using congrArg (fun q => q.row + q.col) h

theorem placeWordAux_getCell_out (p : Placement) (w : List Char) (i0 : Nat) (g : Grid)
    (r c : Nat) (h : ∀ k, k < w.length → cellPos p (i0 + k) ≠ ⟨r, c⟩) :
    getCell (placeWordAux p g w i0) r c = getCell g r c := by
  induction w generalizing g i0 with
  | nil => rfl
  | cons ch rest ih =>
    have h0 : cellPos p i0 ≠ ⟨r, c⟩ := by simpa using h 0 (by simp)
    have hrest : ∀ k, k < rest.length → cellPos p (i0 + 1 + k) ≠ ⟨r, c⟩ := by
      intro k hk
      have := h (k + 1) (by simpa using Nat.succ_lt_succ hk)
      simpa [Nat.add_assoc, Nat.add_comm 1 k] using this
    rcases p with ⟨pr, pc, pd⟩
    cases pd
    · show getCell (placeWordAux _ (setCell g pr (pc + i0) ch) rest (i0 + 1)) r c = _
      rw [ih _ _ hrest, getCell_setCell_ne (by
        intro hrc
        exact h0 (by simp [cellPos, hrc.1.symm, hrc.2.symm]))]
    · show getCell (placeWordAux _ (setCell g (pr + i0) pc ch) rest (i0 + 1)) r c = _
      rw [ih _ _ hrest, getCell_setCell_ne (by
        intro hrc
        exact h0 (by simp [cellPos, hrc.1.symm, hrc.2.symm]))]

theorem placeWordAux_getCell_in {rows cols : Nat} (p : Placement) (w : List Char) (i0 : Nat)
    (g : Grid) (hwf : WFGrid g rows cols) (i : Nat) (hi : i < w.length)
    (hr : (cellPos p (i0 + i)).row < rows) (hc : (cellPos p (i0 + i)).col < cols) :
    getCell (placeWordAux p g w i0) (cellPos p (i0 + i)).row (cellPos p (i0 + i)).col =
      some (w.get ⟨i, hi⟩) := by
  induction w generalizing g i0 i with
  | nil => exact absurd hi (by simp)
  | cons ch rest ih =>
    have hself : ∀ (g2 : Grid), WFGrid g2 rows cols → (cellPos p i0).row < rows →
        (cellPos p i0).col < cols →
        getCell (setCell g2 (cellPos p i0).row (cellPos p i0).col ch)
          (cellPos p i0).row (cellPos p i0).col = some ch := by
      intro g2 hwf2 hr2 hc2
      have hrl : (cellPos p i0).row < g2.length := by rw [hwf2.1]; exact hr2
      have hcl : (cellPos p i0).col < (g2.getD (cellPos p i0).row []).length := by
        have : (g2.getD (cellPos p i0).row []).length = cols := by
          rw [List.getD_eq_getElem?_getD, List.getElem?_eq_getElem hrl]
          exact hwf2.2 _ (List.getElem_mem _)
        omega
      exact getCell_setCell_self hrl hcl ch
    rcases i with _ | j
    · have hstep : ∀ (g2 : Grid), placeWordAux p g2 (ch :: rest) i0 =
          placeWordAux p (setCell g2 (cellPos p i0).row (cellPos p i0).col ch) rest (i0 + 1) := by
        intro g2
        rcases p with ⟨pr, pc, pd⟩
        cases pd <;> rfl
      rw [hstep]
      rw [placeWordAux_getCell_out p rest (i0 + 1) _ _ _ (by
        intro k hk hne
        have := cellPos_inj hne
        omega)]
      simpa using hself g hwf (by simpa using hr) (by simpa using hc)
    · have hstep : ∀ (g2 : Grid), placeWordAux p g2 (ch :: rest) i0 =
          placeWordAux p (setCell g2 (cellPos p i0).row (cellPos p i0).col ch) rest (i0 + 1) := by
        intro g2
        rcases p with ⟨pr, pc, pd⟩
        cases pd <;> rfl
      rw [hstep]
      have hj : j < rest.length := by simpa using Nat.lt_of_succ_lt_succ hi
      have heq : i0 + (j + 1) = (i0 + 1) + j := by omega
      rw [heq] at hr hc ⊢
      rw [ih _ _ (wf_setCell hwf _ _ _) j hj hr hc]
      rfl

theorem wf_placeWordAux {rows cols : Nat} (p : Placement) (w : List Char) (i0 : Nat)
    (g : Grid) (hwf : WFGrid g rows cols) : WFGrid (placeWordAux p g w i0) rows cols := by
  induction w generalizing g i0 with
  | nil => exact hwf
  | cons ch rest ih =>
    rcases p with ⟨pr, pc, pd⟩
    cases pd
    · exact ih _ _ (wf_setCell hwf _ _ _)
    · exact ih _ _ (wf_setCell hwf _ _ _)

theorem wf_placeWordInGrid {rows cols : Nat} {g : Grid} (hwf : WFGrid g rows cols)
    (w : List Char) (p : Placement) : WFGrid (placeWordInGrid g w p) rows cols :=
  wf_placeWordAux p w 0 g hwf

theorem placeWordInGrid_getCell_out (g : Grid) (w : List Char) (p : Placement) (r c : Nat)
    (h : ∀ k, k < w.length → cellPos p k ≠ ⟨r, c⟩) :
    getCell (placeWordInGrid g w p) r c = getCell g r c :=
  placeWordAux_getCell_out p w 0 g r c (by simpa using h)

theorem placeWordInGrid_getCell_in {rows cols : Nat} {g : Grid} (hwf : WFGrid g rows cols)
    (w : List Char) (p : Placement) (i : Nat) (hi : i < w.length)
    (hr : (cellPos p i).row < rows) (hc : (cellPos p i).col < cols) :
    getCell (placeWordInGrid g w p) (cellPos p i).row (cellPos p i).col =
      some (w.get ⟨i, hi⟩) := by
  have := placeWordAux_getCell_in p w 0 g hwf i hi (by simpa using hr) (by simpa using hc)
  simpa using this

/-! ### Characterization of the placement validity checks -/

/-- What a true horizontal `canPlace` guarantees at one letter cell:
either a matching letter, or an empty cell with empty perpendicular
neighbors (within the checked bounds). -/
def hCellOk (g : Grid) (rows row c : Nat) (ch : Char) : Prop :=
  getCell g row c = some ch ∨
    (getCell g row c = none ∧ (0 < row → getCell g (row - 1) c = none) ∧
      (row < rows - 1 → getCell g (row + 1) c = none))

/-- Vertical analogue of `hCellOk`. -/
def vCellOk (g : Grid) (cols r col : Nat) (ch : Char) : Prop :=
  getCell g r col = some ch ∨
    (getCell g r col = none ∧ (0 < col → getCell g r (col - 1) = none) ∧
      (col < cols - 1 → getCell g r (col + 1) = none))

theorem canPlaceHAux_cells {g : Grid} {row rows : Nat} :
    ∀ {w : List Char} {c0 i0 : Nat} {f0 : Bool},
      (canPlaceHAux (rowAt (row - 1) g) (rowAt row g) (rowAt (row + 1) g)
        row rows w c0 i0 f0).canPlace = true →
      ∀ j (hj : j < w.length), hCellOk g rows row (c0 + j) (w.get ⟨j, hj⟩)
  | [], _, _, _, _, j, hj => absurd hj (by simp)
  | ch :: rest, c0, i0, f0, h, j, hj => by
    rw [canPlaceHAux_cons] at h
    split_ifs at h with h1 h2 h3
    · rcases j with _ | j2
      · exact Or.inl (by simpa using h2)
      · have := canPlaceHAux_cells h j2 (by simpa using Nat.lt_of_succ_lt_succ hj)
        simpa [Nat.add_assoc, Nat.add_comm 1 j2] using this
    · push_neg at h1 h3
      rcases j with _ | j2
      · refine Or.inr ⟨?_, fun hr => ?_, fun hr => ?_⟩
        · by_contra hne
          exact h2 (h1 (by simpa using hne))
        · simpa using h3.1 hr
        · simpa using h3.2 hr
      · have := canPlaceHAux_cells h j2 (by simpa using Nat.lt_of_succ_lt_succ hj)
        simpa [Nat.add_assoc, Nat.add_comm 1 j2] using this

theorem canPlaceVAux_cells {g : Grid} {col cols : Nat} :
    ∀ {w : List Char} {r0 i0 : Nat} {f0 : Bool},
      (canPlaceVAux g col cols w r0 i0 f0).canPlace = true →
      ∀ j (hj : j < w.length), vCellOk g cols (r0 + j) col (w.get ⟨j, hj⟩)
  | [], _, _, _, _, j, hj => absurd hj (by simp)
  | ch :: rest, r0, i0, f0, h, j, hj => by
    rw [canPlaceVAux_cons] at h
    split_ifs at h with h1 h2 h3
    · rcases j with _ | j2
      · exact Or.inl (by simpa using h2)
      · have := canPlaceVAux_cells h j2 (by simpa using Nat.lt_of_succ_lt_succ hj)
        simpa [Nat.add_assoc, Nat.add_comm 1 j2] using this
    · push_neg at h1 h3
      rcases j with _ | j2
      · refine Or.inr ⟨?_, fun hr => ?_, fun hr => ?_⟩
        · by_contra hne
          exact h2 (h1 (by simpa using hne))
        · simpa using h3.1 hr
        · simpa using h3.2 hr
      · have := canPlaceVAux_cells h j2 (by simpa using Nat.lt_of_succ_lt_succ hj)
        simpa [Nat.add_assoc, Nat.add_comm 1 j2] using this

theorem canPlaceHAux_inters {g : Grid} {row rows col : Nat} :
    ∀ {w : List Char} {k i0 : Nat} {f0 : Bool},
      (canPlaceHAux (rowAt (row - 1) g) (rowAt row g) (rowAt (row + 1) g)
        row rows w (col + k) i0 f0).canPlace = true →
      (canPlaceHAux (rowAt (row - 1) g) (rowAt row g) (rowAt (row + 1) g)
        row rows w (col + k) i0 f0).intersections =
        i0 + interCountAux g ⟨row, col, .across⟩ w k
  | [], _, _, _, _ => by simp [canPlaceHAux_nil, interCountAux]
  | ch :: rest, k, i0, f0, h => by
    rw [canPlaceHAux_cons] at h ⊢
    split_ifs at h ⊢ with h1 h2 h3
    · have hrec := canPlaceHAux_inters (w := rest) (k := k + 1) (by
        have : col + k + 1 = col + (k + 1) := by omega
        rw [this] at h; exact h)
      rw [show col + k + 1 = col + (k + 1) by omega, hrec, interCountAux]
      simp only [cellPos]
      rw [if_pos (by simpa using h2)]
      omega
    · have hrec := canPlaceHAux_inters (w := rest) (k := k + 1) (by
        have : col + k + 1 = col + (k + 1) := by omega
        rw [this] at h; exact h)
      rw [show col + k + 1 = col + (k + 1) by omega, hrec, interCountAux]
      simp only [cellPos]
      push_neg at h1
      rw [if_neg (by
        intro hc
        exact h2 (h1 (by simp [hc]))), Nat.zero_add]

theorem canPlaceVAux_inters {g : Grid} {row col cols : Nat} :
    ∀ {w : List Char} {k i0 : Nat} {f0 : Bool},
      (canPlaceVAux g col cols w (row + k) i0 f0).canPlace = true →
      (canPlaceVAux g col cols w (row + k) i0 f0).intersections =
        i0 + interCountAux g ⟨row, col, .down⟩ w k
  | [], _, _, _, _ => by simp [canPlaceVAux_nil, interCountAux]
  | ch :: rest, k, i0, f0, h => by
    rw [canPlaceVAux_cons] at h ⊢
    split_ifs at h ⊢ with h1 h2 h3
    · have hrec := canPlaceVAux_inters (w := rest) (k := k + 1) (by
        have : row + k + 1 = row + (k + 1) := by omega
        rw [this] at h; exact h)
      rw [show row + k + 1 = row + (k + 1) by omega, hrec, interCountAux]
      simp only [cellPos]
      rw [if_pos (by simpa using h2)]
      omega
    · have hrec := canPlaceVAux_inters (w := rest) (k := k + 1) (by
        have : row + k + 1 = row + (k + 1) := by omega
        rw [this] at h; exact h)
      rw [show row + k + 1 = row + (k + 1) by omega, hrec, interCountAux]
      simp only [cellPos]
      push_neg at h1
      rw [if_neg (by
        intro hc
        exact h2 (h1 (by simp [hc]))), Nat.zero_add]

theorem canPlaceHAux_pos {g : Grid} {row rows : Nat} :
    ∀ {w : List Char} {c0 i0 : Nat} {f0 : Bool}, (f0 = true → 0 < i0) →
      (canPlaceHAux (rowAt (row - 1) g) (rowAt row g) (rowAt (row + 1) g)
        row rows w c0 i0 f0).canPlace = true →
      0 < (canPlaceHAux (rowAt (row - 1) g) (rowAt row g) (rowAt (row + 1) g)
        row rows w c0 i0 f0).intersections
  | [], c0, i0, f0, hinv, h => by
    simp only [canPlaceHAux_nil, Bool.or_eq_true, decide_eq_true_eq] at h
    rcases h with hf | hi
    · exact hinv hf
    · exact hi
  | ch :: rest, c0, i0, f0, hinv, h => by
    rw [canPlaceHAux_cons] at h ⊢
    split_ifs at h ⊢ with h1 h2 h3
    · exact canPlaceHAux_pos (fun _ => by omega) h
    · exact canPlaceHAux_pos hinv h

theorem canPlaceVAux_pos {g : Grid} {col cols : Nat} :
    ∀ {w : List Char} {r0 i0 : Nat} {f0 : Bool}, (f0 = true → 0 < i0) →
      (canPlaceVAux g col cols w r0 i0 f0).canPlace = true →
      0 < (canPlaceVAux g col cols w r0 i0 f0).intersections
  | [], r0, i0, f0, hinv, h => by
    simp only [canPlaceVAux_nil, Bool.or_eq_true, decide_eq_true_eq] at h
    rcases h with hf | hi
    · exact hinv hf
    · exact hi
  | ch :: rest, r0, i0, f0, hinv, h => by
    rw [canPlaceVAux_cons] at h ⊢
    split_ifs at h ⊢ with h1 h2 h3
    · exact canPlaceVAux_pos (fun _ => by omega) h
    · exact canPlaceVAux_pos hinv h

/-- Everything a true horizontal `canPlace` guarantees. -/
theorem canPlaceH_true {g : Grid} {w : List Char} {row col : Nat}
    (h : (canPlaceWordHorizontally g w row col).canPlace = true) :
    col + w.length ≤ gridCols g ∧
    (0 < col → getCell g row (col - 1) = none) ∧
    (col + w.length < gridCols g → getCell g row (col + w.length) = none) ∧
    (∀ j (hj : j < w.length), hCellOk g (gridRows g) row (col + j) (w.get ⟨j, hj⟩)) ∧
    (canPlaceWordHorizontally g w row col).intersections = interCount g w ⟨row, col, .across⟩ ∧
    0 < interCount g w ⟨row, col, .across⟩ := by
  rw [canPlaceWordHorizontally] at h
  split_ifs at h with h1 h2 h3
  have heq : canPlaceWordHorizontally g w row col =
      canPlaceHAux (rowAt (row - 1) g) (rowAt row g) (rowAt (row + 1) g)
        row (gridRows g) w col 0 false := by
    rw [canPlaceWordHorizontally, if_neg h1, if_neg h2, if_neg h3]
  rw [listLen_eq] at h1 h3
  have hc0 : (canPlaceHAux (rowAt (row - 1) g) (rowAt row g) (rowAt (row + 1) g)
      row (gridRows g) w (col + 0) 0 false).canPlace = true := by
    simpa using h
  have hint := canPlaceHAux_inters hc0
  have hpos := canPlaceHAux_pos (by simp) h
  push_neg at h1 h2 h3
  refine ⟨h1, fun hc => h2 hc, fun hc => h3 hc, canPlaceHAux_cells h, ?_, ?_⟩
  · rw [heq]
    simpa [interCount] using hint
  · have : (canPlaceHAux (rowAt (row - 1) g) (rowAt row g) (rowAt (row + 1) g)
        row (gridRows g) w col 0 false).intersections =
        interCount g w ⟨row, col, .across⟩ := by simpa [interCount] using hint
    rw [← this]
    exact hpos

/-- Everything a true vertical `canPlace` guarantees. -/
theorem canPlaceV_true {g : Grid} {w : List Char} {row col : Nat}
    (h : (canPlaceWordVertically g w row col).canPlace = true) :
    row + w.length ≤ gridRows g ∧
    (0 < row → getCell g (row - 1) col = none) ∧
    (row + w.length < gridRows g → getCell g (row + w.length) col = none) ∧
    (∀ j (hj : j < w.length), vCellOk g (gridCols g) (row + j) col (w.get ⟨j, hj⟩)) ∧
    (canPlaceWordVertically g w row col).intersections = interCount g w ⟨row, col, .down⟩ ∧
    0 < interCount g w ⟨row, col, .down⟩ := by
  rw [canPlaceWordVertically] at h
  split_ifs at h with h1 h2 h3
  have heq : canPlaceWordVertically g w row col =
      canPlaceVAux g col (gridCols g) w row 0 false := by
    rw [canPlaceWordVertically, if_neg h1, if_neg h2, if_neg h3]
  rw [listLen_eq] at h1 h3
  have hr0 : (canPlaceVAux g col (gridCols g) w (row + 0) 0 false).canPlace = true := by
    simpa using h
  have hint := canPlaceVAux_inters hr0
  have hpos := canPlaceVAux_pos (by simp) h
  push_neg at h1 h2 h3
  refine ⟨h1, fun hc => h2 hc, fun hc => h3 hc, canPlaceVAux_cells h, ?_, ?_⟩
  · rw [heq]
    simpa [interCount] using hint
  · have : (canPlaceVAux g col (gridCols g) w row 0 false).intersections =
        interCount g w ⟨row, col, .down⟩ := by simpa [interCount] using hint
    rw [← this]
    exact hpos

/-! ### The placement search is an argmax over the scan order -/

theorem evalPlacement_true {g : Grid} {w : List Char} {p : Placement}
    (h : ValidPlacement g w p) :
    (evalPlacement g w p).intersections = interCount g w p ∧ 0 < interCount g w p := by
  rcases p with ⟨r, c, d⟩
  cases d
  · have := canPlaceH_true (by simpa [ValidPlacement, evalPlacement] using h)
    exact ⟨by simpa [evalPlacement] using this.2.2.2.2.1, this.2.2.2.2.2⟩
  · have := canPlaceV_true (by simpa [ValidPlacement, evalPlacement] using h)
    exact ⟨by simpa [evalPlacement] using this.2.2.2.2.1, this.2.2.2.2.2⟩

theorem interCountAux_pos_exists {g : Grid} {p : Placement} :
    ∀ {w : List Char} {k : Nat}, 0 < interCountAux g p w k →
      ∃ j, j < w.length ∧
        getCell g (cellPos p (k + j)).row (cellPos p (k + j)).col = some (w.getD j 'A')
  | [], _, h => absurd h (by simp [interCountAux])
  | ch :: rest, k, h => by
    rw [interCountAux] at h
    by_cases hc : getCell g (cellPos p k).row (cellPos p k).col = some ch
    · exact ⟨0, by simp, by simpa using hc⟩
    · rw [if_neg hc] at h
      obtain ⟨j, hj, hcell⟩ := interCountAux_pos_exists (by simpa using h)
      exact ⟨j + 1, by simpa using Nat.succ_lt_succ hj,
        by simpa [Nat.add_assoc, Nat.add_comm 1 j] using hcell⟩

theorem interCount_pos_exists {g : Grid} {w : List Char} {p : Placement}
    (h : 0 < interCount g w p) :
    ∃ j, j < w.length ∧
      getCell g (cellPos p j).row (cellPos p j).col = some (w.getD j 'A') := by
  obtain ⟨j, hj, hcell⟩ := interCountAux_pos_exists (k := 0) (by simpa [interCount] using h)
  exact ⟨j, hj, by simpa using hcell⟩

theorem mem_scanPlacements {rows cols : Nat} {p : Placement} :
    p ∈ scanPlacements rows cols ↔ p.row < rows ∧ p.col < cols := by
  rcases p with ⟨r, c, d⟩
  simp only [scanPlacements, List.mem_flatMap, List.mem_range, List.mem_cons,
    List.not_mem_nil, or_false, Placement.mk.injEq]
  constructor
  · rintro ⟨r2, hr2, c2, hc2, (⟨rfl, rfl, _⟩ | ⟨rfl, rfl, _⟩)⟩ <;> exact ⟨hr2, hc2⟩
  · rintro ⟨hr, hc⟩
    refine ⟨r, hr, c, hc, ?_⟩
    cases d
    · exact Or.inl ⟨rfl, rfl, rfl⟩
    · exact Or.inr ⟨rfl, rfl, rfl⟩

theorem valid_mem_scan {g : Grid} {rows cols : Nat} (hwf : WFGrid g rows cols)
    {w : List Char} {q : Placement} (hv : ValidPlacement g w q) :
    q ∈ scanPlacements (gridRows g) (gridCols g) := by
  have hpos := (evalPlacement_true hv).2
  obtain ⟨j, hj, hcell⟩ := interCount_pos_exists hpos
  have hne : getCell g (cellPos q j).row (cellPos q j).col ≠ none := by rw [hcell]; simp
  have hrlt : (cellPos q j).row < g.length := getCell_lt_rows hne
  have hclt : (cellPos q j).col < cols := getCell_lt_cols hwf hne
  have hrows : gridRows g = g.length := gridRows_eq g
  have hgc : gridCols g = cols := by
    rcases g with _ | ⟨row0, grest⟩
    · simp at hrlt
    · rw [gridCols_eq]
      simpa using hwf.2 row0 (by simp)
  rw [mem_scanPlacements, hrows, hgc]
  rcases q with ⟨r, c, d⟩
  cases d <;> simp [cellPos] at hrlt hclt ⊢ <;> omega

theorem pairwise_flatMap {α β : Type} {R : α → α → Prop} {f : β → List α} :
    ∀ {l : List β}, l.Pairwise (fun a b => ∀ x ∈ f a, ∀ y ∈ f b, R x y) →
      (∀ a ∈ l, (f a).Pairwise R) → (l.flatMap f).Pairwise R
  | [], _, _ => by simp
  | a :: l, hcross, hself => by
    rw [List.flatMap_cons, List.pairwise_append]
    refine ⟨hself a (by simp), pairwise_flatMap (List.Pairwise.sublist (by simp) hcross)
      (fun b hb => hself b (by simp [hb])), ?_⟩
    intro x hx y hy
    rw [List.mem_flatMap] at hy
    obtain ⟨b, hb, hyb⟩ := hy
    exact (List.rel_of_pairwise_cons hcross hb) x hx y hyb

theorem scanPlacements_sorted (rows cols : Nat) :
    (scanPlacements rows cols).Pairwise
      (fun a b => scanRank cols a < scanRank cols b) := by
  unfold scanPlacements
  apply pairwise_flatMap
  · apply List.Pairwise.imp_of_mem ?_ (List.pairwise_lt_range rows)
    intro r r2 _ _ hlt x hx y hy
    simp only [List.mem_flatMap, List.mem_range, List.mem_cons, List.not_mem_nil,
      or_false] at hx hy
    obtain ⟨c, hc, hxc⟩ := hx
    obtain ⟨c2, hc2, hyc⟩ := hy
    have hmul : (r + 1) * cols ≤ r2 * cols := Nat.mul_le_mul_right cols (by omega)
    have hr1 : (r + 1) * cols = r * cols + cols := by ring
    rcases hxc with rfl | rfl <;> rcases hyc with rfl | rfl <;>
      simp only [scanRank] <;> omega
  · intro r _
    apply pairwise_flatMap
    · apply List.Pairwise.imp_of_mem ?_ (List.pairwise_lt_range cols)
      intro c c2 _ _ hlt x hx y hy
      simp only [List.mem_cons, List.not_mem_nil, or_false] at hx hy
      rcases hx with rfl | rfl <;> rcases hy with rfl | rfl <;>
        simp only [scanRank] <;> omega
    · intro c _
      simp only [List.pairwise_cons, List.mem_singleton, List.not_mem_nil, false_implies,
        implies_true, List.Pairwise.nil, and_true, List.mem_cons, or_false]
      intro y hy
      subst hy
      simp only [scanRank]
      omega

theorem foldBest_fst_mono (g : Grid) (w : List Char) :
    ∀ (L : List Placement) (st : Int × Option Placement),
      st.1 ≤ (L.foldl (bestStep g w) st).1
  | [], st => le_refl _
  | q :: L, st => by
    rw [List.foldl_cons]
    refine le_trans ?_ (foldBest_fst_mono g w L (bestStep g w st q))
    simp only [bestStep]
    split_ifs with h
    · exact le_of_lt h.2
    · exact le_refl _

theorem foldBest_none (g : Grid) (w : List Char) :
    ∀ (L : List Placement) (st : Int × Option Placement),
      (L.foldl (bestStep g w) st).2 = none →
      st.2 = none ∧ ∀ q ∈ L, ValidPlacement g w q → (interCount g w q : Int) ≤ st.1
  | [], st, h => ⟨h, by simp⟩
  | q :: L, st, h => by
    rw [List.foldl_cons] at h
    obtain ⟨hnone, hrest⟩ := foldBest_none g w L _ h
    by_cases hcond : (evalPlacement g w q).canPlace = true ∧
        st.1 < ((evalPlacement g w q).intersections : Int)
    · exfalso
      have : bestStep g w st q = (((evalPlacement g w q).intersections : Int), some q) := by
        simp only [bestStep]
        rw [if_pos hcond]
      rw [this] at hnone
      simp at hnone
    · have hstep : bestStep g w st q = st := by
        simp only [bestStep]
        rw [if_neg hcond]
      rw [hstep] at hnone hrest
      refine ⟨hnone, ?_⟩
      intro q2 hq2 hv
      rcases List.mem_cons.mp hq2 with rfl | hq2
      · push_neg at hcond
        have := hcond hv
        have heq := (evalPlacement_true hv).1
        omega
      · exact hrest _ hq2 hv

theorem foldBest_some (g : Grid) (w : List Char) (cols : Nat) :
    ∀ (L : List Placement) (st : Int × Option Placement),
      L.Pairwise (fun a b => scanRank cols a < scanRank cols b) →
      ((st.1 = -1 ∧ st.2 = none) ∨
        (∃ p0, st.2 = some p0 ∧ st.1 = (interCount g w p0 : Int) ∧ ValidPlacement g w p0)) →
      (∀ p0, st.2 = some p0 → ∀ q ∈ L, scanRank cols p0 < scanRank cols q) →
      ∀ p, (L.foldl (bestStep g w) st).2 = some p →
        ValidPlacement g w p ∧
        (L.foldl (bestStep g w) st).1 = (interCount g w p : Int) ∧
        (∀ q ∈ L, ValidPlacement g w q → interCount g w q ≤ interCount g w p) ∧
        (∀ q ∈ L, ValidPlacement g w q → interCount g w q = interCount g w p →
          scanRank cols p ≤ scanRank cols q) ∧
        (st.2 = some p ∨ p ∈ L) ∧
        (st.2 = some p ∨ st.1 < (interCount g w p : Int))
  | [], st, _, hinv, _, p, hp => by
    rcases hinv with ⟨h1, h2⟩ | ⟨p0, hp0, hsc, hv⟩
    · rw [List.foldl_nil] at hp
      rw [hp] at h2
      cases h2
    · rw [List.foldl_nil] at hp
      rw [hp] at hp0
      cases hp0
      exact ⟨hv, by simpa using hsc, by simp, by simp, Or.inl hp, Or.inl hp⟩
  | q :: L, st, hL, hinv, hstL, p, hp => by
    rw [List.foldl_cons] at hp
    have hLtail : L.Pairwise (fun a b => scanRank cols a < scanRank cols b) := hL.tail
    by_cases hcond : (evalPlacement g w q).canPlace = true ∧
        st.1 < ((evalPlacement g w q).intersections : Int)
    · have hvq : ValidPlacement g w q := hcond.1
      have heval := evalPlacement_true hvq
      have hstep : bestStep g w st q = (((evalPlacement g w q).intersections : Int), some q) := by
        simp only [bestStep]
        rw [if_pos hcond]
      rw [hstep] at hp
      rw [List.foldl_cons, hstep]
      have hinv2 : ((((evalPlacement g w q).intersections : Int), (some q : Option Placement)).1 = -1 ∧
            (((evalPlacement g w q).intersections : Int), (some q : Option Placement)).2 = none) ∨
          (∃ p0, (((evalPlacement g w q).intersections : Int), (some q : Option Placement)).2 = some p0 ∧
            (((evalPlacement g w q).intersections : Int), (some q : Option Placement)).1 =
              (interCount g w p0 : Int) ∧ ValidPlacement g w p0) :=
        Or.inr ⟨q, rfl, by simp [heval.1], hvq⟩
      have hstL2 : ∀ p0, (((evalPlacement g w q).intersections : Int), (some q : Option Placement)).2 =
          some p0 → ∀ q2 ∈ L, scanRank cols p0 < scanRank cols q2 := by
        intro p0 hp0 q2 hq2
        cases hp0
        exact List.rel_of_pairwise_cons hL hq2
      obtain ⟨ihv, ihsc, ihmax, ihtie, ihmem, ihlt⟩ :=
        foldBest_some g w cols L _ hLtail hinv2 hstL2 p hp
      have hscq : interCount g w q ≤ interCount g w p := by
        rcases ihlt with heq | hlt
        · cases heq; exact le_refl _
        · have := heval.1
          omega
      refine ⟨ihv, ihsc, ?_, ?_, ?_, ?_⟩
      · intro q2 hq2 hv2
        rcases List.mem_cons.mp hq2 with rfl | hq2
        · exact hscq
        · exact ihmax _ hq2 hv2
      · intro q2 hq2 hv2 htie
        rcases List.mem_cons.mp hq2 with rfl | hq2
        · rcases ihlt with heq | hlt
          · cases heq; exact le_refl _
          · exfalso
            have := heval.1
            omega
        · exact ihtie _ hq2 hv2 htie
      · rcases ihmem with heq | hmem
        · cases heq; exact Or.inr (by simp)
        · exact Or.inr (by simp [hmem])
      · rcases ihmem with heq | hmem
        · cases heq
          exact Or.inr (by have := heval.1; omega)
        · rcases ihlt with heq | hlt
          · cases heq
            exact Or.inr (by have := heval.1; omega)
          · refine Or.inr ?_
            have : st.1 < ((evalPlacement g w q).intersections : Int) := hcond.2
            omega
    · have hstep : bestStep g w st q = st := by
        simp only [bestStep]
        rw [if_neg hcond]
      rw [hstep] at hp
      rw [List.foldl_cons, hstep]
      obtain ⟨ihv, ihsc, ihmax, ihtie, ihmem, ihlt⟩ :=
        foldBest_some g w cols L st hLtail hinv
          (fun p0 hp0 q2 hq2 => hstL p0 hp0 q2 (List.mem_cons_of_mem _ hq2)) p hp
      have hmono : st.1 ≤ (L.foldl (bestStep g w) st).1 := foldBest_fst_mono g w L st
      refine ⟨ihv, ihsc, ?_, ?_, ?_, ihlt⟩
      · intro q2 hq2 hv2
        rcases List.mem_cons.mp hq2 with rfl | hq2
        · push_neg at hcond
          have h1 := hcond hv2
          have h2 := (evalPlacement_true hv2).1
          omega
        · exact ihmax _ hq2 hv2
      · intro q2 hq2 hv2 htie
        rcases List.mem_cons.mp hq2 with rfl | hq2
        · push_neg at hcond
          have h1 := hcond hv2
          have h2 := (evalPlacement_true hv2).1
          rcases ihlt with heq | hlt
          · exact le_of_lt (hstL p heq q2 (by simp))
          · exfalso
            omega
        · exact ihtie _ hq2 hv2 htie
      · rcases ihmem with heq | hmem
        · exact Or.inl heq
        · exact Or.inr (by simp [hmem])

/-! ### Entry numbering -/

/-- Weak row-major order on positions. -/
def posLE (p q : Pos) : Prop :=
  p.row < q.row ∨ (p.row = q.row ∧ p.col ≤ q.col)

/-- Strict row-major order on positions. -/
def posLT (p q : Pos) : Prop :=
  p.row < q.row ∨ (p.row = q.row ∧ p.col < q.col)

instance : DecidableRel posLE := fun p q => by
  unfold posLE
  infer_instance

instance : DecidableRel posLT := fun p q => by
  unfold posLT
  infer_instance

theorem posLE_not_posLT {p q : Pos} (h : posLE p q) : ¬ posLT q p := by
  unfold posLE at h
  unfold posLT
  omega

theorem entryPosLE_posLE {a b : Entry} (h : entryPosLE a b) : posLE a.position b.position := h

/-- The final `numberedPositions` map after the numbering walk. -/
def assignSeen : List Entry → List (Pos × Nat) → Nat → List (Pos × Nat)
  | [], seen, _ => seen
  | e :: rest, seen, next =>
    match lookupPos seen e.position with
    | some _ => assignSeen rest seen next
    | none => assignSeen rest ((e.position, next) :: seen) (next + 1)

theorem lookupPos_mem : ∀ {s : List (Pos × Nat)} {p : Pos} {n : Nat},
    lookupPos s p = some n → (p, n) ∈ s
  | [], _, _, h => by simp [lookupPos] at h
  | (p0, n0) :: rest, p, n, h => by
    rw [lookupPos] at h
    split_ifs at h with he
    · cases h
      cases he
      simp
    · exact List.mem_cons_of_mem _ (lookupPos_mem h)

theorem lookupPos_assignSeen_extends :
    ∀ (es : List Entry) (seen : List (Pos × Nat)) (next : Nat) (p : Pos) (n : Nat),
      lookupPos seen p = some n → lookupPos (assignSeen es seen next) p = some n
  | [], _, _, _, _, h => h
  | e :: rest, seen, next, p, n, h => by
    rw [assignSeen]
    rcases hl : lookupPos seen e.position with _ | n0
    · have hne : e.position ≠ p := by
        intro heq
        rw [heq, h] at hl
        cases hl
      apply lookupPos_assignSeen_extends
      rw [lookupPos, if_neg hne]
      exact h
    · exact lookupPos_assignSeen_extends rest seen next p n h

theorem assignNumbers_spec :
    ∀ (es : List Entry) (seen : List (Pos × Nat)) (next : Nat),
      es.Pairwise entryPosLE →
      1 ≤ next →
      (∀ pr ∈ seen, 1 ≤ pr.2 ∧ pr.2 < next) →
      (∀ pr ∈ seen, ∀ pr2 ∈ seen, posLT pr.1 pr2.1 → pr.2 < pr2.2) →
      (∀ pr ∈ seen, ∀ e ∈ es, posLE pr.1 e.position) →
      (∀ a ∈ assignNumbers es seen next,
          lookupPos (assignSeen es seen next) a.position = some a.number) ∧
      (∀ pr ∈ assignSeen es seen next, 1 ≤ pr.2 ∧ pr.2 < next + es.length) ∧
      (∀ pr ∈ assignSeen es seen next, ∀ pr2 ∈ assignSeen es seen next,
          posLT pr.1 pr2.1 → pr.2 < pr2.2)
  | [], seen, next, _, _, hseen1, hmono, _ => by
    refine ⟨by simp [assignNumbers], ?_, ?_⟩
    · intro pr hpr
      have := hseen1 pr hpr
      exact ⟨this.1, by simpa using this.2⟩
    · intro pr hpr pr2 hpr2
      exact hmono pr hpr pr2 hpr2
  | e :: rest, seen, next, hsort, hnext, hseen1, hmono, hle => by
    rcases hl : lookupPos seen e.position with _ | n0
    · have hrest := assignNumbers_spec rest ((e.position, next) :: seen) (next + 1)
        hsort.tail (by omega)
        (by
          intro pr hpr
          rcases List.mem_cons.mp hpr with rfl | hpr
          · exact ⟨hnext, by omega⟩
          · have := hseen1 pr hpr
            omega)
        (by
          intro pr hpr pr2 hpr2 hlt
          rcases List.mem_cons.mp hpr with rfl | hpr <;>
            rcases List.mem_cons.mp hpr2 with rfl | hpr2
          · exact absurd hlt (by unfold posLT; omega)
          · exfalso
            have hple : posLE pr2.1 e.position := hle pr2 hpr2 e (by simp)
            exact posLE_not_posLT hple hlt
          · have := hseen1 pr hpr
            omega
          · exact hmono pr hpr pr2 hpr2 hlt)
        (by
          intro pr hpr e2 he2
          rcases List.mem_cons.mp hpr with rfl | hpr
          · exact entryPosLE_posLE (List.rel_of_pairwise_cons hsort he2)
          · exact hle pr hpr e2 (List.mem_cons_of_mem _ he2))
      have hAS : assignSeen (e :: rest) seen next =
          assignSeen rest ((e.position, next) :: seen) (next + 1) := by
        rw [assignSeen, hl]
      have hAN : assignNumbers (e :: rest) seen next =
          { e with number := next } ::
            assignNumbers rest ((e.position, next) :: seen) (next + 1) := by
        rw [assignNumbers, hl]
      rw [hAS, hAN]
      refine ⟨?_, ?_, hrest.2.2⟩
      · intro a ha
        rcases List.mem_cons.mp ha with rfl | ha
        · simpa using lookupPos_assignSeen_extends rest ((e.position, next) :: seen)
            (next + 1) e.position next (by rw [lookupPos, if_pos rfl])
        · exact hrest.1 a ha
      · intro pr hpr
        have := hrest.2.1 pr hpr
        simp only [List.length_cons]
        omega
    · have hrest := assignNumbers_spec rest seen next hsort.tail hnext hseen1 hmono
        (fun pr hpr e2 he2 => hle pr hpr e2 (List.mem_cons_of_mem _ he2))
      have hAS : assignSeen (e :: rest) seen next = assignSeen rest seen next := by
        rw [assignSeen, hl]
      have hAN : assignNumbers (e :: rest) seen next =
          { e with number := n0 } :: assignNumbers rest seen next := by
        rw [assignNumbers, hl]
      rw [hAS, hAN]
      refine ⟨?_, ?_, hrest.2.2⟩
      · intro a ha
        rcases List.mem_cons.mp ha with rfl | ha
        · simpa using lookupPos_assignSeen_extends rest seen next e.position n0 hl
        · exact hrest.1 a ha
      · intro pr hpr
        have := hrest.2.1 pr hpr
        simp only [List.length_cons]
        omega

/-! ### Claim theorems -/

/-- C3: for every input list in which fewer than 3 candidates survive
preprocessing, `buildCrossword` fails with `TooFewValidWords`; the result
does not depend on the random stream, because the error is raised before
any placement work. -/
theorem c3_tooFewValidWords (qs : List Question) (rnd : Nat → Nat)
    (h : (preprocess qs).length < 3) :
    buildCrossword qs rnd = .error .tooFewValidWords := by
  simp only [buildCrossword]
  split_ifs with h1 h2
  all_goals first
    | rfl
    | exact absurd h (by omega)

theorem c3_witness :
    (preprocess [⟨"q1", "AB"⟩, ⟨"q2", "X!"⟩, ⟨"q3", "HELLO"⟩]).length < 3 ∧
      buildCrossword [⟨"q1", "AB"⟩, ⟨"q2", "X!"⟩, ⟨"q3", "HELLO"⟩] (fun _ => 0) =
        .error .tooFewValidWords :=
  ⟨by decide, c3_tooFewValidWords _ (fun _ => 0) (by decide)⟩

/-- C6: on a well-formed grid, `findBestPlacement` returns a valid
placement maximizing the number of letter intersections among all valid
placements, breaking ties by the row-major scan rank (across before down
at each cell); when no valid placement exists it returns `none`, and the
placement loop then leaves the attempt state unchanged (the candidate is
skipped). -/
theorem c6_findBestPlacement_argmax {rows cols : Nat} (g : Grid) (w : List Char)
    (hwf : WFGrid g rows cols) :
    (∀ p, findBestPlacement g w = some p →
      ValidPlacement g w p ∧
      (∀ q, ValidPlacement g w q → interCount g w q ≤ interCount g w p) ∧
      (∀ q, ValidPlacement g w q → interCount g w q = interCount g w p →
        scanRank (gridCols g) p ≤ scanRank (gridCols g) q)) ∧
    (findBestPlacement g w = none → ∀ q, ¬ ValidPlacement g w q) ∧
    (∀ st : SearchState, ∀ wd : WordData,
      findBestPlacement st.grid wd.word = none → tryPlaceWord st wd = st) := by
  refine ⟨?_, ?_, ?_⟩
  · intro p hp
    obtain ⟨hv, _, hmax, htie, _, _⟩ :=
      foldBest_some g w (gridCols g) (scanPlacements (gridRows g) (gridCols g)) (-1, none)
        (scanPlacements_sorted _ _) (Or.inl ⟨rfl, rfl⟩) (by simp) p hp
    exact ⟨hv, fun q hq => hmax q (valid_mem_scan hwf hq) hq,
      fun q hq htieq => htie q (valid_mem_scan hwf hq) hq htieq⟩
  · intro hnone q hq
    obtain ⟨_, hbound⟩ := foldBest_none g w _ _ hnone
    have h1 := hbound q (valid_mem_scan hwf hq) hq
    have h2 := (evalPlacement_true hq).2
    omega
  · intro st wd hnone
    unfold tryPlaceWord
    split_ifs with hmem
    · rfl
    · rw [hnone]

def c6Grid : Grid :=
  [[none, none, none, none],
   [some 'C', some 'A', some 'T', none],
   [none, none, none, none],
   [none, none, none, none]]

theorem c6_witness :
    WFGrid c6Grid 4 4 ∧
      findBestPlacement c6Grid ['C', 'O', 'T'] = some ⟨1, 0, .down⟩ ∧
      (ValidPlacement c6Grid ['C', 'O', 'T'] ⟨1, 0, .down⟩ ∧
        (∀ q, ValidPlacement c6Grid ['C', 'O', 'T'] q →
          interCount c6Grid ['C', 'O', 'T'] q ≤
            interCount c6Grid ['C', 'O', 'T'] ⟨1, 0, .down⟩) ∧
        (∀ q, ValidPlacement c6Grid ['C', 'O', 'T'] q →
          interCount c6Grid ['C', 'O', 'T'] q =
            interCount c6Grid ['C', 'O', 'T'] ⟨1, 0, .down⟩ →
          scanRank (gridCols c6Grid) ⟨1, 0, .down⟩ ≤ scanRank (gridCols c6Grid) q)) :=
  ⟨by decide, by decide,
    (c6_findBestPlacement_argmax c6Grid ['C', 'O', 'T']
        (show WFGrid c6Grid 4 4 by decide)).1 ⟨1, 0, .down⟩ (by decide)⟩

/-- C7: after numbering, entries sharing a start position share their
number; across distinct positions the numbers are strictly increasing in
row-major position order; numbers start at 1. -/
theorem c7_numbering (entries : List Entry) :
    (∀ a ∈ numberEntries entries, ∀ b ∈ numberEntries entries,
        a.position = b.position → a.number = b.number) ∧
    (∀ a ∈ numberEntries entries, ∀ b ∈ numberEntries entries,
        posLT a.position b.position → a.number < b.number) ∧
    (∀ a ∈ numberEntries entries, 1 ≤ a.number) ∧
    (entries ≠ [] → ∃ a ∈ numberEntries entries, a.number = 1) := by
  have hsorted : (entries.insertionSort entryPosLE).Pairwise entryPosLE
    := List.sorted_insertionSort entryPosLE entries
  have hspec := assignNumbers_spec (entries.insertionSort entryPosLE) [] 1 hsorted
    (le_refl 1) (by simp) (by simp) (by simp)
  obtain ⟨hnum, hrange, hmono⟩ := hspec
  refine ⟨?_, ?_, ?_, ?_⟩
  · intro a ha b hb hpos
    have h1 := hnum a ha
    have h2 := hnum b hb
    rw [hpos] at h1
    rw [h1] at h2
    exact (Option.some.injEq _ _).mp h2
  · intro a ha b hb hlt
    have h1 := lookupPos_mem (hnum a ha)
    have h2 := lookupPos_mem (hnum b hb)
    exact hmono _ h1 _ h2 hlt
  · intro a ha
    exact (hrange _ (lookupPos_mem (hnum a ha))).1
  · intro hne
    rcases hs : entries.insertionSort entryPosLE with _ | ⟨e, rest⟩
    · exfalso
      apply hne
      have := List.length_insertionSort entryPosLE entries
      rw [hs] at this
      simpa using this.symm
    · refine ⟨{ e with number := 1 }, ?_, rfl⟩
      unfold numberEntries
      rw [hs, assignNumbers]
      rw [show lookupPos [] e.position = none from rfl]
      simp

def c7es : List Entry :=
  [⟨['C', 'A', 'T'], "q1", ⟨0, 0⟩, .across, 7⟩,
   ⟨['C', 'O', 'T'], "q2", ⟨0, 0⟩, .down, 9⟩,
   ⟨['T', 'O', 'T'], "q3", ⟨2, 0⟩, .across, 5⟩]

theorem c7_witness : c7es ≠ [] ∧ ∃ a ∈ numberEntries c7es, a.number = 1 :=
  ⟨by decide, (c7_numbering c7es).2.2.2 (by decide)⟩

/-- C4 (counterexample): the preprocessor keeps a 13-letter answer, so it
does not reject answers longer than 12 letters. -/
theorem c4_counterexample :
    (⟨"ABCDEFGHIJKLM".toList, "q"⟩ : WordData) ∈
        preprocess [⟨"q", "ABCDEFGHIJKLM"⟩] ∧
      ("ABCDEFGHIJKLM".toList : List Char).length = 13 := by
  decide

/-- C4 (amended): the preprocessor strips every character outside A–Z
after uppercasing, keeps exactly the candidates whose cleaned answer has
length at least 3 (there is no upper length bound), leaves clue text
unmodified, and stable-sorts the survivors by strictly descending cleaned
length, ties keeping their relative input order (expressed by the filter
equation: within each length class the sorted list agrees with the
filtered input order). -/
theorem c4_preprocess_spec (qs : List Question) :
    (∀ wd ∈ preprocess qs, 3 ≤ wd.word.length ∧
      (∀ ch ∈ wd.word, 'A' ≤ ch ∧ ch ≤ 'Z') ∧
      ∃ q ∈ qs, wd.word = cleanAnswer q.answer ∧ wd.question = q.question) ∧
    (∀ q ∈ qs, 3 ≤ (cleanAnswer q.answer).length →
      (⟨cleanAnswer q.answer, q.question⟩ : WordData) ∈ preprocess qs) ∧
    (preprocess qs).Pairwise wordLenDesc ∧
    (∀ L : Nat, (preprocess qs).filter (fun wd => decide (wd.word.length = L)) =
      (filteredWords qs).filter (fun wd => decide (wd.word.length = L))) := by
  refine ⟨?_, ?_, ?_, ?_⟩
  · intro wd hwd
    have hmem : wd ∈ filteredWords qs := by
      have := (List.mem_insertionSort wordLenDesc).mp hwd
      exact this
    unfold filteredWords at hmem
    rw [List.mem_filter] at hmem
    obtain ⟨hmap, hvalid⟩ := hmem
    rw [List.mem_map] at hmap
    obtain ⟨q, hq, hqe⟩ := hmap
    unfold isValidWord at hvalid
    simp only [Bool.and_eq_true, decide_eq_true_eq, List.all_eq_true] at hvalid
    refine ⟨hvalid.2, ?_, q, hq, ?_, ?_⟩
    · intro ch hch
      have := hvalid.1.2 ch hch
      simpa using this
    · rw [← hqe]
    · rw [← hqe]
  · intro q hq hlen
    rw [preprocess, List.mem_insertionSort]
    unfold filteredWords
    rw [List.mem_filter]
    constructor
    · rw [List.mem_map]
      exact ⟨q, hq, rfl⟩
    · unfold isValidWord
      simp only [Bool.and_eq_true, decide_eq_true_eq, List.all_eq_true]
      refine ⟨⟨?_, ?_⟩, hlen⟩
      · intro hemp
        rw [hemp] at hlen
        simp at hlen
      · intro ch hch
        unfold cleanAnswer at hch
        rw [List.mem_filter] at hch
        simpa using hch.2
  · exact List.sorted_insertionSort wordLenDesc (filteredWords qs)
  · intro L
    have hpair : ((filteredWords qs).filter
        (fun wd => decide (wd.word.length = L))).Pairwise wordLenDesc := by
      apply List.pairwise_of_forall_mem_list
      intro a ha b hb
      rw [List.mem_filter] at ha hb
      have h1 := of_decide_eq_true ha.2
      have h2 := of_decide_eq_true hb.2
      unfold wordLenDesc
      omega
    have hsub : List.Sublist ((filteredWords qs).filter (fun wd => decide (wd.word.length = L)))
        ((filteredWords qs).insertionSort wordLenDesc) :=
      List.sublist_insertionSort hpair (List.filter_sublist _)
    have hsub2 : List.Sublist ((filteredWords qs).filter (fun wd => decide (wd.word.length = L)))
        (((filteredWords qs).insertionSort wordLenDesc).filter
          (fun wd => decide (wd.word.length = L))) := by
      have := List.Sublist.filter (fun wd => decide (wd.word.length = L)) hsub
      rwa [List.filter_eq_self.mpr (fun a ha => (List.mem_filter.mp ha).2)] at this
    have hperm : List.Perm (((filteredWords qs).insertionSort wordLenDesc).filter
          (fun wd => decide (wd.word.length = L)))
        ((filteredWords qs).filter (fun wd => decide (wd.word.length = L))) :=
      (List.perm_insertionSort wordLenDesc (filteredWords qs)).filter _
    exact (List.Sublist.eq_of_length hsub2 hperm.length_eq.symm).symm

theorem c4_witness :
    (⟨"q2", "tar!"⟩ : Question) ∈
        [(⟨"q1", "guitar"⟩ : Question), ⟨"q2", "tar!"⟩, ⟨"q3", "no"⟩] ∧
      3 ≤ (cleanAnswer "tar!").length ∧
      (⟨cleanAnswer "tar!", "q2"⟩ : WordData) ∈
        preprocess [⟨"q1", "guitar"⟩, ⟨"q2", "tar!"⟩, ⟨"q3", "no"⟩] :=
  ⟨by decide, by decide,
    (c4_preprocess_spec [⟨"q1", "guitar"⟩, ⟨"q2", "tar!"⟩, ⟨"q3", "no"⟩]).2.1
      ⟨"q2", "tar!"⟩ (by decide) (by decide)⟩

/-! ### The attempt loop: discarded attempts and early exit -/

deriving instance DecidableEq for Except

/-- Number of placed words of an attempt outcome (`0` for a failed seed). -/
def placedCount : Option SearchState → Nat
  | none => 0
  | some st => st.entries.length

/-- The outcome of attempt `k` as reached inside the loop: each attempt
continues the random stream where the previous one stopped. -/
def runAttemptAt (words : List WordData) (rnd : Nat → Nat) : Nat → Option SearchState × Nat
  | 0 => runAttempt words 0 rnd 0
  | k + 1 => runAttempt words (k + 1) rnd (runAttemptAt words rnd k).2

theorem preprocess_length_le (qs : List Question) : (preprocess qs).length ≤ qs.length := by
  rw [preprocess, List.length_insertionSort]
  calc (filteredWords qs).length
      ≤ (qs.map (fun q => ({ word := cleanAnswer q.answer, question := q.question } : WordData))).length :=
        (List.filter_sublist _).length_le
    _ = qs.length := List.length_map _ _

theorem preprocess_mem_valid {qs : List Question} {wd : WordData} (h : wd ∈ preprocess qs) :
    isValidWord wd.word = true := by
  rw [preprocess, List.mem_insertionSort] at h
  exact (List.mem_filter.mp h).2

theorem preprocess_mem_len {qs : List Question} {wd : WordData} (h : wd ∈ preprocess qs) :
    3 ≤ wd.word.length := by
  have := preprocess_mem_valid h
  rw [isValidWord] at this
  simp only [Bool.and_eq_true, decide_eq_true_eq] at this
  exact this.2

theorem attemptStep_broke (words : List WordData) (rnd : Nat → Nat) (st : LoopState)
    (k : Nat) (h : st.broke = true) : attemptStep words rnd st k = st := by
  simp [attemptStep, h]

theorem foldl_attemptStep_broke (words : List WordData) (rnd : Nat → Nat)
    (L : List Nat) (st : LoopState) (h : st.broke = true) :
    L.foldl (attemptStep words rnd) st = st := by
  induction L with
  | nil => rfl
  | cons x xs ih => rw [List.foldl_cons, attemptStep_broke words rnd st x h, ih]

/-- An attempt that places fewer than 3 words only advances the random
stream: the best crossword and best score are untouched (it is discarded
before scoring), and the loop does not break. -/
theorem attemptStep_discard (words : List WordData) (rnd : Nat → Nat) (st : LoopState)
    (k : Nat) (hb : st.broke = false)
    (hlt : placedCount ((runAttempt words k rnd st.ctr).1) < 3) :
    attemptStep words rnd st k =
      ⟨st.best, st.bestScore, (runAttempt words k rnd st.ctr).2, false⟩ := by
  rcases st with ⟨b, bs, c0, brk⟩
  simp only at hb
  subst hb
  simp only [attemptStep, Bool.false_eq_true, if_false]
  rcases hr : runAttempt words k rnd c0 with ⟨o, c2⟩
  rw [hr] at hlt
  rcases o with _ | s
  · rfl
  · simp only [placedCount] at hlt
    simp [hlt]

/-- Attempt 0 never consults the random stream: no shuffle happens on the
first attempt. -/
theorem runAttempt_zero (words : List WordData) (rnd rnd2 : Nat → Nat) (ctr : Nat) :
    runAttempt words 0 rnd ctr = runAttempt words 0 rnd2 ctr := by
  cases words <;> rfl

/-- The loop state after the three attempts when every attempt placed
fewer than 3 words. -/
theorem attemptLoop_discarded (words : List WordData) (rnd : Nat → Nat)
    (hf : ∀ k, k < 3 → placedCount ((runAttemptAt words rnd k).1) < 3) :
    [0, 1, 2].foldl (attemptStep words rnd) ⟨none, -1, 0, false⟩ =
      ⟨none, -1, (runAttemptAt words rnd 2).2, false⟩ := by
  have h0 : attemptStep words rnd ⟨none, -1, 0, false⟩ 0 =
      ⟨none, -1, (runAttemptAt words rnd 0).2, false⟩ :=
    attemptStep_discard words rnd ⟨none, -1, 0, false⟩ 0 rfl (hf 0 (by omega))
  have h1 : attemptStep words rnd ⟨none, -1, (runAttemptAt words rnd 0).2, false⟩ 1 =
      ⟨none, -1, (runAttemptAt words rnd 1).2, false⟩ :=
    attemptStep_discard words rnd ⟨none, -1, (runAttemptAt words rnd 0).2, false⟩ 1 rfl
      (hf 1 (by omega))
  have h2 : attemptStep words rnd ⟨none, -1, (runAttemptAt words rnd 1).2, false⟩ 2 =
      ⟨none, -1, (runAttemptAt words rnd 2).2, false⟩ :=
    attemptStep_discard words rnd ⟨none, -1, (runAttemptAt words rnd 1).2, false⟩ 2 rfl
      (hf 2 (by omega))
  rw [List.foldl_cons, h0, List.foldl_cons, h1, List.foldl_cons, h2, List.foldl_nil]

/-! ### Structure of a successful build -/

theorem findBestPlacement_some_valid {g : Grid} {w : List Char} {p : Placement}
    (h : findBestPlacement g w = some p) :
    ValidPlacement g w p ∧ p ∈ scanPlacements (gridRows g) (gridCols g) := by
  have hall := foldBest_some g w (gridCols g) (scanPlacements (gridRows g) (gridCols g))
    (-1, none) (scanPlacements_sorted _ _) (Or.inl ⟨rfl, rfl⟩)
    (by intro p0 h0; simp at h0) p h
  refine ⟨hall.1, ?_⟩
  rcases hall.2.2.2.2.1 with h2 | h2
  · simp at h2
  · exact h2

/-- Each loop step either leaves the attempt state unchanged or appends
one entry placed at a placement the engine validated. -/
theorem tryPlaceWord_cases (st : SearchState) (wd : WordData) :
    tryPlaceWord st wd = st ∨
    ∃ p, findBestPlacement st.grid wd.word = some p ∧ ValidPlacement st.grid wd.word p ∧
      ¬ wd.word ∈ st.used ∧
      tryPlaceWord st wd = ⟨placeWordInGrid st.grid wd.word p,
        st.entries ++ [⟨wd.word, wd.question, ⟨p.row, p.col⟩, p.direction, st.nextNumber⟩],
        st.used ++ [wd.word], st.nextNumber + 1⟩ := by
  by_cases hu : wd.word ∈ st.used
  · left
    simp [tryPlaceWord, hu]
  · rcases hp : findBestPlacement st.grid wd.word with _ | p
    · left
      simp [tryPlaceWord, hu, hp]
    · right
      refine ⟨p, rfl, (findBestPlacement_some_valid hp).1, hu, ?_⟩
      simp [tryPlaceWord, hu, hp]

theorem listSwap_subset (l : List WordData) (i j : Nat) :
    ∀ x ∈ listSwap l i j, x ∈ l := by
  intro x hx
  rcases hgi : l.get? i with _ | a <;> rcases hgj : l.get? j with _ | b <;>
    rw [listSwap, hgi, hgj] at hx
  · exact hx
  · exact hx
  · exact hx
  · have ha : a ∈ l := List.get?_mem hgi
    have hb : b ∈ l := List.get?_mem hgj
    rcases List.mem_or_eq_of_mem_set hx with hx2 | rfl
    · rcases List.mem_or_eq_of_mem_set hx2 with hx3 | rfl
      · exact hx3
      · exact hb
    · exact ha

theorem shuffleGo_subset (rnd : Nat → Nat) :
    ∀ (i ctr : Nat) (l : List WordData), ∀ x ∈ (shuffleGo rnd ctr i l).1, x ∈ l
  | 0, _, _, _, hx => hx
  | i + 1, ctr, l, x, hx =>
    listSwap_subset l (i + 1) (rnd ctr % (i + 2)) x
      (shuffleGo_subset rnd i (ctr + 1) _ x hx)

theorem startingPositions_getD (m : Nat) :
    startingPositions.getD m ⟨10, 10⟩ = ⟨10, 10⟩ ∨
    startingPositions.getD m ⟨10, 10⟩ = ⟨5, 5⟩ ∨
    startingPositions.getD m ⟨10, 10⟩ = ⟨5, 15⟩ := by
  match m with
  | 0 => exact Or.inl rfl
  | 1 => exact Or.inr (Or.inl rfl)
  | 2 => exact Or.inr (Or.inr rfl)
  | n + 3 => exact Or.inl rfl

/-- What a non-failing attempt looks like: a seed entry for the first
word at one of the three starting positions (a vertical seed fits the
grid height), followed by a greedy pass over a sublist permutation of the
remaining words. -/
theorem runAttempt_some_elim {words : List WordData} {k : Nat} {rnd : Nat → Nat}
    {ctr : Nat} {st : SearchState} (h : (runAttempt words k rnd ctr).1 = some st) :
    ∃ (fw : WordData) (rest rem : List WordData) (pos : Pos) (dir : Dir),
      words = fw :: rest ∧
      (pos = (⟨10, 10⟩ : Pos) ∨ pos = ⟨5, 5⟩ ∨ pos = ⟨5, 15⟩) ∧
      (dir = Dir.down → pos.row + fw.word.length ≤ 30) ∧
      (∀ x ∈ rem, x ∈ rest) ∧
      st = rem.foldl tryPlaceWord
        ⟨placeWordInGrid (emptyGrid 30 30) fw.word ⟨pos.row, pos.col, dir⟩,
          [⟨fw.word, fw.question, pos, dir, 1⟩], [fw.word], 2⟩ := by
  rcases words with _ | ⟨fw, rest⟩
  · simp [runAttempt] at h
  · have heq : runAttempt (fw :: rest) k rnd ctr =
        (if (if k % 2 = 0 then Dir.across else Dir.down) = Dir.down ∧
            gridRows (emptyGrid 30 30) <
              (startingPositions.getD (k % startingPositions.length) ⟨10, 10⟩).row +
                fw.word.length
          then (none, ctr)
          else
            (some (((if 0 < k then shuffleList rnd ctr rest else (rest, ctr)).1).foldl
                tryPlaceWord
                ⟨placeWordInGrid (emptyGrid 30 30) fw.word
                    ⟨(startingPositions.getD (k % startingPositions.length) ⟨10, 10⟩).row,
                      (startingPositions.getD (k % startingPositions.length) ⟨10, 10⟩).col,
                      if k % 2 = 0 then Dir.across else Dir.down⟩,
                  [⟨fw.word, fw.question,
                      startingPositions.getD (k % startingPositions.length) ⟨10, 10⟩,
                      if k % 2 = 0 then Dir.across else Dir.down, 1⟩],
                  [fw.word], 2⟩),
              (if 0 < k then shuffleList rnd ctr rest else (rest, ctr)).2)) := rfl
    rw [heq] at h
    by_cases hg : (if k % 2 = 0 then Dir.across else Dir.down) = Dir.down ∧
        gridRows (emptyGrid 30 30) <
          (startingPositions.getD (k % startingPositions.length) ⟨10, 10⟩).row +
            fw.word.length
    · rw [if_pos hg] at h
      simp at h
    · rw [if_neg hg] at h
      refine ⟨fw, rest,
        ((if 0 < k then shuffleList rnd ctr rest else (rest, ctr)) :
          List WordData × Nat).1,
        startingPositions.getD (k % startingPositions.length) ⟨10, 10⟩,
        (if k % 2 = 0 then Dir.across else Dir.down), rfl, startingPositions_getD _,
        ?_, ?_, ?_⟩
      · intro hdown
        push_neg at hg
        have hnb := hg hdown
        have h30 : gridRows (emptyGrid 30 30) = 30 := rfl
        rw [h30] at hnb
        omega
      · by_cases hk : 0 < k
        · rw [if_pos hk]
          intro x hx
          exact shuffleGo_subset rnd (rest.length - 1) ctr rest x hx
        · rw [if_neg hk]
          intro x hx
          exact hx
      · exact (Option.some.inj h).symm

/-- The best crossword either survives a loop iteration unchanged, or is
replaced by this attempt's processed result (only when the attempt placed
at least 3 words). -/
theorem attemptStep_best (words : List WordData) (rnd : Nat → Nat) (s : LoopState)
    (k : Nat) :
    (attemptStep words rnd s k).best = s.best ∨
    ∃ t, (runAttempt words k rnd s.ctr).1 = some t ∧ 3 ≤ t.entries.length ∧
      (attemptStep words rnd s k).best = some (processAttempt t.grid t.entries) := by
  by_cases hbr : s.broke = true
  · rw [attemptStep_broke _ _ _ _ hbr]
    exact Or.inl rfl
  · have hbr2 : s.broke = false := by
      revert hbr
      cases s.broke <;> simp
    rcases hr : runAttempt words k rnd s.ctr with ⟨o, c2⟩
    rcases o with _ | t
    · left
      simp [attemptStep, hbr2, hr]
    · by_cases hlen : t.entries.length < 3
      · left
        simp [attemptStep, hbr2, hr, hlen]
      · by_cases hsc : s.bestScore < scoreGrid t.grid t.entries.length words.length
        · right
          refine ⟨t, rfl, by omega, ?_⟩
          simp [attemptStep, hbr2, hr, hlen, hsc]
        · left
          simp [attemptStep, hbr2, hr, hlen, hsc]

/-- A successful build comes from an attempt that placed at least 3
words, post-processed by trim/shift/renumber. -/
theorem buildOk_elim {qs : List Question} {rnd : Nat → Nat} {res : CrosswordResult}
    (h : buildCrossword qs rnd = .ok res) :
    3 ≤ (preprocess qs).length ∧ 3 ≤ res.entries.length ∧
    ∃ k ctr st, k < 3 ∧ (runAttempt (preprocess qs) k rnd ctr).1 = some st ∧
      3 ≤ st.entries.length ∧ res = processAttempt st.grid st.entries := by
  by_cases hq : qs.length < 3
  · rw [buildCrossword, if_pos hq] at h
    cases h
  by_cases hw : (preprocess qs).length < 3
  · simp only [buildCrossword, if_neg hq, if_pos hw] at h
    cases h
  simp only [buildCrossword, if_neg hq, if_neg hw] at h
  have hP : ([0, 1, 2].foldl (attemptStep (preprocess qs) rnd) ⟨none, -1, 0, false⟩).best =
        none ∨
      ∃ k ctr st, k < 3 ∧ (runAttempt (preprocess qs) k rnd ctr).1 = some st ∧
        3 ≤ st.entries.length ∧
        ([0, 1, 2].foldl (attemptStep (preprocess qs) rnd) ⟨none, -1, 0, false⟩).best =
          some (processAttempt st.grid st.entries) := by
    refine @foldl_induction LoopState Nat
      (fun s => s.best = none ∨
        ∃ k ctr st, k < 3 ∧ (runAttempt (preprocess qs) k rnd ctr).1 = some st ∧
          3 ≤ st.entries.length ∧ s.best = some (processAttempt st.grid st.entries))
      (attemptStep (preprocess qs) rnd) [0, 1, 2] ⟨none, -1, 0, false⟩ (Or.inl rfl) ?_
    intro s b hb hPs
    have hb3 : b < 3 := by
      simp only [List.mem_cons, List.not_mem_nil, or_false] at hb
      rcases hb with rfl | rfl | rfl <;> omega
    rcases attemptStep_best (preprocess qs) rnd s b with hsame | ⟨t, hrt, hlen, hnew⟩
    · rw [hsame]
      exact hPs
    · exact Or.inr ⟨b, s.ctr, t, hb3, hrt, hlen, hnew⟩
  rcases hP with hnone | ⟨k, c, t, hk, hrt, hlen, hbest⟩
  · rw [hnone] at h
    simp at h
  · rw [hbest] at h
    simp only [] at h
    by_cases hres : 3 ≤ (processAttempt t.grid t.entries).entries.length
    · rw [if_pos hres] at h
      have hr2 : processAttempt t.grid t.entries = res := Except.ok.inj h
      refine ⟨by omega, ?_, k, c, t, hk, hrt, hlen, hr2.symm⟩
      rw [← hr2]
      exact hres
    · rw [if_neg hres] at h
      cases h

/-- When at least 3 words survive preprocessing but every one of the
three attempts places fewer than 3 words, the build fails with
`layoutConstructionFailed` (and no partial result is returned). -/
theorem buildFail_all (qs : List Question) (rnd : Nat → Nat)
    (h3 : 3 ≤ (preprocess qs).length)
    (hfail : ∀ k, k < 3 → placedCount ((runAttemptAt (preprocess qs) rnd k).1) < 3) :
    buildCrossword qs rnd = .error .layoutConstructionFailed := by
  have hq : ¬ qs.length < 3 := by
    have := preprocess_length_le qs
    omega
  simp only [buildCrossword, if_neg hq, if_neg (show ¬ (preprocess qs).length < 3 by omega)]
  rw [attemptLoop_discarded (preprocess qs) rnd hfail]

/-- An attempt that places every candidate and strictly improves on the
incumbent score wins the selection outright and breaks the loop. -/
theorem attemptStep_full (words : List WordData) (rnd : Nat → Nat) (s : LoopState)
    (st : SearchState) (k c2 : Nat) (hb : s.broke = false)
    (hr : runAttempt words k rnd s.ctr = (some st, c2))
    (hfull : st.entries.length = words.length) (h3 : 3 ≤ words.length)
    (hsc : s.bestScore < scoreGrid st.grid st.entries.length words.length) :
    attemptStep words rnd s k =
      ⟨some (processAttempt st.grid st.entries),
        scoreGrid st.grid st.entries.length words.length, c2, true⟩ := by
  rcases s with ⟨b, bs, c0, brk⟩
  simp only at hb hr hsc
  subst hb
  simp only [attemptStep, Bool.false_eq_true, if_false, hr]
  rw [if_neg (show ¬ st.entries.length < 3 by omega)]
  rw [hfull] at hsc
  simp only [hfull]
  simp [hsc]

/-- Assemble a successful build decided by the very first attempt placing
every candidate word. -/
theorem buildOk_attempt0 (qs : List Question) (rnd : Nat → Nat) (st : SearchState)
    (res : CrosswordResult) (c2 : Nat)
    (h3 : 3 ≤ (preprocess qs).length)
    (h0 : runAttemptAt (preprocess qs) rnd 0 = (some st, c2))
    (hfull : st.entries.length = (preprocess qs).length)
    (hsc : (-1 : ℚ) < scoreGrid st.grid st.entries.length (preprocess qs).length)
    (hres : processAttempt st.grid st.entries = res)
    (hlen : 3 ≤ res.entries.length) :
    buildCrossword qs rnd = .ok res := by
  have hq : ¬ qs.length < 3 := by
    have := preprocess_length_le qs
    omega
  have hstep0 : attemptStep (preprocess qs) rnd ⟨none, -1, 0, false⟩ 0 =
      ⟨some (processAttempt st.grid st.entries),
        scoreGrid st.grid st.entries.length (preprocess qs).length, c2, true⟩ :=
    attemptStep_full (preprocess qs) rnd ⟨none, -1, 0, false⟩ st 0 c2 rfl h0 hfull h3 hsc
  have hfold : [0, 1, 2].foldl (attemptStep (preprocess qs) rnd) ⟨none, -1, 0, false⟩ =
      ⟨some (processAttempt st.grid st.entries),
        scoreGrid st.grid st.entries.length (preprocess qs).length, c2, true⟩ := by
    rw [List.foldl_cons, hstep0]
    exact foldl_attemptStep_broke _ _ _ _ rfl
  simp only [buildCrossword, if_neg hq, if_neg (show ¬ (preprocess qs).length < 3 by omega)]
  rw [hfold]
  show (if 3 ≤ (processAttempt st.grid st.entries).entries.length
      then Except.ok (processAttempt st.grid st.entries)
      else Except.error BuildError.layoutConstructionFailed) = Except.ok res
  rw [hres, if_pos hlen]

/-- Assemble a successful build decided by the second attempt after a
first attempt that placed fewer than 3 words. -/
theorem buildOk_attempt1 (qs : List Question) (rnd : Nat → Nat) (st : SearchState)
    (res : CrosswordResult) (c2 : Nat)
    (h3 : 3 ≤ (preprocess qs).length)
    (hf0 : placedCount ((runAttemptAt (preprocess qs) rnd 0).1) < 3)
    (h1 : runAttemptAt (preprocess qs) rnd 1 = (some st, c2))
    (hfull : st.entries.length = (preprocess qs).length)
    (hsc : (-1 : ℚ) < scoreGrid st.grid st.entries.length (preprocess qs).length)
    (hres : processAttempt st.grid st.entries = res)
    (hlen : 3 ≤ res.entries.length) :
    buildCrossword qs rnd = .ok res := by
  have hq : ¬ qs.length < 3 := by
    have := preprocess_length_le qs
    omega
  have hstep0 : attemptStep (preprocess qs) rnd ⟨none, -1, 0, false⟩ 0 =
      ⟨none, -1, (runAttemptAt (preprocess qs) rnd 0).2, false⟩ :=
    attemptStep_discard (preprocess qs) rnd ⟨none, -1, 0, false⟩ 0 rfl hf0
  have hstep1 : attemptStep (preprocess qs) rnd
      ⟨none, -1, (runAttemptAt (preprocess qs) rnd 0).2, false⟩ 1 =
      ⟨some (processAttempt st.grid st.entries),
        scoreGrid st.grid st.entries.length (preprocess qs).length, c2, true⟩ :=
    attemptStep_full (preprocess qs) rnd
      ⟨none, -1, (runAttemptAt (preprocess qs) rnd 0).2, false⟩ st 1 c2 rfl h1 hfull h3 hsc
  have hfold : [0, 1, 2].foldl (attemptStep (preprocess qs) rnd) ⟨none, -1, 0, false⟩ =
      ⟨some (processAttempt st.grid st.entries),
        scoreGrid st.grid st.entries.length (preprocess qs).length, c2, true⟩ := by
    rw [List.foldl_cons, hstep0, List.foldl_cons, hstep1]
    exact foldl_attemptStep_broke _ _ _ _ rfl
  simp only [buildCrossword, if_neg hq, if_neg (show ¬ (preprocess qs).length < 3 by omega)]
  rw [hfold]
  show (if 3 ≤ (processAttempt st.grid st.entries).entries.length
      then Except.ok (processAttempt st.grid st.entries)
      else Except.error BuildError.layoutConstructionFailed) = Except.ok res
  rw [hres, if_pos hlen]

/-! ### Characterization of the grid statistics scan -/

/-- One cell update of the statistics scan shared by `scoreGrid` and
`trimGrid`. -/
def statStep (g : Grid) (r : Nat) (s : GridStats) (c : Nat) : GridStats :=
  if getCell g r c ≠ none then
    ⟨s.filled + 1, min s.minRow r, max s.maxRow r, min s.minCol c, max s.maxCol c⟩
  else s

/-- One row of the statistics scan. -/
def statRow (g : Grid) (s : GridStats) (r : Nat) : GridStats :=
  (List.range (gridCols g)).foldl (statStep g r) s

theorem gridStats_eq_fold (g : Grid) :
    gridStats g = (List.range (gridRows g)).foldl (statRow g) ⟨0, gridRows g, 0, gridCols g, 0⟩ :=
  rfl

/-- A generic fold lemma: a property established once at a member of the
list and preserved by every later step holds of the final fold state. -/
theorem foldl_establish {α β : Type} {P : α → Prop} (f : α → β → α) (x : β) :
    ∀ (L : List β) (init : α), x ∈ L → (∀ a, P (f a x)) →
      (∀ a b, P a → P (f a b)) → P (L.foldl f init)
  | [], _, hx, _, _ => absurd hx (by simp)
  | y :: L, init, hx, hest, hpres => by
    rw [List.foldl_cons]
    rcases List.mem_cons.mp hx with rfl | hx2
    · exact foldl_induction f L (f init x) (hest init) (fun a b _ hp => hpres a b hp)
    · exact foldl_establish f x L (f init y) hx2 hest hpres

theorem statStep_mono (g : Grid) (r : Nat) (s : GridStats) (c : Nat) :
    (statStep g r s c).minRow ≤ s.minRow ∧ s.maxRow ≤ (statStep g r s c).maxRow ∧
    (statStep g r s c).minCol ≤ s.minCol ∧ s.maxCol ≤ (statStep g r s c).maxCol := by
  unfold statStep
  split_ifs <;> simp <;> omega

theorem statRow_mono (g : Grid) (s : GridStats) (r : Nat) :
    (statRow g s r).minRow ≤ s.minRow ∧ s.maxRow ≤ (statRow g s r).maxRow ∧
    (statRow g s r).minCol ≤ s.minCol ∧ s.maxCol ≤ (statRow g s r).maxCol := by
  rw [statRow]
  generalize List.range (gridCols g) = L
  induction L generalizing s with
  | nil => simp
  | cons c L ih =>
    rw [List.foldl_cons]
    have h1 := statStep_mono g r s c
    have h2 := ih (statStep g r s c)
    exact ⟨le_trans h2.1 h1.1, le_trans h1.2.1 h2.2.1,
      le_trans h2.2.2.1 h1.2.2.1, le_trans h1.2.2.2 h2.2.2.2⟩

/-- Every filled cell lies inside the scanned bounding box. -/
theorem gridStats_bounds (g : Grid) {r c : Nat} (hr : r < gridRows g) (hc : c < gridCols g)
    (hf : getCell g r c ≠ none) :
    (gridStats g).minRow ≤ r ∧ r ≤ (gridStats g).maxRow ∧
    (gridStats g).minCol ≤ c ∧ c ≤ (gridStats g).maxCol := by
  rw [gridStats_eq_fold]
  refine @foldl_establish GridStats Nat
    (fun s => s.minRow ≤ r ∧ r ≤ s.maxRow ∧ s.minCol ≤ c ∧ c ≤ s.maxCol)
    (statRow g) r (List.range (gridRows g)) ⟨0, gridRows g, 0, gridCols g, 0⟩
    (List.mem_range.mpr hr) ?_ ?_
  · intro s
    rw [statRow]
    refine @foldl_establish GridStats Nat
      (fun s => s.minRow ≤ r ∧ r ≤ s.maxRow ∧ s.minCol ≤ c ∧ c ≤ s.maxCol)
      (statStep g r) c (List.range (gridCols g)) s (List.mem_range.mpr hc) ?_ ?_
    · intro a
      unfold statStep
      rw [if_pos hf]
      refine ⟨?_, ?_, ?_, ?_⟩ <;> simp <;> omega
    · intro a b hP
      have := statStep_mono g r a b
      exact ⟨le_trans this.1 hP.1, le_trans hP.2.1 this.2.1,
        le_trans this.2.2.1 hP.2.2.1, le_trans hP.2.2.2 this.2.2.2⟩
  · intro a b hP
    have := statRow_mono g a b
    exact ⟨le_trans this.1 hP.1, le_trans hP.2.1 this.2.1,
      le_trans this.2.2.1 hP.2.2.1, le_trans hP.2.2.2 this.2.2.2⟩

/-- The four extremes of the statistics either still hold their initial
values or point at a genuinely filled row/column. -/
def StatsAchieved (g : Grid) (s : GridStats) : Prop :=
  (s.minRow = gridRows g ∨ ∃ c, getCell g s.minRow c ≠ none) ∧
  (s.maxRow = 0 ∨ ∃ c, getCell g s.maxRow c ≠ none) ∧
  (s.minCol = gridCols g ∨ ∃ r, getCell g r s.minCol ≠ none) ∧
  (s.maxCol = 0 ∨ ∃ r, getCell g r s.maxCol ≠ none)

theorem statStep_achieved (g : Grid) {r c : Nat} (s : GridStats)
    (hs : StatsAchieved g s) : StatsAchieved g (statStep g r s c) := by
  unfold statStep
  by_cases hf : getCell g r c ≠ none
  · rw [if_pos hf]
    obtain ⟨h1, h2, h3, h4⟩ := hs
    refine ⟨?_, ?_, ?_, ?_⟩
    · rcases le_total r s.minRow with h | h
      · right
        exact ⟨c, by rwa [show min s.minRow r = r by omega]⟩
      · rw [show min s.minRow r = s.minRow by omega]
        exact h1
    · rcases le_total s.maxRow r with h | h
      · right
        exact ⟨c, by rwa [show max s.maxRow r = r by omega]⟩
      · rw [show max s.maxRow r = s.maxRow by omega]
        exact h2
    · rcases le_total c s.minCol with h | h
      · right
        exact ⟨r, by rwa [show min s.minCol c = c by omega]⟩
      · rw [show min s.minCol c = s.minCol by omega]
        exact h3
    · rcases le_total s.maxCol c with h | h
      · right
        exact ⟨r, by rwa [show max s.maxCol c = c by omega]⟩
      · rw [show max s.maxCol c = s.maxCol by omega]
        exact h4
  · rw [if_neg hf]
    exact hs

theorem gridStats_achieved (g : Grid) : StatsAchieved g (gridStats g) := by
  rw [gridStats_eq_fold]
  refine @foldl_induction GridStats Nat (StatsAchieved g) (statRow g)
    (List.range (gridRows g)) ⟨0, gridRows g, 0, gridCols g, 0⟩
    ⟨Or.inl rfl, Or.inl rfl, Or.inl rfl, Or.inl rfl⟩ ?_
  intro s r _ hs
  rw [statRow]
  refine @foldl_induction GridStats Nat (StatsAchieved g) (statStep g r)
    (List.range (gridCols g)) s hs ?_
  intro s2 c _ hs2
  exact statStep_achieved g s2 hs2

/-- With at least one filled cell, all four extremes are achieved. -/
theorem gridStats_extremes (g : Grid) {r c : Nat} (hr : r < gridRows g) (hc : c < gridCols g)
    (hf : getCell g r c ≠ none) :
    (∃ c2, getCell g (gridStats g).minRow c2 ≠ none) ∧
    (∃ c2, getCell g (gridStats g).maxRow c2 ≠ none) ∧
    (∃ r2, getCell g r2 (gridStats g).minCol ≠ none) ∧
    (∃ r2, getCell g r2 (gridStats g).maxCol ≠ none) := by
  obtain ⟨hb1, hb2, hb3, hb4⟩ := gridStats_bounds g hr hc hf
  obtain ⟨h1, h2, h3, h4⟩ := gridStats_achieved g
  refine ⟨?_, ?_, ?_, ?_⟩
  · rcases h1 with h1 | h1
    · exfalso
      omega
    · exact h1
  · rcases h2 with h2 | h2
    · exact ⟨c, by rwa [show (gridStats g).maxRow = r by omega]⟩
    · exact h2
  · rcases h3 with h3 | h3
    · exfalso
      omega
    · exact h3
  · rcases h4 with h4 | h4
    · exact ⟨r, by rwa [show (gridStats g).maxCol = c by omega]⟩
    · exact h4

/-! ### The trimmed grid -/

theorem trimGrid_bounds_eq (g : Grid) :
    (trimGrid g).bounds = ⟨(gridStats g).minRow - 1, (gridStats g).minCol - 1,
      min (gridRows g - 1) ((gridStats g).maxRow + 1),
      min (gridCols g - 1) ((gridStats g).maxCol + 1)⟩ := rfl

theorem getCell_mapRange (R C : Nat) (f : Nat → Nat → Cell) (r c : Nat) :
    getCell ((List.range R).map (fun r2 => (List.range C).map (fun c2 => f r2 c2))) r c =
      if r < R ∧ c < C then f r c else none := by
  rw [getCell_eq]
  by_cases hr : r < R
  · rw [List.getElem?_map, List.getElem?_range hr]
    by_cases hc : c < C
    · rw [if_pos ⟨hr, hc⟩]
      simp [List.getElem?_range hc]
    · rw [if_neg (by tauto)]
      have : (List.range C)[c]? = none := by
        rw [List.getElem?_eq_none]
        simpa using Nat.le_of_not_lt hc
      simp [List.getElem?_map, this]
  · rw [if_neg (by tauto)]
    have : (List.range R)[r]? = none := by
      rw [List.getElem?_eq_none]
      simpa using Nat.le_of_not_lt hr
    simp [List.getElem?_map, this]

theorem trimGrid_getCell (g : Grid) (r c : Nat) :
    getCell (trimGrid g).grid r c =
      if r < (trimGrid g).bounds.maxRow - (trimGrid g).bounds.minRow + 1 ∧
          c < (trimGrid g).bounds.maxCol - (trimGrid g).bounds.minCol + 1 then
        getCell g ((trimGrid g).bounds.minRow + r) ((trimGrid g).bounds.minCol + c)
      else none :=
  getCell_mapRange _ _ _ r c

theorem trimGrid_length (g : Grid) :
    (trimGrid g).grid.length =
      (trimGrid g).bounds.maxRow - (trimGrid g).bounds.minRow + 1 := by
  have : (trimGrid g).grid = (List.range ((trimGrid g).bounds.maxRow -
      (trimGrid g).bounds.minRow + 1)).map
      (fun r => (List.range ((trimGrid g).bounds.maxCol -
        (trimGrid g).bounds.minCol + 1)).map
        (fun c => getCell g ((trimGrid g).bounds.minRow + r)
          ((trimGrid g).bounds.minCol + c))) := rfl
  rw [this, List.length_map, List.length_range]

theorem trimGrid_row_length (g : Grid) :
    ∀ row ∈ (trimGrid g).grid, row.length =
      (trimGrid g).bounds.maxCol - (trimGrid g).bounds.minCol + 1 := by
  have heq : (trimGrid g).grid = (List.range ((trimGrid g).bounds.maxRow -
      (trimGrid g).bounds.minRow + 1)).map
      (fun r => (List.range ((trimGrid g).bounds.maxCol -
        (trimGrid g).bounds.minCol + 1)).map
        (fun c => getCell g ((trimGrid g).bounds.minRow + r)
          ((trimGrid g).bounds.minCol + c))) := rfl
  rw [heq]
  intro row hrow
  obtain ⟨r, _, rfl⟩ := List.mem_map.mp hrow
  rw [List.length_map, List.length_range]

/-! ### Renumbering only permutes and renumbers entries -/

theorem assignNumbers_strip : ∀ (es : List Entry) (seen : List (Pos × Nat)) (next : Nat),
    (assignNumbers es seen next).map (fun e => { e with number := 0 }) =
      es.map (fun e => { e with number := 0 })
  | [], _, _ => rfl
  | e :: rest, seen, next => by
    cases hl : lookupPos seen e.position with
    | none => simp [assignNumbers, hl, assignNumbers_strip rest _ _]
    | some n => simp [assignNumbers, hl, assignNumbers_strip rest _ _]

theorem numberEntries_strip_perm (es : List Entry) :
    List.Perm ((numberEntries es).map (fun e => { e with number := 0 }))
      (es.map (fun e => { e with number := 0 })) := by
  rw [numberEntries, assignNumbers_strip]
  exact (List.perm_insertionSort entryPosLE es).map _

/-- Every output entry of the renumbering is an input entry with only its
number replaced. -/
theorem numberEntries_mem {es : List Entry} {x : Entry} (hx : x ∈ numberEntries es) :
    ∃ e ∈ es, x = { e with number := x.number } := by
  have hperm := numberEntries_strip_perm es
  have hmem : ({ x with number := 0 } : Entry) ∈
      (numberEntries es).map (fun e => { e with number := 0 }) :=
    List.mem_map.mpr ⟨x, hx, rfl⟩
  have hmem2 := hperm.mem_iff.mp hmem
  obtain ⟨e, he, heq⟩ := List.mem_map.mp hmem2
  refine ⟨e, he, ?_⟩
  cases x
  cases e
  simp only [Entry.mk.injEq] at heq
  obtain ⟨h1, h2, h3, h4, -⟩ := heq
  simp [h1, h2, h3, h4]

/-- Conversely every input entry reappears, with only its number
replaced. -/
theorem numberEntries_mem_rev {es : List Entry} {e : Entry} (he : e ∈ es) :
    ∃ x ∈ numberEntries es, x = { e with number := x.number } := by
  have hperm := numberEntries_strip_perm es
  have hmem : ({ e with number := 0 } : Entry) ∈ es.map (fun e2 => { e2 with number := 0 }) :=
    List.mem_map.mpr ⟨e, he, rfl⟩
  have hmem2 := hperm.mem_iff.mpr hmem
  obtain ⟨x, hx, heq⟩ := List.mem_map.mp hmem2
  refine ⟨x, hx, ?_⟩
  cases x
  cases e
  simp only [Entry.mk.injEq] at heq
  obtain ⟨h1, h2, h3, h4, -⟩ := heq
  simp [h1, h2, h3, h4]

/-! ### Consequences of a validated placement -/

theorem wf_gridCols {g : Grid} {rows cols : Nat} (hwf : WFGrid g rows cols)
    (hpos : 0 < rows) : gridCols g = cols := by
  rcases g with _ | ⟨row0, grest⟩
  · exfalso
    have := hwf.1
    simp at this
    omega
  · rw [gridCols_eq]
    exact hwf.2 row0 (by simp)

theorem validH_cellOk {g : Grid} {w : List Char} {row col : Nat}
    (hv : ValidPlacement g w ⟨row, col, Dir.across⟩) (j : Nat) (hj : j < w.length) :
    hCellOk g (gridRows g) row (col + j) (w.get ⟨j, hj⟩) :=
  (canPlaceH_true (show (canPlaceWordHorizontally g w row col).canPlace = true from hv)).2.2.2.1 j hj

theorem validV_cellOk {g : Grid} {w : List Char} {row col : Nat}
    (hv : ValidPlacement g w ⟨row, col, Dir.down⟩) (j : Nat) (hj : j < w.length) :
    vCellOk g (gridCols g) (row + j) col (w.get ⟨j, hj⟩) :=
  (canPlaceV_true (show (canPlaceWordVertically g w row col).canPlace = true from hv)).2.2.2.1 j hj

theorem validH_before {g : Grid} {w : List Char} {row col : Nat}
    (hv : ValidPlacement g w ⟨row, col, Dir.across⟩) (hc : 0 < col) :
    getCell g row (col - 1) = none :=
  (canPlaceH_true (show (canPlaceWordHorizontally g w row col).canPlace = true from hv)).2.1 hc

theorem validH_after {g : Grid} {w : List Char} {row col : Nat}
    (hv : ValidPlacement g w ⟨row, col, Dir.across⟩) (hc : col + w.length < gridCols g) :
    getCell g row (col + w.length) = none :=
  (canPlaceH_true (show (canPlaceWordHorizontally g w row col).canPlace = true from hv)).2.2.1 hc

theorem validV_before {g : Grid} {w : List Char} {row col : Nat}
    (hv : ValidPlacement g w ⟨row, col, Dir.down⟩) (hr : 0 < row) :
    getCell g (row - 1) col = none :=
  (canPlaceV_true (show (canPlaceWordVertically g w row col).canPlace = true from hv)).2.1 hr

theorem validV_after {g : Grid} {w : List Char} {row col : Nat}
    (hv : ValidPlacement g w ⟨row, col, Dir.down⟩) (hr : row + w.length < gridRows g) :
    getCell g (row + w.length) col = none :=
  (canPlaceV_true (show (canPlaceWordVertically g w row col).canPlace = true from hv)).2.2.1 hr

theorem validH_cols {g : Grid} {w : List Char} {row col : Nat}
    (hv : ValidPlacement g w ⟨row, col, Dir.across⟩) : col + w.length ≤ gridCols g :=
  (canPlaceH_true (show (canPlaceWordHorizontally g w row col).canPlace = true from hv)).1

theorem validV_rows {g : Grid} {w : List Char} {row col : Nat}
    (hv : ValidPlacement g w ⟨row, col, Dir.down⟩) : row + w.length ≤ gridRows g :=
  (canPlaceV_true (show (canPlaceWordVertically g w row col).canPlace = true from hv)).1

/-- All letter cells of a validated placement lie inside the 30×30 grid. -/
theorem valid_span_inbounds {g : Grid} {w : List Char} {p : Placement}
    (hwf : WFGrid g 30 30) (hv : ValidPlacement g w p) :
    ∀ k, k < w.length → (cellPos p k).row < 30 ∧ (cellPos p k).col < 30 := by
  intro k hk
  have hrows : gridRows g = 30 := by
    rw [gridRows_eq]
    exact hwf.1
  have hcols : gridCols g = 30 := wf_gridCols hwf (by omega)
  have hrc := mem_scanPlacements.mp (valid_mem_scan hwf hv)
  rcases p with ⟨pr, pc, pd⟩
  cases pd
  · refine ⟨?_, ?_⟩
    · have : pr < 30 := hrows ▸ hrc.1
      simpa [cellPos] using this
    · have hb : pc + w.length ≤ 30 := hcols ▸ validH_cols hv
      simp only [cellPos]
      omega
  · refine ⟨?_, ?_⟩
    · have hb : pr + w.length ≤ 30 := hrows ▸ validV_rows hv
      simp only [cellPos]
      omega
    · have : pc < 30 := hcols ▸ hrc.2
      simpa [cellPos] using this

/-- A cell filled after a placement was filled before or lies on the
placed word. -/
theorem placeWord_filled_sub {g : Grid} {w : List Char} {p : Placement} {r c : Nat}
    (h : getCell (placeWordInGrid g w p) r c ≠ none) :
    getCell g r c ≠ none ∨ ∃ k, k < w.length ∧ cellPos p k = ⟨r, c⟩ := by
  by_cases hcov : ∃ k, k < w.length ∧ cellPos p k = ⟨r, c⟩
  · exact Or.inr hcov
  · left
    push_neg at hcov
    rwa [placeWordInGrid_getCell_out g w p r c hcov] at h

/-- Placing a word never empties a cell. -/
theorem placeWord_filled_mono {g : Grid} {w : List Char} {p : Placement} {r c : Nat}
    (hwf : WFGrid g 30 30) (h : getCell g r c ≠ none) :
    getCell (placeWordInGrid g w p) r c ≠ none := by
  by_cases hcov : ∃ k, k < w.length ∧ cellPos p k = ⟨r, c⟩
  · obtain ⟨k, hk, hck⟩ := hcov
    have hr : r < 30 := by
      have h1 := getCell_lt_rows h
      have h2 := hwf.1
      omega
    have hc : c < 30 := getCell_lt_cols hwf h
    have hin := placeWordInGrid_getCell_in hwf w p k hk
      (by rw [hck]; exact hr) (by rw [hck]; exact hc)
    have h2 : getCell (placeWordInGrid g w p) r c = some (w.get ⟨k, hk⟩) := by
      rw [hck] at hin
      exact hin
    rw [h2]
    simp
  · push_neg at hcov
    rwa [placeWordInGrid_getCell_out g w p r c hcov]

/-- A validated placement never changes an already-filled cell: at a true
intersection it rewrites the same letter. -/
theorem placeWord_preserves_some {g : Grid} {w : List Char} {p : Placement}
    (hwf : WFGrid g 30 30) (hv : ValidPlacement g w p) {r c : Nat} {ch : Char}
    (h : getCell g r c = some ch) :
    getCell (placeWordInGrid g w p) r c = some ch := by
  by_cases hcov : ∃ k, k < w.length ∧ cellPos p k = ⟨r, c⟩
  · obtain ⟨k, hk, hck⟩ := hcov
    have hget : w.get ⟨k, hk⟩ = ch := by
      rcases p with ⟨pr, pc, pd⟩
      cases pd
      · simp only [cellPos, Pos.mk.injEq] at hck
        obtain ⟨rfl, rfl⟩ := hck
        rcases validH_cellOk hv k hk with h1 | ⟨h1, -, -⟩
        · rw [h] at h1
          exact (Option.some.inj h1).symm
        · rw [h] at h1
          cases h1
      · simp only [cellPos, Pos.mk.injEq] at hck
        obtain ⟨rfl, rfl⟩ := hck
        rcases validV_cellOk hv k hk with h1 | ⟨h1, -, -⟩
        · rw [h] at h1
          exact (Option.some.inj h1).symm
        · rw [h] at h1
          cases h1
    have hr : r < 30 := by
      have h1 := getCell_lt_rows (by rw [h]; simp : getCell g r c ≠ none)
      have h2 := hwf.1
      omega
    have hc : c < 30 := getCell_lt_cols hwf (by rw [h]; simp)
    have hin := placeWordInGrid_getCell_in hwf w p k hk
      (by rw [hck]; exact hr) (by rw [hck]; exact hc)
    rw [hck, hget] at hin
    exact hin
  · push_neg at hcov
    rwa [placeWordInGrid_getCell_out g w p r c hcov]

/-! ### Distinctness of placed answers -/

theorem foldPlace_distinct (rem : List WordData) (init : SearchState)
    (h0 : (∀ e ∈ init.entries, e.answer ∈ init.used) ∧
      init.entries.Pairwise (fun a b => a.answer ≠ b.answer)) :
    (∀ e ∈ (rem.foldl tryPlaceWord init).entries,
      e.answer ∈ (rem.foldl tryPlaceWord init).used) ∧
    (rem.foldl tryPlaceWord init).entries.Pairwise (fun a b => a.answer ≠ b.answer) := by
  refine @foldl_induction SearchState WordData
    (fun st => (∀ e ∈ st.entries, e.answer ∈ st.used) ∧
      st.entries.Pairwise (fun a b => a.answer ≠ b.answer))
    tryPlaceWord rem init h0 ?_
  rintro st wd _ ⟨hmem, hpw⟩
  rcases tryPlaceWord_cases st wd with heq | ⟨p, _, _, hu, heq⟩
  · rw [heq]
    exact ⟨hmem, hpw⟩
  · rw [heq]
    constructor
    · intro e he
      simp only [List.mem_append, List.mem_singleton] at he
      rcases he with he | rfl
      · exact List.mem_append_left _ (hmem e he)
      · simp
    · rw [List.pairwise_append]
      refine ⟨hpw, List.pairwise_singleton _ _, ?_⟩
      intro a ha b hb
      simp only [List.mem_singleton] at hb
      subst hb
      intro hcontra
      have : a.answer = wd.word := hcontra
      exact hu (this ▸ hmem a ha)

theorem adjust_answers_pairwise {entries : List Entry} {t : TrimResult}
    (h : entries.Pairwise (fun a b => a.answer ≠ b.answer)) :
    (adjustEntryPositions entries t).Pairwise (fun a b => a.answer ≠ b.answer) := by
  unfold adjustEntryPositions
  exact h.map _ (fun a b hab => hab)

theorem assignNumbers_answers : ∀ (es : List Entry) (seen : List (Pos × Nat)) (next : Nat),
    (assignNumbers es seen next).map (fun e => e.answer) = es.map (fun e => e.answer)
  | [], _, _ => rfl
  | e :: rest, seen, next => by
    cases hl : lookupPos seen e.position with
    | none => simp [assignNumbers, hl, assignNumbers_answers rest _ _]
    | some n => simp [assignNumbers, hl, assignNumbers_answers rest _ _]

theorem numberEntries_pairwise_ne {entries : List Entry}
    (h : entries.Pairwise (fun a b => a.answer ≠ b.answer)) :
    (numberEntries entries).Pairwise (fun a b => a.answer ≠ b.answer) := by
  have hperm : List.Perm (entries.insertionSort entryPosLE) entries :=
    List.perm_insertionSort _ _
  have hsorted : (entries.insertionSort entryPosLE).Pairwise
      (fun a b => a.answer ≠ b.answer) :=
    (hperm.pairwise_iff (fun hab => Ne.symm hab)).mpr h
  have h1 : ((entries.insertionSort entryPosLE).map (fun e => e.answer)).Pairwise
      (fun a b => a ≠ b) := List.pairwise_map.mpr hsorted
  have h2 : (((numberEntries entries).map (fun e => e.answer)).Pairwise
      (fun a b => a ≠ b)) := by
    rw [numberEntries, assignNumbers_answers]
    exact h1
  exact List.pairwise_map.mp h2

/-- C10: in any successful result the recorded answers are pairwise
distinct: duplicates in the input are skipped through the `usedWords`
set, so at most one entry per distinct cleaned word is returned. -/
theorem c10_distinct_answers (qs : List Question) (rnd : Nat → Nat) (res : CrosswordResult)
    (h : buildCrossword qs rnd = .ok res) :
    res.entries.Pairwise (fun a b => a.answer ≠ b.answer) := by
  obtain ⟨-, -, k, c, st, -, hrt, -, hres⟩ := buildOk_elim h
  obtain ⟨fw, rest, rem, pos, dir, -, -, -, -, hst⟩ := runAttempt_some_elim hrt
  have hinv := foldPlace_distinct rem
    ⟨placeWordInGrid (emptyGrid 30 30) fw.word ⟨pos.row, pos.col, dir⟩,
      [⟨fw.word, fw.question, pos, dir, 1⟩], [fw.word], 2⟩
    ⟨by intro e he; simp at he; subst he; simp, List.pairwise_singleton _ _⟩
  rw [hres]
  simp only [processAttempt]
  exact numberEntries_pairwise_ne (adjust_answers_pairwise (by rw [hst]; exact hinv.2))

/-! ### Round-trip of entries through placement, trim and renumbering -/

theorem readsBack_renumber {g : Grid} {e : Entry} (m : Nat) (h : ReadsBack g e) :
    ReadsBack g { e with number := m } := h

/-- Placement preserves the round-trip property of existing entries and
establishes it for the new one. -/
theorem foldPlace_readsBack (rem : List WordData) (init : SearchState)
    (hwf : WFGrid init.grid 30 30)
    (h0 : ∀ e ∈ init.entries, ReadsBack init.grid e) :
    WFGrid (rem.foldl tryPlaceWord init).grid 30 30 ∧
    ∀ e ∈ (rem.foldl tryPlaceWord init).entries,
      ReadsBack (rem.foldl tryPlaceWord init).grid e := by
  refine @foldl_induction SearchState WordData
    (fun st => WFGrid st.grid 30 30 ∧ ∀ e ∈ st.entries, ReadsBack st.grid e)
    tryPlaceWord rem init ⟨hwf, h0⟩ ?_
  rintro st wd _ ⟨hwfs, hrb⟩
  rcases tryPlaceWord_cases st wd with heq | ⟨p, _, hv, _, heq⟩
  · rw [heq]
    exact ⟨hwfs, hrb⟩
  · rw [heq]
    refine ⟨wf_placeWordInGrid hwfs _ _, ?_⟩
    intro e he
    simp only [List.mem_append, List.mem_singleton] at he
    rcases he with he | rfl
    · intro i
      exact placeWord_preserves_some hwfs hv (hrb e he i)
    · intro i
      have hin := valid_span_inbounds hwfs hv i.1 i.2
      exact placeWordInGrid_getCell_in hwfs wd.word p i.1 i.2 hin.1 hin.2

/-- Round-trip survives the trim: shifted entries read back from the
trimmed grid. -/
theorem readsBack_trim {g : Grid} {e : Entry} (hwf : WFGrid g 30 30)
    (hrb : ReadsBack g e) (hlen : 0 < e.answer.length) :
    ReadsBack (trimGrid g).grid
      { e with position := ⟨e.position.row - (trimGrid g).bounds.minRow,
          e.position.col - (trimGrid g).bounds.minCol⟩ } := by
  have hrows : gridRows g = 30 := by
    rw [gridRows_eq]
    exact hwf.1
  have hcols : gridCols g = 30 := wf_gridCols hwf (by omega)
  have hglen : g.length = 30 := hwf.1
  have hfill : ∀ i : Fin e.answer.length,
      getCell g (cellPos (entryPlacement e) i.1).row (cellPos (entryPlacement e) i.1).col ≠
        none := by
    intro i
    rw [hrb i]
    simp
  have hbounds : ∀ i : Fin e.answer.length,
      (gridStats g).minRow ≤ (cellPos (entryPlacement e) i.1).row ∧
      (cellPos (entryPlacement e) i.1).row ≤ (gridStats g).maxRow ∧
      (gridStats g).minCol ≤ (cellPos (entryPlacement e) i.1).col ∧
      (cellPos (entryPlacement e) i.1).col ≤ (gridStats g).maxCol := by
    intro i
    have hr : (cellPos (entryPlacement e) i.1).row < gridRows g := by
      have h1 := getCell_lt_rows (hfill i)
      omega
    have hc : (cellPos (entryPlacement e) i.1).col < gridCols g := by
      have h1 := getCell_lt_cols hwf (hfill i)
      omega
    exact gridStats_bounds g hr hc (hfill i)
  have hmaxr : (gridStats g).maxRow < 30 := by
    have h0 := hbounds ⟨0, hlen⟩
    obtain ⟨-, hex, -, -⟩ := gridStats_extremes g
      (by rw [hrows]; have := getCell_lt_rows (hfill ⟨0, hlen⟩); omega)
      (by rw [hcols]; exact getCell_lt_cols hwf (hfill ⟨0, hlen⟩)) (hfill ⟨0, hlen⟩)
    obtain ⟨c2, hc2⟩ := hex
    have := getCell_lt_rows hc2
    have h30 := hwf.1
    omega
  have hmaxc : (gridStats g).maxCol < 30 := by
    obtain ⟨-, -, -, hex⟩ := gridStats_extremes g
      (by rw [hrows]; have := getCell_lt_rows (hfill ⟨0, hlen⟩); omega)
      (by rw [hcols]; exact getCell_lt_cols hwf (hfill ⟨0, hlen⟩)) (hfill ⟨0, hlen⟩)
    obtain ⟨r2, hr2⟩ := hex
    exact getCell_lt_cols hwf hr2
  have hbm1 : (trimGrid g).bounds.minRow = (gridStats g).minRow - 1 := by
    rw [trimGrid_bounds_eq]
  have hbm2 : (trimGrid g).bounds.minCol = (gridStats g).minCol - 1 := by
    rw [trimGrid_bounds_eq]
  have hbM1 : (trimGrid g).bounds.maxRow = min (30 - 1) ((gridStats g).maxRow + 1) := by
    rw [trimGrid_bounds_eq, hrows]
  have hbM2 : (trimGrid g).bounds.maxCol = min (30 - 1) ((gridStats g).maxCol + 1) := by
    rw [trimGrid_bounds_eq, hcols]
  rcases e with ⟨ans, clue, ⟨er, ec⟩, ed, num⟩
  have hpos0 : (gridStats g).minRow ≤ er ∧ (gridStats g).minCol ≤ ec := by
    have h0 := hbounds ⟨0, hlen⟩
    cases ed <;> simpa [cellPos, entryPlacement] using ⟨h0.1, h0.2.2.1⟩
  intro i
  have hb := hbounds i
  have hcell := hrb i
  cases ed
  · simp only [cellPos, entryPlacement] at hcell hb ⊢
    rw [trimGrid_getCell]
    rw [if_pos (by constructor <;> omega)]
    rw [show (trimGrid g).bounds.minRow + (er - (trimGrid g).bounds.minRow) = er by omega]
    rw [show (trimGrid g).bounds.minCol + (ec - (trimGrid g).bounds.minCol + i.1) =
      ec + i.1 by omega]
    exact hcell
  · simp only [cellPos, entryPlacement] at hcell hb ⊢
    rw [trimGrid_getCell]
    rw [if_pos (by constructor <;> omega)]
    rw [show (trimGrid g).bounds.minRow + (er - (trimGrid g).bounds.minRow + i.1) =
      er + i.1 by omega]
    rw [show (trimGrid g).bounds.minCol + (ec - (trimGrid g).bounds.minCol) = ec by omega]
    exact hcell

theorem processAttempt_readsBack {g : Grid} {entries : List Entry}
    (hwf : WFGrid g 30 30)
    (hrb : ∀ e ∈ entries, ReadsBack g e)
    (hlen : ∀ e ∈ entries, 0 < e.answer.length) :
    ∀ x ∈ (processAttempt g entries).entries,
      ReadsBack (processAttempt g entries).grid x := by
  intro x hx
  simp only [processAttempt] at hx ⊢
  obtain ⟨e2, he2, hxe⟩ := numberEntries_mem hx
  rw [adjustEntryPositions] at he2
  obtain ⟨e, he, hee⟩ := List.mem_map.mp he2
  rw [hxe]
  refine readsBack_renumber _ ?_
  rw [← hee]
  exact readsBack_trim hwf (hrb e he) (hlen e he)

theorem foldPlace_answer_len (rem : List WordData) (init : SearchState)
    (hr : ∀ wd ∈ rem, 0 < wd.word.length)
    (h0 : ∀ e ∈ init.entries, 0 < e.answer.length) :
    ∀ e ∈ (rem.foldl tryPlaceWord init).entries, 0 < e.answer.length := by
  refine @foldl_induction SearchState WordData
    (fun st => ∀ e ∈ st.entries, 0 < e.answer.length) tryPlaceWord rem init h0 ?_
  intro st wd hwd hPs
  rcases tryPlaceWord_cases st wd with heq | ⟨p, _, _, _, heq⟩
  · rw [heq]
    exact hPs
  · rw [heq]
    intro e he
    simp only [List.mem_append, List.mem_singleton] at he
    rcases he with he | rfl
    · exact hPs e he
    · exact hr wd hwd

/-- C1 (amended): the round-trip of entries through the returned grid
holds whenever every preprocessed word has at most 15 letters (so that
every seed write stays inside the scratch grid; the unchecked seed write
makes the unrestricted claim false).  Reading `answer.length` cells from
`position` along `direction` then reproduces `answer` exactly, for every
entry of a successful result. -/
theorem c1_round_trip (qs : List Question) (rnd : Nat → Nat) (res : CrosswordResult)
    (hshort : ∀ wd ∈ preprocess qs, wd.word.length ≤ 15)
    (h : buildCrossword qs rnd = .ok res) :
    ∀ e ∈ res.entries, ReadsBack res.grid e := by
  obtain ⟨-, -, k, c, st, -, hrt, -, hres⟩ := buildOk_elim h
  obtain ⟨fw, rest, rem, pos, dir, hws, hpos, hdown, hsub, hst⟩ := runAttempt_some_elim hrt
  have hfw : fw ∈ preprocess qs := by
    rw [hws]
    simp
  have hfwshort : fw.word.length ≤ 15 := hshort fw hfw
  have hwfseed : WFGrid (placeWordInGrid (emptyGrid 30 30) fw.word
      ⟨pos.row, pos.col, dir⟩) 30 30 :=
    wf_placeWordInGrid (wf_emptyGrid 30 30) _ _
  have hseedin : ∀ j, j < fw.word.length →
      (cellPos ⟨pos.row, pos.col, dir⟩ j).row < 30 ∧
      (cellPos ⟨pos.row, pos.col, dir⟩ j).col < 30 := by
    intro j hj
    rcases hpos with rfl | rfl | rfl <;> cases dir <;>
      constructor <;> simp [cellPos] <;> omega
  have hfold := foldPlace_readsBack rem
    ⟨placeWordInGrid (emptyGrid 30 30) fw.word ⟨pos.row, pos.col, dir⟩,
      [⟨fw.word, fw.question, pos, dir, 1⟩], [fw.word], 2⟩ hwfseed (by
      intro e he
      simp only [List.mem_singleton] at he
      subst he
      intro i
      exact placeWordInGrid_getCell_in (wf_emptyGrid 30 30) fw.word
        ⟨pos.row, pos.col, dir⟩ i.1 i.2 (hseedin i.1 i.2).1 (hseedin i.1 i.2).2)
  have hlens := foldPlace_answer_len rem
    ⟨placeWordInGrid (emptyGrid 30 30) fw.word ⟨pos.row, pos.col, dir⟩,
      [⟨fw.word, fw.question, pos, dir, 1⟩], [fw.word], 2⟩ (by
      intro wd hwd
      have hmem : wd ∈ preprocess qs := by
        rw [hws]
        exact List.mem_cons_of_mem _ (hsub wd hwd)
      have := preprocess_mem_len hmem
      omega) (by
      intro e he
      simp only [List.mem_singleton] at he
      subst he
      have := preprocess_mem_len hfw
      simpa using by omega)
  rw [hres]
  refine processAttempt_readsBack ?_ ?_ ?_
  · rw [hst]
    exact hfold.1
  · rw [hst]
    exact hfold.2
  · rw [hst]
    exact hlens

/-! ### Filled rows and columns form an interval -/

/-- Row `r` holds at least one filled cell. -/
def FilledRow (g : Grid) (r : Nat) : Prop := ∃ c, getCell g r c ≠ none

/-- Column `c` holds at least one filled cell. -/
def FilledCol (g : Grid) (c : Nat) : Prop := ∃ r, getCell g r c ≠ none

/-- Between two filled rows every row is filled. -/
def RowsConnected (g : Grid) : Prop :=
  ∀ r1 r2 r, FilledRow g r1 → FilledRow g r2 → r1 ≤ r → r ≤ r2 → FilledRow g r

/-- Between two filled columns every column is filled. -/
def ColsConnected (g : Grid) : Prop :=
  ∀ c1 c2 c, FilledCol g c1 → FilledCol g c2 → c1 ≤ c → c ≤ c2 → FilledCol g c

/-- Abstract gluing step: a betweenness-closed set of indices, extended by
an interval `[a, b]` of fully covered indices that either is glued to the
old set at some index or extends an empty set, stays betweenness-closed. -/
theorem connected_glue {F F2 : Nat → Prop} {a b : Nat}
    (hFc : ∀ x1 x2 x, F x1 → F x2 → x1 ≤ x → x ≤ x2 → F x)
    (hmono : ∀ x, F x → F2 x)
    (hdec : ∀ x, F2 x → F x ∨ (a ≤ x ∧ x ≤ b))
    (hspan : ∀ x, a ≤ x → x ≤ b → F2 x)
    (hglue : (∀ x, ¬ F x) ∨ ∃ xg, F xg ∧ a ≤ xg ∧ xg ≤ b) :
    ∀ x1 x2 x, F2 x1 → F2 x2 → x1 ≤ x → x ≤ x2 → F2 x := by
  intro x1 x2 x h1 h2 hle1 hle2
  rcases hdec x1 h1 with hf1 | hs1
  · rcases hdec x2 h2 with hf2 | hs2
    · exact hmono x (hFc x1 x2 x hf1 hf2 hle1 hle2)
    · rcases hglue with hempty | ⟨xg, hgF, hga, hgb⟩
      · exact absurd hf1 (hempty x1)
      · by_cases hax : a ≤ x
        · exact hspan x hax (by omega)
        · exact hmono x (hFc x1 xg x hf1 hgF hle1 (by omega))
  · rcases hdec x2 h2 with hf2 | hs2
    · rcases hglue with hempty | ⟨xg, hgF, hga, hgb⟩
      · exact absurd hf2 (hempty x2)
      · by_cases hxb : x ≤ b
        · exact hspan x (by omega) hxb
        · exact hmono x (hFc xg x2 x hgF hf2 (by omega) hle2)
    · exact hspan x (by omega) (by omega)

theorem filledRow_mono {g : Grid} {w : List Char} {p : Placement}
    (hwf : WFGrid g 30 30) {r : Nat} (h : FilledRow g r) :
    FilledRow (placeWordInGrid g w p) r := by
  obtain ⟨c, hc⟩ := h
  exact ⟨c, placeWord_filled_mono hwf hc⟩

theorem filledCol_mono {g : Grid} {w : List Char} {p : Placement}
    (hwf : WFGrid g 30 30) {c : Nat} (h : FilledCol g c) :
    FilledCol (placeWordInGrid g w p) c := by
  obtain ⟨r, hr⟩ := h
  exact ⟨r, placeWord_filled_mono hwf hr⟩

/-- A validated placement keeps the filled rows and columns of the grid
interval-shaped: its span is glued to the old grid at an intersection. -/
theorem connected_place {g : Grid} {w : List Char} {p : Placement}
    (hwf : WFGrid g 30 30) (hv : ValidPlacement g w p) (hw : 0 < w.length)
    (hR : RowsConnected g) (hC : ColsConnected g) :
    RowsConnected (placeWordInGrid g w p) ∧ ColsConnected (placeWordInGrid g w p) := by
  have hin := valid_span_inbounds hwf hv
  obtain ⟨j0, hj0, hcell0⟩ := interCount_pos_exists (evalPlacement_true hv).2
  rcases p with ⟨pr, pc, pd⟩
  cases pd
  · simp only [cellPos] at hcell0
    constructor
    · refine @connected_glue (FilledRow g) (FilledRow (placeWordInGrid g w ⟨pr, pc, .across⟩))
        pr pr hR (fun r h => filledRow_mono hwf h) ?_ ?_ ?_
      · rintro r ⟨c, hc⟩
        rcases placeWord_filled_sub hc with hold | ⟨k, hk, hck⟩
        · exact Or.inl ⟨c, hold⟩
        · simp only [cellPos, Pos.mk.injEq] at hck
          omega
      · intro r hra hrb
        have hr : r = pr := by omega
        rw [hr]
        have hfl := placeWordInGrid_getCell_in hwf w ⟨pr, pc, .across⟩ 0 hw
          (by simpa [cellPos] using (hin 0 hw).1) (by simpa [cellPos] using (hin 0 hw).2)
        simp only [cellPos] at hfl
        exact ⟨pc + 0, by rw [hfl]; simp⟩
      · exact Or.inr ⟨pr, ⟨pc + j0, by rw [hcell0]; simp⟩, le_refl pr, le_refl pr⟩
    · refine @connected_glue (FilledCol g) (FilledCol (placeWordInGrid g w ⟨pr, pc, .across⟩))
        pc (pc + w.length - 1) hC (fun c h => filledCol_mono hwf h) ?_ ?_ ?_
      · rintro c ⟨r, hc⟩
        rcases placeWord_filled_sub hc with hold | ⟨k, hk, hck⟩
        · exact Or.inl ⟨r, hold⟩
        · simp only [cellPos, Pos.mk.injEq] at hck
          omega
      · intro c hca hcb
        have hfl := placeWordInGrid_getCell_in hwf w ⟨pr, pc, .across⟩ (c - pc)
          (by omega) (by simpa [cellPos] using (hin (c - pc) (by omega)).1)
          (by simpa [cellPos] using (hin (c - pc) (by omega)).2)
        simp only [cellPos] at hfl
        rw [show pc + (c - pc) = c by omega] at hfl
        exact ⟨pr, by rw [hfl]; simp⟩
      · exact Or.inr ⟨pc + j0, ⟨pr, by rw [hcell0]; simp⟩, by omega, by omega⟩
  · simp only [cellPos] at hcell0
    constructor
    · refine @connected_glue (FilledRow g) (FilledRow (placeWordInGrid g w ⟨pr, pc, .down⟩))
        pr (pr + w.length - 1) hR (fun r h => filledRow_mono hwf h) ?_ ?_ ?_
      · rintro r ⟨c, hc⟩
        rcases placeWord_filled_sub hc with hold | ⟨k, hk, hck⟩
        · exact Or.inl ⟨c, hold⟩
        · simp only [cellPos, Pos.mk.injEq] at hck
          omega
      · intro r hra hrb
        have hfl := placeWordInGrid_getCell_in hwf w ⟨pr, pc, .down⟩ (r - pr)
          (by omega) (by simpa [cellPos] using (hin (r - pr) (by omega)).1)
          (by simpa [cellPos] using (hin (r - pr) (by omega)).2)
        simp only [cellPos] at hfl
        rw [show pr + (r - pr) = r by omega] at hfl
        exact ⟨pc, by rw [hfl]; simp⟩
      · exact Or.inr ⟨pr + j0, ⟨pc, by rw [hcell0]; simp⟩, by omega, by omega⟩
    · refine @connected_glue (FilledCol g) (FilledCol (placeWordInGrid g w ⟨pr, pc, .down⟩))
        pc pc hC (fun c h => filledCol_mono hwf h) ?_ ?_ ?_
      · rintro c ⟨r, hc⟩
        rcases placeWord_filled_sub hc with hold | ⟨k, hk, hck⟩
        · exact Or.inl ⟨r, hold⟩
        · simp only [cellPos, Pos.mk.injEq] at hck
          omega
      · intro c hca hcb
        have hc : c = pc := by omega
        rw [hc]
        have hfl := placeWordInGrid_getCell_in hwf w ⟨pr, pc, .down⟩ 0 hw
          (by simpa [cellPos] using (hin 0 hw).1) (by simpa [cellPos] using (hin 0 hw).2)
        simp only [cellPos] at hfl
        exact ⟨pr + 0, by rw [hfl]; simp⟩
      · exact Or.inr ⟨pc, ⟨pr + j0, by rw [hcell0]; simp⟩, le_refl pc, le_refl pc⟩

theorem emptyGrid_not_filledRow (r : Nat) : ¬ FilledRow (emptyGrid 30 30) r := by
  rintro ⟨c, hc⟩
  exact hc (getCell_emptyGrid 30 30 r c)

theorem emptyGrid_not_filledCol (c : Nat) : ¬ FilledCol (emptyGrid 30 30) c := by
  rintro ⟨r, hr⟩
  exact hr (getCell_emptyGrid 30 30 r c)

/-- The seed write also leaves the filled rows and columns
interval-shaped, even when an over-long across seed is truncated at the
grid edge. -/
theorem connected_seed {fw : List Char} {pos : Pos} {dir : Dir}
    (hpos : pos = (⟨10, 10⟩ : Pos) ∨ pos = ⟨5, 5⟩ ∨ pos = ⟨5, 15⟩)
    (hdown : dir = Dir.down → pos.row + fw.length ≤ 30) (hw : 0 < fw.length) :
    RowsConnected (placeWordInGrid (emptyGrid 30 30) fw ⟨pos.row, pos.col, dir⟩) ∧
    ColsConnected (placeWordInGrid (emptyGrid 30 30) fw ⟨pos.row, pos.col, dir⟩) := by
  have hwf := wf_emptyGrid 30 30
  have hg2 := wf_placeWordInGrid hwf fw (⟨pos.row, pos.col, dir⟩ : Placement)
  have hrow30 : pos.row < 30 := by rcases hpos with rfl | rfl | rfl <;> simp
  have hcol30 : pos.col < 30 := by rcases hpos with rfl | rfl | rfl <;> simp
  have hRempty : RowsConnected (emptyGrid 30 30) := by
    intro r1 r2 r h1
    exact absurd h1 (emptyGrid_not_filledRow r1)
  have hCempty : ColsConnected (emptyGrid 30 30) := by
    intro c1 c2 c h1
    exact absurd h1 (emptyGrid_not_filledCol c1)
  cases dir
  · constructor
    · refine @connected_glue (FilledRow (emptyGrid 30 30))
        (FilledRow (placeWordInGrid (emptyGrid 30 30) fw ⟨pos.row, pos.col, .across⟩))
        pos.row pos.row hRempty (fun r h => filledRow_mono hwf h) ?_ ?_ ?_
      · rintro r ⟨c, hc⟩
        rcases placeWord_filled_sub hc with hold | ⟨k, hk, hck⟩
        · exact Or.inl ⟨c, hold⟩
        · simp only [cellPos, Pos.mk.injEq] at hck
          omega
      · intro r hra hrb
        have hr : r = pos.row := by omega
        subst hr
        have hfl := placeWordInGrid_getCell_in hwf fw ⟨pos.row, pos.col, .across⟩ 0 hw
          (by simpa [cellPos] using hrow30) (by simpa [cellPos] using hcol30)
        simp only [cellPos] at hfl
        exact ⟨pos.col + 0, by rw [hfl]; simp⟩
      · exact Or.inl emptyGrid_not_filledRow
    · refine @connected_glue (FilledCol (emptyGrid 30 30))
        (FilledCol (placeWordInGrid (emptyGrid 30 30) fw ⟨pos.row, pos.col, .across⟩))
        pos.col (min (pos.col + fw.length - 1) 29) hCempty
        (fun c h => filledCol_mono hwf h) ?_ ?_ ?_
      · rintro c ⟨r, hc⟩
        have hc30 : c < 30 := getCell_lt_cols hg2 hc
        rcases placeWord_filled_sub hc with hold | ⟨k, hk, hck⟩
        · exact Or.inl ⟨r, hold⟩
        · simp only [cellPos, Pos.mk.injEq] at hck
          omega
      · intro c hca hcb
        have hfl := placeWordInGrid_getCell_in hwf fw ⟨pos.row, pos.col, .across⟩ (c - pos.col)
          (by omega) (by simpa [cellPos] using hrow30)
          (by simp only [cellPos]; omega)
        simp only [cellPos] at hfl
        rw [show pos.col + (c - pos.col) = c by omega] at hfl
        exact ⟨pos.row, by rw [hfl]; simp⟩
      · exact Or.inl emptyGrid_not_filledCol
  · have hd : pos.row + fw.length ≤ 30 := hdown rfl
    constructor
    · refine @connected_glue (FilledRow (emptyGrid 30 30))
        (FilledRow (placeWordInGrid (emptyGrid 30 30) fw ⟨pos.row, pos.col, .down⟩))
        pos.row (pos.row + fw.length - 1) hRempty (fun r h => filledRow_mono hwf h) ?_ ?_ ?_
      · rintro r ⟨c, hc⟩
        rcases placeWord_filled_sub hc with hold | ⟨k, hk, hck⟩
        · exact Or.inl ⟨c, hold⟩
        · simp only [cellPos, Pos.mk.injEq] at hck
          omega
      · intro r hra hrb
        have hfl := placeWordInGrid_getCell_in hwf fw ⟨pos.row, pos.col, .down⟩ (r - pos.row)
          (by omega) (by simp only [cellPos]; omega)
          (by simpa [cellPos] using hcol30)
        simp only [cellPos] at hfl
        rw [show pos.row + (r - pos.row) = r by omega] at hfl
        exact ⟨pos.col, by rw [hfl]; simp⟩
      · exact Or.inl emptyGrid_not_filledRow
    · refine @connected_glue (FilledCol (emptyGrid 30 30))
        (FilledCol (placeWordInGrid (emptyGrid 30 30) fw ⟨pos.row, pos.col, .down⟩))
        pos.col pos.col hCempty (fun c h => filledCol_mono hwf h) ?_ ?_ ?_
      · rintro c ⟨r, hc⟩
        rcases placeWord_filled_sub hc with hold | ⟨k, hk, hck⟩
        · exact Or.inl ⟨r, hold⟩
        · simp only [cellPos, Pos.mk.injEq] at hck
          omega
      · intro c hca hcb
        have hc : c = pos.col := by omega
        subst hc
        have hfl := placeWordInGrid_getCell_in hwf fw ⟨pos.row, pos.col, .down⟩ 0 hw
          (by simp only [cellPos]; omega) (by simpa [cellPos] using hcol30)
        simp only [cellPos] at hfl
        exact ⟨pos.row + 0, by rw [hfl]; simp⟩
      · exact Or.inl emptyGrid_not_filledCol

theorem foldPlace_connected (rem : List WordData) (init : SearchState)
    (hwf : WFGrid init.grid 30 30) (hlen : ∀ wd ∈ rem, 0 < wd.word.length)
    (hR : RowsConnected init.grid) (hC : ColsConnected init.grid) :
    WFGrid (rem.foldl tryPlaceWord init).grid 30 30 ∧
    RowsConnected (rem.foldl tryPlaceWord init).grid ∧
    ColsConnected (rem.foldl tryPlaceWord init).grid := by
  refine @foldl_induction SearchState WordData
    (fun st => WFGrid st.grid 30 30 ∧ RowsConnected st.grid ∧ ColsConnected st.grid)
    tryPlaceWord rem init ⟨hwf, hR, hC⟩ ?_
  rintro st wd hwd ⟨hwfs, hRs, hCs⟩
  rcases tryPlaceWord_cases st wd with heq | ⟨p, _, hv, _, heq⟩
  · rw [heq]
    exact ⟨hwfs, hRs, hCs⟩
  · rw [heq]
    have hconn := connected_place hwfs hv (hlen wd hwd) hRs hCs
    exact ⟨wf_placeWordInGrid hwfs _ _, hconn.1, hconn.2⟩

theorem foldPlace_filled_mono (rem : List WordData) (init : SearchState)
    (hwf : WFGrid init.grid 30 30) {r c : Nat} (h0 : getCell init.grid r c ≠ none) :
    getCell (rem.foldl tryPlaceWord init).grid r c ≠ none := by
  have := @foldl_induction SearchState WordData
    (fun st => WFGrid st.grid 30 30 ∧ getCell st.grid r c ≠ none)
    tryPlaceWord rem init ⟨hwf, h0⟩ ?_
  · exact this.2
  · rintro st wd _ ⟨hwfs, hf⟩
    rcases tryPlaceWord_cases st wd with heq | ⟨p, _, _, _, heq⟩
    · rw [heq]
      exact ⟨hwfs, hf⟩
    · rw [heq]
      exact ⟨wf_placeWordInGrid hwfs _ _, placeWord_filled_mono hwfs hf⟩

/-- C8: the returned grid of a successful build is the cut-out of the
winning scratch grid at the bounding box of its filled cells expanded by
one cell of clamped padding; every entry is shifted by exactly the box
offsets (up to renumbering and reordering); and since the filled rows and
columns of the scratch grid form intervals, any fully empty row or column
of the returned grid can only be the single padding row/column at each
edge. -/
theorem c8_trimming (qs : List Question) (rnd : Nat → Nat) (res : CrosswordResult)
    (h : buildCrossword qs rnd = .ok res) :
    ∃ (st : SearchState) (s : GridStats), s = gridStats st.grid ∧
      res = processAttempt st.grid st.entries ∧
      (∀ r c, getCell st.grid r c ≠ none →
        s.minRow ≤ r ∧ r ≤ s.maxRow ∧ s.minCol ≤ c ∧ c ≤ s.maxCol) ∧
      (∃ c, getCell st.grid s.minRow c ≠ none) ∧
      (∃ c, getCell st.grid s.maxRow c ≠ none) ∧
      (∃ r, getCell st.grid r s.minCol ≠ none) ∧
      (∃ r, getCell st.grid r s.maxCol ≠ none) ∧
      (trimGrid st.grid).bounds = ⟨s.minRow - 1, s.minCol - 1,
        min (30 - 1) (s.maxRow + 1), min (30 - 1) (s.maxCol + 1)⟩ ∧
      res.grid.length =
        (trimGrid st.grid).bounds.maxRow - (trimGrid st.grid).bounds.minRow + 1 ∧
      (∀ row ∈ res.grid, row.length =
        (trimGrid st.grid).bounds.maxCol - (trimGrid st.grid).bounds.minCol + 1) ∧
      (∀ r c, getCell res.grid r c =
        if r < (trimGrid st.grid).bounds.maxRow - (trimGrid st.grid).bounds.minRow + 1 ∧
            c < (trimGrid st.grid).bounds.maxCol - (trimGrid st.grid).bounds.minCol + 1 then
          getCell st.grid ((trimGrid st.grid).bounds.minRow + r)
            ((trimGrid st.grid).bounds.minCol + c)
        else none) ∧
      List.Perm (res.entries.map (fun e => { e with number := 0 }))
        (st.entries.map (fun e =>
          ({ e with position := ⟨e.position.row - (trimGrid st.grid).bounds.minRow,
              e.position.col - (trimGrid st.grid).bounds.minCol⟩, number := 0 } : Entry))) ∧
      (∀ r, r < res.grid.length →
        (∃ c2, getCell res.grid r c2 ≠ none) ∨ r = 0 ∨ r = res.grid.length - 1) ∧
      (∀ c, c < (trimGrid st.grid).bounds.maxCol - (trimGrid st.grid).bounds.minCol + 1 →
        (∃ r2, getCell res.grid r2 c ≠ none) ∨ c = 0 ∨
          c = (trimGrid st.grid).bounds.maxCol - (trimGrid st.grid).bounds.minCol + 1 - 1) := by
  obtain ⟨-, -, k, c, st, -, hrt, -, hres⟩ := buildOk_elim h
  obtain ⟨fw, rest, rem, pos, dir, hws, hpos, hdown, hsub, hst⟩ := runAttempt_some_elim hrt
  have hfw : fw ∈ preprocess qs := by
    rw [hws]
    simp
  have hfwlen : 3 ≤ fw.word.length := preprocess_mem_len hfw
  have hrow30 : pos.row < 30 := by rcases hpos with rfl | rfl | rfl <;> simp
  have hcol30 : pos.col < 30 := by rcases hpos with rfl | rfl | rfl <;> simp
  have hwfseed : WFGrid (placeWordInGrid (emptyGrid 30 30) fw.word
      ⟨pos.row, pos.col, dir⟩) 30 30 :=
    wf_placeWordInGrid (wf_emptyGrid 30 30) _ _
  have hseedconn := connected_seed hpos hdown (by omega)
  have hseedfill : getCell (placeWordInGrid (emptyGrid 30 30) fw.word
      ⟨pos.row, pos.col, dir⟩) pos.row pos.col ≠ none := by
    cases dir
    · have hfl := placeWordInGrid_getCell_in (wf_emptyGrid 30 30) fw.word
        ⟨pos.row, pos.col, .across⟩ 0 (by omega)
        (by simpa [cellPos] using hrow30) (by simpa [cellPos] using hcol30)
      simp only [cellPos] at hfl
      rw [show pos.col + 0 = pos.col from rfl] at hfl
      rw [hfl]
      simp
    · have hfl := placeWordInGrid_getCell_in (wf_emptyGrid 30 30) fw.word
        ⟨pos.row, pos.col, .down⟩ 0 (by omega)
        (by simpa [cellPos] using hrow30) (by simpa [cellPos] using hcol30)
      simp only [cellPos] at hfl
      rw [show pos.row + 0 = pos.row from rfl] at hfl
      rw [hfl]
      simp
  have hlenrem : ∀ wd ∈ rem, 0 < wd.word.length := by
    intro wd hwd
    have hmem : wd ∈ preprocess qs := by
      rw [hws]
      exact List.mem_cons_of_mem _ (hsub wd hwd)
    have := preprocess_mem_len hmem
    omega
  have hfold := foldPlace_connected rem
    ⟨placeWordInGrid (emptyGrid 30 30) fw.word ⟨pos.row, pos.col, dir⟩,
      [⟨fw.word, fw.question, pos, dir, 1⟩], [fw.word], 2⟩
    hwfseed hlenrem hseedconn.1 hseedconn.2
  have hfillf := foldPlace_filled_mono rem
    ⟨placeWordInGrid (emptyGrid 30 30) fw.word ⟨pos.row, pos.col, dir⟩,
      [⟨fw.word, fw.question, pos, dir, 1⟩], [fw.word], 2⟩
    hwfseed hseedfill
  have hwfst : WFGrid st.grid 30 30 := by
    rw [hst]
    exact hfold.1
  have hRst : RowsConnected st.grid := by
    rw [hst]
    exact hfold.2.1
  have hCst : ColsConnected st.grid := by
    rw [hst]
    exact hfold.2.2
  have hfillst : getCell st.grid pos.row pos.col ≠ none := by
    rw [hst]
    exact hfillf
  have hrows : gridRows st.grid = 30 := by
    rw [gridRows_eq]
    exact hwfst.1
  have hcols : gridCols st.grid = 30 := wf_gridCols hwfst (by omega)
  have hglen : st.grid.length = 30 := hwfst.1
  have hbox : ∀ r c2, getCell st.grid r c2 ≠ none →
      (gridStats st.grid).minRow ≤ r ∧ r ≤ (gridStats st.grid).maxRow ∧
      (gridStats st.grid).minCol ≤ c2 ∧ c2 ≤ (gridStats st.grid).maxCol := by
    intro r c2 hf
    exact gridStats_bounds st.grid (by have := getCell_lt_rows hf; omega)
      (by rw [hcols]; exact getCell_lt_cols hwfst hf) hf
  have hext := gridStats_extremes st.grid
    (by have := getCell_lt_rows hfillst; omega)
    (by rw [hcols]; exact getCell_lt_cols hwfst hfillst) hfillst
  have hmaxr30 : (gridStats st.grid).maxRow < 30 := by
    obtain ⟨c2, hc2⟩ := hext.2.1
    have := getCell_lt_rows hc2
    omega
  have hmaxc30 : (gridStats st.grid).maxCol < 30 := by
    obtain ⟨r2, hr2⟩ := hext.2.2.2
    exact getCell_lt_cols hwfst hr2
  have hbm1 : (trimGrid st.grid).bounds.minRow = (gridStats st.grid).minRow - 1 := by
    rw [trimGrid_bounds_eq]
  have hbm2 : (trimGrid st.grid).bounds.minCol = (gridStats st.grid).minCol - 1 := by
    rw [trimGrid_bounds_eq]
  have hbM1 : (trimGrid st.grid).bounds.maxRow =
      min (30 - 1) ((gridStats st.grid).maxRow + 1) := by
    rw [trimGrid_bounds_eq, hrows]
  have hbM2 : (trimGrid st.grid).bounds.maxCol =
      min (30 - 1) ((gridStats st.grid).maxCol + 1) := by
    rw [trimGrid_bounds_eq, hcols]
  refine ⟨st, gridStats st.grid, rfl, hres, hbox, hext.1, hext.2.1, hext.2.2.1,
    hext.2.2.2, ?_, ?_, ?_, ?_, ?_, ?_, ?_⟩
  · rw [trimGrid_bounds_eq, hrows, hcols]
  · rw [hres]
    simp only [processAttempt]
    exact trimGrid_length st.grid
  · rw [hres]
    simp only [processAttempt]
    exact trimGrid_row_length st.grid
  · rw [hres]
    simp only [processAttempt]
    intro r c2
    exact trimGrid_getCell st.grid r c2
  · rw [hres]
    simp only [processAttempt]
    refine (numberEntries_strip_perm _).trans ?_
    rw [adjustEntryPositions, List.map_map]
    exact List.Perm.refl _
  · rw [hres]
    simp only [processAttempt]
    rw [trimGrid_length]
    intro r hr
    by_cases hedge : r = 0 ∨
        r = (trimGrid st.grid).bounds.maxRow - (trimGrid st.grid).bounds.minRow + 1 - 1
    · exact Or.inr hedge
    · left
      push_neg at hedge
      have hfr : FilledRow st.grid ((trimGrid st.grid).bounds.minRow + r) := by
        obtain ⟨cmin, hcmin⟩ := hext.1
        obtain ⟨cmax, hcmax⟩ := hext.2.1
        exact hRst (gridStats st.grid).minRow (gridStats st.grid).maxRow _
          ⟨cmin, hcmin⟩ ⟨cmax, hcmax⟩ (by omega) (by omega)
      obtain ⟨c2, hc2⟩ := hfr
      have hb2 := hbox _ _ hc2
      refine ⟨c2 - (trimGrid st.grid).bounds.minCol, ?_⟩
      rw [trimGrid_getCell]
      rw [if_pos (by constructor <;> omega)]
      rw [show (trimGrid st.grid).bounds.minCol +
        (c2 - (trimGrid st.grid).bounds.minCol) = c2 by omega]
      exact hc2
  · rw [hres]
    simp only [processAttempt]
    intro c2 hc2lt
    by_cases hedge : c2 = 0 ∨
        c2 = (trimGrid st.grid).bounds.maxCol - (trimGrid st.grid).bounds.minCol + 1 - 1
    · exact Or.inr hedge
    · left
      push_neg at hedge
      have hfc : FilledCol st.grid ((trimGrid st.grid).bounds.minCol + c2) := by
        obtain ⟨rmin, hrmin⟩ := hext.2.2.1
        obtain ⟨rmax, hrmax⟩ := hext.2.2.2
        exact hCst (gridStats st.grid).minCol (gridStats st.grid).maxCol _
          ⟨rmin, hrmin⟩ ⟨rmax, hrmax⟩ (by omega) (by omega)
      obtain ⟨r2, hr2⟩ := hfc
      have hb2 := hbox _ _ hr2
      refine ⟨r2 - (trimGrid st.grid).bounds.minRow, ?_⟩
      rw [trimGrid_getCell]
      rw [if_pos (by constructor <;> omega)]
      rw [show (trimGrid st.grid).bounds.minRow +
        (r2 - (trimGrid st.grid).bounds.minRow) = r2 by omega]
      exact hr2

/-! ### No accidental words: adjacency is always witnessed by an entry -/

/-- Cell `(r, c)` lies on the span of entry `e` (positionally, by index
into its answer). -/
def SpanCell (e : Entry) (r c : Nat) : Prop :=
  ∃ k, k < e.answer.length ∧ cellPos (entryPlacement e) k = ⟨r, c⟩

/-- Every horizontally adjacent pair of filled cells lies on the span of
a common across entry. -/
def HPairCovered (g : Grid) (entries : List Entry) : Prop :=
  ∀ r c, getCell g r c ≠ none → getCell g r (c + 1) ≠ none →
    ∃ e ∈ entries, e.direction = Dir.across ∧ SpanCell e r c ∧ SpanCell e r (c + 1)

/-- Every vertically adjacent pair of filled cells lies on the span of a
common down entry. -/
def VPairCovered (g : Grid) (entries : List Entry) : Prop :=
  ∀ r c, getCell g r c ≠ none → getCell g (r + 1) c ≠ none →
    ∃ e ∈ entries, e.direction = Dir.down ∧ SpanCell e r c ∧ SpanCell e (r + 1) c

/-- Every filled cell lies on the span of some entry. -/
def CellCovered (g : Grid) (entries : List Entry) : Prop :=
  ∀ r c, getCell g r c ≠ none → ∃ e ∈ entries, SpanCell e r c

/-- A validated across placement preserves pair coverage: its own span
covers new horizontal pairs, the prefix/suffix checks exclude horizontal
contact with older words, and the perpendicular-emptiness checks exclude
new vertical contact. -/
theorem covered_place_across {g : Grid} {w : List Char} {pr pc : Nat} {es : List Entry}
    (q : String) (n : Nat)
    (hwf : WFGrid g 30 30) (hv : ValidPlacement g w ⟨pr, pc, Dir.across⟩)
    (hH : HPairCovered g es) (hV : VPairCovered g es) (hC : CellCovered g es) :
    HPairCovered (placeWordInGrid g w ⟨pr, pc, .across⟩)
      (es ++ [⟨w, q, ⟨pr, pc⟩, Dir.across, n⟩]) ∧
    VPairCovered (placeWordInGrid g w ⟨pr, pc, .across⟩)
      (es ++ [⟨w, q, ⟨pr, pc⟩, Dir.across, n⟩]) ∧
    CellCovered (placeWordInGrid g w ⟨pr, pc, .across⟩)
      (es ++ [⟨w, q, ⟨pr, pc⟩, Dir.across, n⟩]) := by
  have hrows : gridRows g = 30 := by
    rw [gridRows_eq]
    exact hwf.1
  have hcols : gridCols g = 30 := wf_gridCols hwf (by omega)
  have hglen : g.length = 30 := hwf.1
  have hspan : ∀ r c, SpanCell (⟨w, q, ⟨pr, pc⟩, Dir.across, n⟩ : Entry) r c ↔
      ∃ k, k < w.length ∧ pr = r ∧ pc + k = c := by
    intro r c
    constructor
    · rintro ⟨k, hk, hck⟩
      simp only [entryPlacement, cellPos, Pos.mk.injEq] at hck
      exact ⟨k, hk, hck.1, hck.2⟩
    · rintro ⟨k, hk, h1, h2⟩
      exact ⟨k, hk, by simp only [entryPlacement, cellPos, Pos.mk.injEq]; omega⟩
  refine ⟨?_, ?_, ?_⟩
  · intro r c hc1 hc2
    rcases placeWord_filled_sub hc1 with ho1 | ⟨k1, hk1, hck1⟩
    · rcases placeWord_filled_sub hc2 with ho2 | ⟨k2, hk2, hck2⟩
      · obtain ⟨e, he, hd, hs1, hs2⟩ := hH r c ho1 ho2
        exact ⟨e, List.mem_append_left _ he, hd, hs1, hs2⟩
      · simp only [cellPos, Pos.mk.injEq] at hck2
        by_cases hk2z : k2 = 0
        · exfalso
          have hpre := validH_before hv (by omega)
          rw [show pc - 1 = c by omega, show pr = r by omega] at hpre
          exact ho1 hpre
        · refine ⟨⟨w, q, ⟨pr, pc⟩, Dir.across, n⟩,
            List.mem_append_right _ (by simp), rfl, ?_, ?_⟩
          · exact (hspan r c).mpr ⟨k2 - 1, by omega, by omega, by omega⟩
          · exact (hspan r (c + 1)).mpr ⟨k2, hk2, by omega, by omega⟩
    · simp only [cellPos, Pos.mk.injEq] at hck1
      rcases placeWord_filled_sub hc2 with ho2 | ⟨k2, hk2, hck2⟩
      · by_cases hk1e : k1 + 1 < w.length
        · refine ⟨⟨w, q, ⟨pr, pc⟩, Dir.across, n⟩,
            List.mem_append_right _ (by simp), rfl, ?_, ?_⟩
          · exact (hspan r c).mpr ⟨k1, hk1, by omega, by omega⟩
          · exact (hspan r (c + 1)).mpr ⟨k1 + 1, hk1e, by omega, by omega⟩
        · exfalso
          have hc30 : c + 1 < 30 := getCell_lt_cols hwf ho2
          have hsuf := validH_after hv (by rw [hcols]; omega)
          rw [show pc + w.length = c + 1 by omega, show pr = r by omega] at hsuf
          exact ho2 hsuf
      · simp only [cellPos, Pos.mk.injEq] at hck2
        refine ⟨⟨w, q, ⟨pr, pc⟩, Dir.across, n⟩,
          List.mem_append_right _ (by simp), rfl, ?_, ?_⟩
        · exact (hspan r c).mpr ⟨k1, hk1, by omega, by omega⟩
        · exact (hspan r (c + 1)).mpr ⟨k2, hk2, by omega, by omega⟩
  · intro r c hc1 hc2
    rcases placeWord_filled_sub hc1 with ho1 | ⟨k1, hk1, hck1⟩
    · rcases placeWord_filled_sub hc2 with ho2 | ⟨k2, hk2, hck2⟩
      · obtain ⟨e, he, hd, hs1, hs2⟩ := hV r c ho1 ho2
        exact ⟨e, List.mem_append_left _ he, hd, hs1, hs2⟩
      · simp only [cellPos, Pos.mk.injEq] at hck2
        by_cases hold2 : getCell g (r + 1) c ≠ none
        · obtain ⟨e, he, hd, hs1, hs2⟩ := hV r c ho1 hold2
          exact ⟨e, List.mem_append_left _ he, hd, hs1, hs2⟩
        · exfalso
          push_neg at hold2
          rcases validH_cellOk hv k2 hk2 with hsome | ⟨hnone, hab, hbe⟩
          · rw [show pr = r + 1 by omega, show pc + k2 = c by omega] at hsome
            rw [hold2] at hsome
            cases hsome
          · have habove := hab (by omega)
            rw [show pr - 1 = r by omega, show pc + k2 = c by omega] at habove
            exact ho1 habove
    · simp only [cellPos, Pos.mk.injEq] at hck1
      rcases placeWord_filled_sub hc2 with ho2 | ⟨k2, hk2, hck2⟩
      · by_cases hold1 : getCell g r c ≠ none
        · obtain ⟨e, he, hd, hs1, hs2⟩ := hV r c hold1 ho2
          exact ⟨e, List.mem_append_left _ he, hd, hs1, hs2⟩
        · exfalso
          push_neg at hold1
          rcases validH_cellOk hv k1 hk1 with hsome | ⟨hnone, hab, hbe⟩
          · rw [show pr = r by omega, show pc + k1 = c by omega] at hsome
            rw [hold1] at hsome
            cases hsome
          · have hr30 : r + 1 < 30 := by
              have := getCell_lt_rows ho2
              omega
            have hbelow := hbe (by rw [hrows]; omega)
            rw [show pr + 1 = r + 1 by omega, show pc + k1 = c by omega] at hbelow
            exact ho2 hbelow
      · exfalso
        simp only [cellPos, Pos.mk.injEq] at hck2
        omega
  · intro r c hc
    rcases placeWord_filled_sub hc with hold | ⟨k, hk, hck⟩
    · obtain ⟨e, he, hs⟩ := hC r c hold
      exact ⟨e, List.mem_append_left _ he, hs⟩
    · simp only [cellPos, Pos.mk.injEq] at hck
      exact ⟨⟨w, q, ⟨pr, pc⟩, Dir.across, n⟩, List.mem_append_right _ (by simp),
        (hspan r c).mpr ⟨k, hk, hck.1, hck.2⟩⟩

/-- Mirror image of `covered_place_across` for down placements. -/
theorem covered_place_down {g : Grid} {w : List Char} {pr pc : Nat} {es : List Entry}
    (q : String) (n : Nat)
    (hwf : WFGrid g 30 30) (hv : ValidPlacement g w ⟨pr, pc, Dir.down⟩)
    (hH : HPairCovered g es) (hV : VPairCovered g es) (hC : CellCovered g es) :
    HPairCovered (placeWordInGrid g w ⟨pr, pc, .down⟩)
      (es ++ [⟨w, q, ⟨pr, pc⟩, Dir.down, n⟩]) ∧
    VPairCovered (placeWordInGrid g w ⟨pr, pc, .down⟩)
      (es ++ [⟨w, q, ⟨pr, pc⟩, Dir.down, n⟩]) ∧
    CellCovered (placeWordInGrid g w ⟨pr, pc, .down⟩)
      (es ++ [⟨w, q, ⟨pr, pc⟩, Dir.down, n⟩]) := by
  have hrows : gridRows g = 30 := by
    rw [gridRows_eq]
    exact hwf.1
  have hcols : gridCols g = 30 := wf_gridCols hwf (by omega)
  have hglen : g.length = 30 := hwf.1
  have hspan : ∀ r c, SpanCell (⟨w, q, ⟨pr, pc⟩, Dir.down, n⟩ : Entry) r c ↔
      ∃ k, k < w.length ∧ pr + k = r ∧ pc = c := by
    intro r c
    constructor
    · rintro ⟨k, hk, hck⟩
      simp only [entryPlacement, cellPos, Pos.mk.injEq] at hck
      exact ⟨k, hk, hck.1, hck.2⟩
    · rintro ⟨k, hk, h1, h2⟩
      exact ⟨k, hk, by simp only [entryPlacement, cellPos, Pos.mk.injEq]; omega⟩
  refine ⟨?_, ?_, ?_⟩
  · intro r c hc1 hc2
    rcases placeWord_filled_sub hc1 with ho1 | ⟨k1, hk1, hck1⟩
    · rcases placeWord_filled_sub hc2 with ho2 | ⟨k2, hk2, hck2⟩
      · obtain ⟨e, he, hd, hs1, hs2⟩ := hH r c ho1 ho2
        exact ⟨e, List.mem_append_left _ he, hd, hs1, hs2⟩
      · simp only [cellPos, Pos.mk.injEq] at hck2
        by_cases hold2 : getCell g r (c + 1) ≠ none
        · obtain ⟨e, he, hd, hs1, hs2⟩ := hH r c ho1 hold2
          exact ⟨e, List.mem_append_left _ he, hd, hs1, hs2⟩
        · exfalso
          push_neg at hold2
          rcases validV_cellOk hv k2 hk2 with hsome | ⟨hnone, hle, hri⟩
          · rw [show pr + k2 = r by omega, show pc = c + 1 by omega] at hsome
            rw [hold2] at hsome
            cases hsome
          · have hleft := hle (by omega)
            rw [show pr + k2 = r by omega, show pc - 1 = c by omega] at hleft
            exact ho1 hleft
    · simp only [cellPos, Pos.mk.injEq] at hck1
      rcases placeWord_filled_sub hc2 with ho2 | ⟨k2, hk2, hck2⟩
      · by_cases hold1 : getCell g r c ≠ none
        · obtain ⟨e, he, hd, hs1, hs2⟩ := hH r c hold1 ho2
          exact ⟨e, List.mem_append_left _ he, hd, hs1, hs2⟩
        · exfalso
          push_neg at hold1
          rcases validV_cellOk hv k1 hk1 with hsome | ⟨hnone, hle, hri⟩
          · rw [show pr + k1 = r by omega, show pc = c by omega] at hsome
            rw [hold1] at hsome
            cases hsome
          · have hc30 : c + 1 < 30 := getCell_lt_cols hwf ho2
            have hright := hri (by rw [hcols]; omega)
            rw [show pr + k1 = r by omega, show pc + 1 = c + 1 by omega] at hright
            exact ho2 hright
      · exfalso
        simp only [cellPos, Pos.mk.injEq] at hck2
        omega
  · intro r c hc1 hc2
    rcases placeWord_filled_sub hc1 with ho1 | ⟨k1, hk1, hck1⟩
    · rcases placeWord_filled_sub hc2 with ho2 | ⟨k2, hk2, hck2⟩
      · obtain ⟨e, he, hd, hs1, hs2⟩ := hV r c ho1 ho2
        exact ⟨e, List.mem_append_left _ he, hd, hs1, hs2⟩
      · simp only [cellPos, Pos.mk.injEq] at hck2
        by_cases hk2z : k2 = 0
        · exfalso
          have hpre := validV_before hv (by omega)
          rw [show pr - 1 = r by omega, show pc = c by omega] at hpre
          exact ho1 hpre
        · refine ⟨⟨w, q, ⟨pr, pc⟩, Dir.down, n⟩,
            List.mem_append_right _ (by simp), rfl, ?_, ?_⟩
          · exact (hspan r c).mpr ⟨k2 - 1, by omega, by omega, by omega⟩
          · exact (hspan (r + 1) c).mpr ⟨k2, hk2, by omega, by omega⟩
    · simp only [cellPos, Pos.mk.injEq] at hck1
      rcases placeWord_filled_sub hc2 with ho2 | ⟨k2, hk2, hck2⟩
      · by_cases hk1e : k1 + 1 < w.length
        · refine ⟨⟨w, q, ⟨pr, pc⟩, Dir.down, n⟩,
            List.mem_append_right _ (by simp), rfl, ?_, ?_⟩
          · exact (hspan r c).mpr ⟨k1, hk1, by omega, by omega⟩
          · exact (hspan (r + 1) c).mpr ⟨k1 + 1, hk1e, by omega, by omega⟩
        · exfalso
          have hr30 : r + 1 < 30 := by
            have := getCell_lt_rows ho2
            omega
          have hsuf := validV_after hv (by rw [hrows]; omega)
          rw [show pr + w.length = r + 1 by omega, show pc = c by omega] at hsuf
          exact ho2 hsuf
      · simp only [cellPos, Pos.mk.injEq] at hck2
        refine ⟨⟨w, q, ⟨pr, pc⟩, Dir.down, n⟩,
          List.mem_append_right _ (by simp), rfl, ?_, ?_⟩
        · exact (hspan r c).mpr ⟨k1, hk1, by omega, by omega⟩
        · exact (hspan (r + 1) c).mpr ⟨k2, hk2, by omega, by omega⟩
  · intro r c hc
    rcases placeWord_filled_sub hc with hold | ⟨k, hk, hck⟩
    · obtain ⟨e, he, hs⟩ := hC r c hold
      exact ⟨e, List.mem_append_left _ he, hs⟩
    · simp only [cellPos, Pos.mk.injEq] at hck
      exact ⟨⟨w, q, ⟨pr, pc⟩, Dir.down, n⟩, List.mem_append_right _ (by simp),
        (hspan r c).mpr ⟨k, hk, hck.1, hck.2⟩⟩

theorem seed_first_filled {fw : List Char} {pos : Pos} {dir : Dir}
    (hrow30 : pos.row < 30) (hcol30 : pos.col < 30) (hw : 0 < fw.length) :
    getCell (placeWordInGrid (emptyGrid 30 30) fw ⟨pos.row, pos.col, dir⟩)
      pos.row pos.col ≠ none := by
  cases dir
  · have hfl := placeWordInGrid_getCell_in (wf_emptyGrid 30 30) fw
      ⟨pos.row, pos.col, .across⟩ 0 hw
      (by simpa [cellPos] using hrow30) (by simpa [cellPos] using hcol30)
    simp only [cellPos] at hfl
    rw [show pos.col + 0 = pos.col from rfl] at hfl
    rw [hfl]
    simp
  · have hfl := placeWordInGrid_getCell_in (wf_emptyGrid 30 30) fw
      ⟨pos.row, pos.col, .down⟩ 0 hw
      (by simpa [cellPos] using hrow30) (by simpa [cellPos] using hcol30)
    simp only [cellPos] at hfl
    rw [show pos.row + 0 = pos.row from rfl] at hfl
    rw [hfl]
    simp

/-- The seed word placed on the empty grid covers exactly its own span:
every adjacent pair of filled cells lies on the seed entry. -/
theorem covered_seed (w : List Char) (q2 : String) (pos : Pos) (dir : Dir) :
    HPairCovered (placeWordInGrid (emptyGrid 30 30) w ⟨pos.row, pos.col, dir⟩)
      [⟨w, q2, pos, dir, 1⟩] ∧
    VPairCovered (placeWordInGrid (emptyGrid 30 30) w ⟨pos.row, pos.col, dir⟩)
      [⟨w, q2, pos, dir, 1⟩] ∧
    CellCovered (placeWordInGrid (emptyGrid 30 30) w ⟨pos.row, pos.col, dir⟩)
      [⟨w, q2, pos, dir, 1⟩] := by
  have hempty : ∀ r c, getCell (emptyGrid 30 30) r c = none :=
    fun r c => getCell_emptyGrid 30 30 r c
  have hspan : ∀ r c, (∃ k, k < w.length ∧ cellPos ⟨pos.row, pos.col, dir⟩ k = ⟨r, c⟩) →
      SpanCell ⟨w, q2, pos, dir, 1⟩ r c := by
    rintro r c ⟨k, hk, hck⟩
    exact ⟨k, hk, hck⟩
  refine ⟨?_, ?_, ?_⟩
  · intro r c hc1 hc2
    rcases placeWord_filled_sub hc1 with ho1 | ⟨k1, hk1, hck1⟩
    · exact absurd (hempty r c) ho1
    · rcases placeWord_filled_sub hc2 with ho2 | ⟨k2, hk2, hck2⟩
      · exact absurd (hempty r (c + 1)) ho2
      · cases dir
        · exact ⟨⟨w, q2, pos, .across, 1⟩, by simp, rfl,
            hspan r c ⟨k1, hk1, hck1⟩, hspan r (c + 1) ⟨k2, hk2, hck2⟩⟩
        · exfalso
          simp only [cellPos, Pos.mk.injEq] at hck1 hck2
          omega
  · intro r c hc1 hc2
    rcases placeWord_filled_sub hc1 with ho1 | ⟨k1, hk1, hck1⟩
    · exact absurd (hempty r c) ho1
    · rcases placeWord_filled_sub hc2 with ho2 | ⟨k2, hk2, hck2⟩
      · exact absurd (hempty (r + 1) c) ho2
      · cases dir
        · exfalso
          simp only [cellPos, Pos.mk.injEq] at hck1 hck2
          omega
        · exact ⟨⟨w, q2, pos, .down, 1⟩, by simp, rfl,
            hspan r c ⟨k1, hk1, hck1⟩, hspan (r + 1) c ⟨k2, hk2, hck2⟩⟩
  · intro r c hc
    rcases placeWord_filled_sub hc with hold | ⟨k, hk, hck⟩
    · exact absurd (hempty r c) hold
    · exact ⟨⟨w, q2, pos, dir, 1⟩, by simp, hspan r c ⟨k, hk, hck⟩⟩

theorem foldPlace_covered (rem : List WordData) (init : SearchState)
    (hwf : WFGrid init.grid 30 30)
    (hH : HPairCovered init.grid init.entries) (hV : VPairCovered init.grid init.entries)
    (hC : CellCovered init.grid init.entries) :
    WFGrid (rem.foldl tryPlaceWord init).grid 30 30 ∧
    HPairCovered (rem.foldl tryPlaceWord init).grid (rem.foldl tryPlaceWord init).entries ∧
    VPairCovered (rem.foldl tryPlaceWord init).grid (rem.foldl tryPlaceWord init).entries ∧
    CellCovered (rem.foldl tryPlaceWord init).grid (rem.foldl tryPlaceWord init).entries := by
  refine @foldl_induction SearchState WordData
    (fun st => WFGrid st.grid 30 30 ∧ HPairCovered st.grid st.entries ∧
      VPairCovered st.grid st.entries ∧ CellCovered st.grid st.entries)
    tryPlaceWord rem init ⟨hwf, hH, hV, hC⟩ ?_
  rintro st wd _ ⟨hwfs, hHs, hVs, hCs⟩
  rcases tryPlaceWord_cases st wd with heq | ⟨p, _, hv, _, heq⟩
  · rw [heq]
    exact ⟨hwfs, hHs, hVs, hCs⟩
  · rw [heq]
    rcases p with ⟨pr, pc, pd⟩
    cases pd
    · have hcp := covered_place_across wd.question st.nextNumber hwfs hv hHs hVs hCs
      exact ⟨wf_placeWordInGrid hwfs _ _, hcp.1, hcp.2.1, hcp.2.2⟩
    · have hcp := covered_place_down wd.question st.nextNumber hwfs hv hHs hVs hCs
      exact ⟨wf_placeWordInGrid hwfs _ _, hcp.1, hcp.2.1, hcp.2.2⟩

theorem foldPlace_firstCell (rem : List WordData) (init : SearchState)
    (hwf : WFGrid init.grid 30 30) (hlen : ∀ wd ∈ rem, 0 < wd.word.length)
    (h0 : ∀ e ∈ init.entries, getCell init.grid e.position.row e.position.col ≠ none) :
    ∀ e ∈ (rem.foldl tryPlaceWord init).entries,
      getCell (rem.foldl tryPlaceWord init).grid e.position.row e.position.col ≠ none := by
  have big := @foldl_induction SearchState WordData
    (fun st => WFGrid st.grid 30 30 ∧
      ∀ e ∈ st.entries, getCell st.grid e.position.row e.position.col ≠ none)
    tryPlaceWord rem init ⟨hwf, h0⟩ ?_
  · exact big.2
  · rintro st wd hwd ⟨hwfs, hfc⟩
    rcases tryPlaceWord_cases st wd with heq | ⟨p, _, hv, _, heq⟩
    · rw [heq]
      exact ⟨hwfs, hfc⟩
    · rw [heq]
      refine ⟨wf_placeWordInGrid hwfs _ _, ?_⟩
      intro e he
      simp only [List.mem_append, List.mem_singleton] at he
      rcases he with he | rfl
      · exact placeWord_filled_mono hwfs (hfc e he)
      · have hin := valid_span_inbounds hwfs hv 0 (hlen wd hwd)
        have hfl := placeWordInGrid_getCell_in hwfs wd.word p 0 (hlen wd hwd) hin.1 hin.2
        rcases p with ⟨pr, pc, pd⟩
        cases pd
        · simp only [cellPos] at hfl
          have h2 : getCell (placeWordInGrid st.grid wd.word ⟨pr, pc, .across⟩)
              pr (pc + 0) ≠ none := by
            rw [hfl]
            simp
          exact h2
        · simp only [cellPos] at hfl
          have h2 : getCell (placeWordInGrid st.grid wd.word ⟨pr, pc, .down⟩)
              (pr + 0) pc ≠ none := by
            rw [hfl]
            simp
          exact h2

/-- Pair coverage is preserved by the trim: adjacency and span membership
translate along the uniform shift. -/
theorem covered_trim {g : Grid} {entries : List Entry} (hwf : WFGrid g 30 30)
    (hH : HPairCovered g entries) (hV : VPairCovered g entries) (hC : CellCovered g entries)
    (hFCF : ∀ e ∈ entries, getCell g e.position.row e.position.col ≠ none) :
    HPairCovered (trimGrid g).grid (adjustEntryPositions entries (trimGrid g)) ∧
    VPairCovered (trimGrid g).grid (adjustEntryPositions entries (trimGrid g)) ∧
    CellCovered (trimGrid g).grid (adjustEntryPositions entries (trimGrid g)) := by
  have hrows : gridRows g = 30 := by
    rw [gridRows_eq]
    exact hwf.1
  have hcols : gridCols g = 30 := wf_gridCols hwf (by omega)
  have hglen : g.length = 30 := hwf.1
  have hbm1 : (trimGrid g).bounds.minRow = (gridStats g).minRow - 1 := by
    rw [trimGrid_bounds_eq]
  have hbm2 : (trimGrid g).bounds.minCol = (gridStats g).minCol - 1 := by
    rw [trimGrid_bounds_eq]
  have hcellof : ∀ r c, getCell (trimGrid g).grid r c ≠ none →
      getCell g ((trimGrid g).bounds.minRow + r) ((trimGrid g).bounds.minCol + c) ≠ none := by
    intro r c hc
    rw [trimGrid_getCell] at hc
    by_cases hcond : r < (trimGrid g).bounds.maxRow - (trimGrid g).bounds.minRow + 1 ∧
        c < (trimGrid g).bounds.maxCol - (trimGrid g).bounds.minCol + 1
    · rwa [if_pos hcond] at hc
    · rw [if_neg hcond] at hc
      exact absurd rfl hc
  have hshift : ∀ e ∈ entries, ∀ r c,
      SpanCell e ((trimGrid g).bounds.minRow + r) ((trimGrid g).bounds.minCol + c) →
      SpanCell { e with position := ⟨e.position.row - (trimGrid g).bounds.minRow,
        e.position.col - (trimGrid g).bounds.minCol⟩ } r c := by
    rintro ⟨ans, clue, ⟨er, ec⟩, ed, num⟩ he r c ⟨k, hk, hck⟩
    have hfc : getCell g er ec ≠ none := hFCF _ he
    have hbox0 := gridStats_bounds g (by have := getCell_lt_rows hfc; omega)
      (by rw [hcols]; exact getCell_lt_cols hwf hfc) hfc
    cases ed
    · refine ⟨k, hk, ?_⟩
      simp only [entryPlacement, cellPos, Pos.mk.injEq] at hck ⊢
      omega
    · refine ⟨k, hk, ?_⟩
      simp only [entryPlacement, cellPos, Pos.mk.injEq] at hck ⊢
      omega
  refine ⟨?_, ?_, ?_⟩
  · intro r c hc1 hc2
    have hs1 := hcellof r c hc1
    have hs2 := hcellof r (c + 1) hc2
    rw [show (trimGrid g).bounds.minCol + (c + 1) =
      ((trimGrid g).bounds.minCol + c) + 1 by omega] at hs2
    obtain ⟨e, he, hd, hsp1, hsp2⟩ := hH _ _ hs1 hs2
    refine ⟨{ e with position := ⟨e.position.row - (trimGrid g).bounds.minRow,
        e.position.col - (trimGrid g).bounds.minCol⟩ }, ?_, hd, hshift e he r c hsp1, ?_⟩
    · rw [adjustEntryPositions]
      exact List.mem_map.mpr ⟨e, he, rfl⟩
    · refine hshift e he r (c + 1) ?_
      rw [show (trimGrid g).bounds.minCol + (c + 1) =
        ((trimGrid g).bounds.minCol + c) + 1 by omega]
      exact hsp2
  · intro r c hc1 hc2
    have hs1 := hcellof r c hc1
    have hs2 := hcellof (r + 1) c hc2
    rw [show (trimGrid g).bounds.minRow + (r + 1) =
      ((trimGrid g).bounds.minRow + r) + 1 by omega] at hs2
    obtain ⟨e, he, hd, hsp1, hsp2⟩ := hV _ _ hs1 hs2
    refine ⟨{ e with position := ⟨e.position.row - (trimGrid g).bounds.minRow,
        e.position.col - (trimGrid g).bounds.minCol⟩ }, ?_, hd, hshift e he r c hsp1, ?_⟩
    · rw [adjustEntryPositions]
      exact List.mem_map.mpr ⟨e, he, rfl⟩
    · refine hshift e he (r + 1) c ?_
      rw [show (trimGrid g).bounds.minRow + (r + 1) =
        ((trimGrid g).bounds.minRow + r) + 1 by omega]
      exact hsp2
  · intro r c hc
    have hs := hcellof r c hc
    obtain ⟨e, he, hsp⟩ := hC _ _ hs
    exact ⟨{ e with position := ⟨e.position.row - (trimGrid g).bounds.minRow,
        e.position.col - (trimGrid g).bounds.minCol⟩ },
      by rw [adjustEntryPositions]; exact List.mem_map.mpr ⟨e, he, rfl⟩,
      hshift e he r c hsp⟩

/-- C2 (amended): the per-cell placement checks let entries overlap
colinearly, so a maximal run need not equal a single entry (see the
counterexample); what the checks do guarantee in every successful result
is that any two adjacent filled cells lie on the span of one common entry
running in that direction, and every filled cell belongs to some entry —
so no filled segment ever crosses from one word to an unrelated one. -/
theorem c2_adjacency (qs : List Question) (rnd : Nat → Nat) (res : CrosswordResult)
    (h : buildCrossword qs rnd = .ok res) :
    HPairCovered res.grid res.entries ∧ VPairCovered res.grid res.entries ∧
    CellCovered res.grid res.entries := by
  obtain ⟨-, -, k, c, st, -, hrt, -, hres⟩ := buildOk_elim h
  obtain ⟨fw, rest, rem, pos, dir, hws, hpos, hdown, hsub, hst⟩ := runAttempt_some_elim hrt
  have hfw : fw ∈ preprocess qs := by
    rw [hws]
    simp
  have hfwlen : 3 ≤ fw.word.length := preprocess_mem_len hfw
  have hrow30 : pos.row < 30 := by rcases hpos with rfl | rfl | rfl <;> simp
  have hcol30 : pos.col < 30 := by rcases hpos with rfl | rfl | rfl <;> simp
  have hwfseed : WFGrid (placeWordInGrid (emptyGrid 30 30) fw.word
      ⟨pos.row, pos.col, dir⟩) 30 30 :=
    wf_placeWordInGrid (wf_emptyGrid 30 30) _ _
  have hlenrem : ∀ wd ∈ rem, 0 < wd.word.length := by
    intro wd hwd
    have hmem : wd ∈ preprocess qs := by
      rw [hws]
      exact List.mem_cons_of_mem _ (hsub wd hwd)
    have := preprocess_mem_len hmem
    omega
  have hseed := covered_seed fw.word fw.question pos dir
  have hcov := foldPlace_covered rem
    ⟨placeWordInGrid (emptyGrid 30 30) fw.word ⟨pos.row, pos.col, dir⟩,
      [⟨fw.word, fw.question, pos, dir, 1⟩], [fw.word], 2⟩
    hwfseed hseed.1 hseed.2.1 hseed.2.2
  have hfcf := foldPlace_firstCell rem
    ⟨placeWordInGrid (emptyGrid 30 30) fw.word ⟨pos.row, pos.col, dir⟩,
      [⟨fw.word, fw.question, pos, dir, 1⟩], [fw.word], 2⟩
    hwfseed hlenrem (by
      intro e he
      simp only [List.mem_singleton] at he
      subst he
      exact seed_first_filled hrow30 hcol30 (by omega))
  have hwfst : WFGrid st.grid 30 30 := by
    rw [hst]
    exact hcov.1
  have hHst : HPairCovered st.grid st.entries := by
    rw [hst]
    exact hcov.2.1
  have hVst : VPairCovered st.grid st.entries := by
    rw [hst]
    exact hcov.2.2.1
  have hCst : CellCovered st.grid st.entries := by
    rw [hst]
    exact hcov.2.2.2
  have hFCFst : ∀ e ∈ st.entries, getCell st.grid e.position.row e.position.col ≠ none := by
    rw [hst]
    exact hfcf
  have htrim := covered_trim hwfst hHst hVst hCst hFCFst
  rw [hres]
  simp only [processAttempt]
  refine ⟨?_, ?_, ?_⟩
  · intro r c2 h1 h2
    obtain ⟨e, he, hd, hs1, hs2⟩ := htrim.1 r c2 h1 h2
    obtain ⟨x, hx, hxe⟩ := numberEntries_mem_rev he
    refine ⟨x, hx, ?_, ?_, ?_⟩
    · rw [hxe]
      exact hd
    · rw [hxe]
      exact hs1
    · rw [hxe]
      exact hs2
  · intro r c2 h1 h2
    obtain ⟨e, he, hd, hs1, hs2⟩ := htrim.2.1 r c2 h1 h2
    obtain ⟨x, hx, hxe⟩ := numberEntries_mem_rev he
    refine ⟨x, hx, ?_, ?_, ?_⟩
    · rw [hxe]
      exact hd
    · rw [hxe]
      exact hs1
    · rw [hxe]
      exact hs2
  · intro r c2 h1
    obtain ⟨e, he, hs⟩ := htrim.2.2 r c2 h1
    obtain ⟨x, hx, hxe⟩ := numberEntries_mem_rev he
    refine ⟨x, hx, ?_⟩
    rw [hxe]
    exact hs

/-- C5: whenever at least 3 words survive preprocessing but every one of
the three attempts places fewer than 3 words, `buildCrossword` fails with
`LayoutConstructionFailed` and returns no partial result; moreover any
attempt placing fewer than 3 words is discarded without being scored or
selected — it leaves the incumbent best crossword and best score
untouched and only advances the random stream. -/
theorem c5_layoutConstructionFailed (qs : List Question) (rnd : Nat → Nat)
    (h3 : 3 ≤ (preprocess qs).length)
    (hfail : ∀ k, k < 3 → placedCount ((runAttemptAt (preprocess qs) rnd k).1) < 3) :
    buildCrossword qs rnd = .error .layoutConstructionFailed ∧
    ∀ (st : LoopState) (k : Nat), st.broke = false →
      placedCount ((runAttempt (preprocess qs) k rnd st.ctr).1) < 3 →
      attemptStep (preprocess qs) rnd st k =
        ⟨st.best, st.bestScore, (runAttempt (preprocess qs) k rnd st.ctr).2, false⟩ :=
  ⟨buildFail_all qs rnd h3 hfail,
    fun st k hb hlt => attemptStep_discard (preprocess qs) rnd st k hb hlt⟩

/-- C9 (amended): the engine is not rnd-independent in general, but when
the first attempt already places every preprocessed word, the loop breaks
before any shuffle can consult the random stream, and the result is the
same for every random stream. -/
theorem c9_determinism (qs : List Question) (rnd rnd2 : Nat → Nat)
    (h3 : 3 ≤ (preprocess qs).length)
    (hall : placedCount ((runAttempt (preprocess qs) 0 rnd 0).1) = (preprocess qs).length) :
    buildCrossword qs rnd = buildCrossword qs rnd2 := by
  have hq : ¬ qs.length < 3 := by
    have := preprocess_length_le qs
    omega
  have hstep0 : attemptStep (preprocess qs) rnd ⟨none, -1, 0, false⟩ 0 =
      attemptStep (preprocess qs) rnd2 ⟨none, -1, 0, false⟩ 0 := by
    simp only [attemptStep]
    rw [runAttempt_zero (preprocess qs) rnd rnd2 0]
  have hbroke : (attemptStep (preprocess qs) rnd ⟨none, -1, 0, false⟩ 0).broke = true := by
    simp only [attemptStep]
    rcases hr : runAttempt (preprocess qs) 0 rnd 0 with ⟨o, c2⟩
    rw [hr] at hall
    rcases o with _ | s
    · simp only [placedCount] at hall
      omega
    · simp only [placedCount] at hall
      simp [hall, Nat.not_lt.mpr h3]
  have hfold : [0, 1, 2].foldl (attemptStep (preprocess qs) rnd) ⟨none, -1, 0, false⟩ =
      [0, 1, 2].foldl (attemptStep (preprocess qs) rnd2) ⟨none, -1, 0, false⟩ := by
    have hL : [0, 1, 2].foldl (attemptStep (preprocess qs) rnd) ⟨none, -1, 0, false⟩ =
        attemptStep (preprocess qs) rnd ⟨none, -1, 0, false⟩ 0 := by
      rw [List.foldl_cons]
      exact foldl_attemptStep_broke _ _ _ _ hbroke
    have hR : [0, 1, 2].foldl (attemptStep (preprocess qs) rnd2) ⟨none, -1, 0, false⟩ =
        attemptStep (preprocess qs) rnd2 ⟨none, -1, 0, false⟩ 0 := by
      rw [List.foldl_cons]
      exact foldl_attemptStep_broke _ _ _ _ (by rw [← hstep0]; exact hbroke)
    rw [hL, hR, hstep0]
  simp only [buildCrossword, if_neg hq, if_neg (show ¬ (preprocess qs).length < 3 by omega)]
  rw [hfold]

/-! ### Concrete runs of the full engine -/

/-- A degenerate random stream: every draw is 0. -/
def rnd0c : Nat → Nat := fun _ => 0

/-- A degenerate random stream: every draw is 1. -/
def rnd1c : Nat → Nat := fun _ => 1

/-- Three short words; the first attempt places only 2 of them, so the
outcome depends on the shuffles of the later attempts. -/
def exA : List Question := [⟨"q1", "AAA"⟩, ⟨"q2", "BBB"⟩, ⟨"q3", "AAB"⟩]

/-- A 21-letter answer: its across seed write runs past the scratch grid
edge and is silently truncated. -/
def exLong : List Question :=
  [⟨"q1", "AAAAAAAAAAAAAAAAAAAAA"⟩, ⟨"q2", "AAB"⟩, ⟨"q3", "ABA"⟩]

/-- The same word three times: the two duplicates are skipped by the
used-words check, so every attempt places only the seed word and the
placement search is never even consulted. -/
def exC5 : List Question := [⟨"q1", "AAA"⟩, ⟨"q2", "AAA"⟩, ⟨"q3", "AAA"⟩]

/-- The successful result of `buildCrossword exA rnd0c` (won by the
second attempt, whose seed runs down). -/
def resA : CrosswordResult :=
  ⟨[[none, none, none, none, none],
    [none, none, none, some 'B', none],
    [none, none, none, some 'B', none],
    [none, some 'A', some 'A', some 'B', none],
    [none, none, some 'A', none, none],
    [none, none, some 'A', none, none],
    [none, none, none, none, none]],
   [⟨['B', 'B', 'B'], "q2", ⟨1, 3⟩, .down, 1⟩,
    ⟨['A', 'A', 'B'], "q3", ⟨3, 1⟩, .across, 2⟩,
    ⟨['A', 'A', 'A'], "q1", ⟨3, 2⟩, .down, 3⟩]⟩

/-- The successful result of `buildCrossword exLong rnd0c`: row 3 holds
only 20 of the 21 letters of the truncated seed answer. -/
def resB : CrosswordResult :=
  ⟨[List.replicate 21 none,
    [none, none, none, some 'A'] ++ List.replicate 17 none,
    [none, some 'A', none, some 'B'] ++ List.replicate 17 none,
    none :: List.replicate 20 (some 'A'),
    [none, some 'B'] ++ List.replicate 19 none,
    List.replicate 21 none],
   [⟨['A', 'B', 'A'], "q3", ⟨1, 3⟩, .down, 1⟩,
    ⟨['A', 'A', 'B'], "q2", ⟨2, 1⟩, .down, 2⟩,
    ⟨List.replicate 21 'A', "q1", ⟨3, 1⟩, .across, 3⟩]⟩

/-- The state reached by the second attempt on `exA` (the seed `AAA` runs
down from (5,5); `AAB` then crosses its middle letter and `BBB` hangs off
the final `B`). -/
def stA1 : SearchState :=
  ⟨placeWordInGrid (placeWordInGrid (placeWordInGrid (emptyGrid 30 30)
      ['A', 'A', 'A'] ⟨5, 5, .down⟩) ['A', 'A', 'B'] ⟨5, 4, .across⟩)
      ['B', 'B', 'B'] ⟨3, 6, .down⟩,
   [⟨['A', 'A', 'A'], "q1", ⟨5, 5⟩, .down, 1⟩,
    ⟨['A', 'A', 'B'], "q3", ⟨5, 4⟩, .across, 2⟩,
    ⟨['B', 'B', 'B'], "q2", ⟨3, 6⟩, .down, 3⟩],
   [['A', 'A', 'A'], ['A', 'A', 'B'], ['B', 'B', 'B']], 4⟩

/-- The state reached by the first attempt on `exLong`: the 21-letter
seed is written across from (10,10) and truncated at the grid edge, and
the two short words cross what remains of it. -/
def stB0 : SearchState :=
  ⟨placeWordInGrid (placeWordInGrid (placeWordInGrid (emptyGrid 30 30)
      (List.replicate 21 'A') ⟨10, 10, .across⟩) ['A', 'A', 'B'] ⟨9, 10, .down⟩)
      ['A', 'B', 'A'] ⟨8, 12, .down⟩,
   [⟨List.replicate 21 'A', "q1", ⟨10, 10⟩, .across, 1⟩,
    ⟨['A', 'A', 'B'], "q2", ⟨9, 10⟩, .down, 2⟩,
    ⟨['A', 'B', 'A'], "q3", ⟨8, 12⟩, .down, 3⟩],
   [List.replicate 21 'A', ['A', 'A', 'B'], ['A', 'B', 'A']], 4⟩

set_option maxRecDepth 1000000 in
theorem exA_attempt0_small : placedCount ((runAttemptAt (preprocess exA) rnd0c 0).1) < 3 := by
  decide!

set_option maxRecDepth 1000000 in
theorem exA_attempt1_eq : runAttemptAt (preprocess exA) rnd0c 1 = (some stA1, 1) := by
  decide!

set_option maxRecDepth 1000000 in
theorem stA1_proc : processAttempt stA1.grid stA1.entries = resA := by decide!

set_option maxRecDepth 1000000 in
theorem stA1_score :
    (-1 : ℚ) < scoreGrid stA1.grid stA1.entries.length (preprocess exA).length := by decide!

theorem buildA0_eq : buildCrossword exA rnd0c = .ok resA :=
  buildOk_attempt1 exA rnd0c stA1 resA 1 (by decide) exA_attempt0_small exA_attempt1_eq
    (by decide) stA1_score stA1_proc (by decide)

theorem exA_rnd1_attempt0_small :
    placedCount ((runAttemptAt (preprocess exA) rnd1c 0).1) < 3 := by
  rw [show runAttemptAt (preprocess exA) rnd1c 0 = runAttemptAt (preprocess exA) rnd0c 0 from
    runAttempt_zero (preprocess exA) rnd1c rnd0c 0]
  exact exA_attempt0_small

set_option maxRecDepth 1000000 in
theorem exA_rnd1_attempt1_small :
    placedCount ((runAttemptAt (preprocess exA) rnd1c 1).1) < 3 := by decide!

set_option maxRecDepth 1000000 in
theorem exA_rnd1_attempt2_small :
    placedCount ((runAttemptAt (preprocess exA) rnd1c 2).1) < 3 := by decide!

theorem buildA1_eq : buildCrossword exA rnd1c = .error .layoutConstructionFailed :=
  buildFail_all exA rnd1c (by decide) (by
    intro k hk
    rcases k with _ | _ | _ | n
    · exact exA_rnd1_attempt0_small
    · exact exA_rnd1_attempt1_small
    · exact exA_rnd1_attempt2_small
    · exact absurd hk (by omega))

set_option maxRecDepth 1000000 in
theorem exLong_attempt0_eq : runAttemptAt (preprocess exLong) rnd0c 0 = (some stB0, 0) := by
  decide!

set_option maxRecDepth 1000000 in
theorem stB0_proc : processAttempt stB0.grid stB0.entries = resB := by decide!

set_option maxRecDepth 1000000 in
theorem stB0_score :
    (-1 : ℚ) < scoreGrid stB0.grid stB0.entries.length (preprocess exLong).length := by decide!

theorem buildB0_eq : buildCrossword exLong rnd0c = .ok resB :=
  buildOk_attempt0 exLong rnd0c stB0 resB 0 (by decide) exLong_attempt0_eq (by decide)
    stB0_score stB0_proc (by decide)

/-- The shuffle-free first attempt on `exLong` places every preprocessed
word. -/
theorem exLong_attempt0_full :
    placedCount ((runAttempt (preprocess exLong) 0 rnd0c 0).1) = (preprocess exLong).length := by
  rw [show runAttempt (preprocess exLong) 0 rnd0c 0 = (some stB0, 0) from exLong_attempt0_eq]
  decide

theorem c5fail0 : placedCount ((runAttemptAt (preprocess exC5) rnd0c 0).1) < 3 := by decide

theorem c5fail1 : placedCount ((runAttemptAt (preprocess exC5) rnd0c 1).1) < 3 := by decide

theorem c5fail2 : placedCount ((runAttemptAt (preprocess exC5) rnd0c 2).1) < 3 := by decide

theorem c5_witness :
    3 ≤ (preprocess exC5).length ∧
    buildCrossword exC5 rnd0c = .error .layoutConstructionFailed := by
  refine ⟨by decide, ?_⟩
  refine (c5_layoutConstructionFailed exC5 rnd0c (by decide) ?_).1
  intro k hk
  rcases k with _ | _ | _ | n
  · exact c5fail0
  · exact c5fail1
  · exact c5fail2
  · exact absurd hk (by omega)

/-- The same question list built with two different random streams gives
a success and a failure: `buildCrossword` is not a function of the
question list alone. -/
theorem c9_counterexample : buildCrossword exA rnd1c ≠ buildCrossword exA rnd0c := by
  rw [buildA1_eq, buildA0_eq]
  simp

theorem c9_witness :
    3 ≤ (preprocess exLong).length ∧
    placedCount ((runAttempt (preprocess exLong) 0 rnd0c 0).1) =
      (preprocess exLong).length ∧
    buildCrossword exLong rnd0c = buildCrossword exLong rnd1c := by
  refine ⟨by decide, exLong_attempt0_full, ?_⟩
  exact c9_determinism exLong rnd0c rnd1c (by decide) exLong_attempt0_full

theorem c10_witness :
    buildCrossword exA rnd0c = .ok resA ∧
    resA.entries.Pairwise (fun a b => a.answer ≠ b.answer) :=
  ⟨buildA0_eq, c10_distinct_answers exA rnd0c resA buildA0_eq⟩

theorem c8_witness :
    buildCrossword exA rnd0c = .ok resA ∧
    ∃ st : SearchState, resA = processAttempt st.grid st.entries ∧
      ∀ r, r < resA.grid.length →
        (∃ c2, getCell resA.grid r c2 ≠ none) ∨ r = 0 ∨ r = resA.grid.length - 1 := by
  obtain ⟨st, s, h1, h2, h3, h4, h5, h6, h7, h8, h9, h10, h11, h12, h13, h14⟩ :=
    c8_trimming exA rnd0c resA buildA0_eq
  exact ⟨buildA0_eq, st, h2, h13⟩

theorem c1_witness :
    (∀ wd ∈ preprocess exA, wd.word.length ≤ 15) ∧
    buildCrossword exA rnd0c = .ok resA ∧
    ∀ e ∈ resA.entries, ReadsBack resA.grid e :=
  ⟨by decide, buildA0_eq, c1_round_trip exA rnd0c resA (by decide) buildA0_eq⟩

/-- The 21-letter seed answer of a successful build does not read back:
its last letter was silently dropped at the scratch-grid edge. -/
theorem c1_counterexample :
    buildCrossword exLong rnd0c = .ok resB ∧
    ¬ ∀ e ∈ resB.entries, ReadsBack resB.grid e :=
  ⟨buildB0_eq, by decide⟩

theorem c2_witness :
    buildCrossword exA rnd0c = .ok resA ∧
    HPairCovered resA.grid resA.entries ∧ VPairCovered resA.grid resA.entries ∧
    CellCovered resA.grid resA.entries :=
  ⟨buildA0_eq, c2_adjacency exA rnd0c resA buildA0_eq⟩

/-- A successful build whose grid holds a maximal horizontal run of 20
cells (row 3, columns 1–20, flanked by empty cells) that no declared
across entry covers exactly: the only across entry there claims 21
letters. -/
theorem c2_counterexample :
    buildCrossword exLong rnd0c = .ok resB ∧
    (∀ i, i < 20 → getCell resB.grid 3 (1 + i) ≠ none) ∧
    getCell resB.grid 3 0 = none ∧ getCell resB.grid 3 21 = none ∧
    ¬ ∃ e ∈ resB.entries, e.direction = Dir.across ∧ e.position = ⟨3, 1⟩ ∧
      e.answer.length = 20 :=
  ⟨buildB0_eq, by decide, by decide, by decide, by decide⟩

end MusicCrossword
